import Mathlib

/-!
Verification development for the reverse MVCC range scanner implemented in
src/storage/mvcc/reader/backward_scanner.rs.

The embedding models the three column families of the snapshot as sorted
association lists:
  - write CF: composite key (user key, commit ts) to a parsed write record,
    the physical byte order being user key ascending, commit ts descending
    (the byte encoding appends the bitwise complement of the timestamp, and
    encoded user keys are prefix free, so that order on the pairs is exactly
    the byte order of the encoded composite keys);
  - lock CF: user key to lock record;
  - default CF: composite key (user key, start ts) to value bytes.

A cursor is a list of entries together with an optional position; the five
statistics counters (seek, seek_for_prev, next, prev, processed) are threaded
exactly where the source passes a mutable statistics reference.  User keys are
byte strings, modelled as lists of naturals under lexicographic order; commit
timestamps are u64 values used only in comparisons, modelled as naturals.

The loops of the source are transcribed with an explicit iteration budget where
the source uses a bounded for loop, and with fuel (provably sufficient) where
the source loop is unbounded; running out of fuel surfaces as a distinguished
error value that the theorems rule out.  The constant REVERSE_SEEK_BOUND is 16
in the source and SEEK_BOUND is imported from the storage engine, so both are
parameters of the model, with REVERSE_SEEK_BOUND recorded as its source value.
-/

namespace BackwardScannerModel

/-- User keys are raw byte strings under lexicographic order. -/
abbrev UserKey := List Nat

/-- Values are byte strings. -/
abbrev Value := List Nat

/-- Commit and start timestamps (u64 in the source, used only in comparisons). -/
abbrev Ts := Nat

/-- Lexicographic strict order on byte strings, the order of user keys. -/
def keyLt : List Nat → List Nat → Bool
  | [], [] => false
  | [], _ :: _ => true
  | _ :: _, [] => false
  | a :: as, b :: bs => a < b || (a == b && keyLt as bs)

/-- Three way comparison of user keys, mirroring write_user_key.cmp(lk). -/
def compareKeys (a b : List Nat) : Ordering :=
  if keyLt a b then .lt else if keyLt b a then .gt else .eq

/-- Order of encoded composite keys in the write CF: user key ascending and,
within one user key, commit timestamp descending (the encoding appends the
bitwise complemented big endian timestamp to the encoded user key). -/
def compositeLt (a b : UserKey × Ts) : Bool :=
  keyLt a.1 b.1 || (a.1 == b.1 && b.2 < a.2)

/-- Write record kinds, as in storage::mvcc::write::WriteType. -/
inductive WriteType where
  | Put
  | Delete
  | Lock
  | Rollback
deriving DecidableEq, Repr, Inhabited

/-- A parsed write record: storage::mvcc::write::Write.  Only the fields the
scanner reads are modelled. -/
structure Write where
  write_type : WriteType
  start_ts : Ts
  short_value : Option Value
deriving DecidableEq, Repr, Inhabited

/-- A lock record.  Per the spec (section 3) it carries the locking
transaction start_ts and a primary key pointer; the scanner itself only hands
it to the lock check. -/
structure LockRecord where
  start_ts : Ts
  primary : UserKey
deriving DecidableEq, Repr, Inhabited

/-- kvproto IsolationLevel, restricted to the two variants the scanner uses. -/
inductive IsolationLevel where
  | SI
  | RC
deriving DecidableEq, Repr, Inhabited

/-- Modelled from the spec: result of the lock visibility check performed by
super::util::load_and_check_lock_from_cursor, which is not among the sources
(reader/util.rs).  Per the spec (section 4.2) the check either lets the read
proceed (NotLocked), blocks it with an error (Locked), or asks for the read to
be reissued at an earlier timestamp (Ignored).  The error payload is abstract. -/
inductive CheckLockResult where
  | NotLocked
  | Locked (e : Nat)
  | Ignored (ts : Ts)
deriving DecidableEq, Repr, Inhabited

/-- Errors a scan step can surface.  KeyIsLocked propagates the payload of a
blocking lock; AssertionFailed models a failing assert! or an unreachable!
arm; ValueNotFound models the default CF lookup miss of the value loader;
FuelExhausted is an artifact of the fuel based transcription of the unbounded
source loops and is proved unreachable where a claim needs it. -/
inductive ScanError where
  | KeyIsLocked (e : Nat)
  | AssertionFailed
  | ValueNotFound
  | FuelExhausted
deriving DecidableEq, Repr, Inhabited

/-- Per column family statistics counters (storage::Statistics), restricted to
the counters the source touches. -/
structure CfStatistics where
  seek : Nat := 0
  seek_for_prev : Nat := 0
  next : Nat := 0
  prev : Nat := 0
  processed : Nat := 0
deriving DecidableEq, Repr, Inhabited

/-- Statistics grouped by column family. -/
structure Statistics where
  lock : CfStatistics := {}
  write : CfStatistics := {}
  data : CfStatistics := {}
deriving DecidableEq, Repr, Inhabited

/-- A cursor over one column family: the entries visible to it (the range
restriction of the builder is applied when the cursor is created) and the
current position, none meaning the iterator is invalid. -/
structure Cursor (κ α : Type) where
  entries : List (κ × α)
  pos : Option Nat
deriving DecidableEq, Repr

namespace Cursor

variable {κ α : Type}

/-- Cursor validity. -/
def valid (c : Cursor κ α) : Bool := c.pos.isSome

/-- The entry under the cursor.  Only meaningful while the cursor is valid and
in bounds, which the well formedness invariant guarantees. -/
def current [Inhabited κ] [Inhabited α] (c : Cursor κ α) : κ × α :=
  match c.pos with
  | none => default
  | some p => c.entries.getD p default

/-- The key under the cursor. -/
def currentKey [Inhabited κ] [Inhabited α] (c : Cursor κ α) : κ :=
  c.current.1

/-- The value under the cursor. -/
def currentValue [Inhabited κ] [Inhabited α] (c : Cursor κ α) : α :=
  c.current.2

/-- Step the cursor to the previous entry; stepping from the first entry makes
it invalid.  Counts one prev, as the underlying engine does. -/
def prev (c : Cursor κ α) (st : CfStatistics) : Cursor κ α × CfStatistics :=
  let st := { st with prev := st.prev + 1 }
  match c.pos with
  | none => ({ c with pos := none }, st)
  | some 0 => ({ c with pos := none }, st)
  | some (p + 1) => ({ c with pos := some p }, st)

/-- Step the cursor to the next entry; stepping from the last entry makes it
invalid.  Counts one next. -/
def next (c : Cursor κ α) (st : CfStatistics) : Cursor κ α × CfStatistics :=
  let st := { st with next := st.next + 1 }
  match c.pos with
  | none => (c, st)
  | some p =>
    if p + 1 < c.entries.length then ({ c with pos := some (p + 1) }, st)
    else ({ c with pos := none }, st)

/-- Position the cursor on the last entry of its range.  Counts one seek. -/
def seek_to_last (c : Cursor κ α) (st : CfStatistics) : Cursor κ α × CfStatistics :=
  let st := { st with seek := st.seek + 1 }
  if c.entries.isEmpty then ({ c with pos := none }, st)
  else ({ c with pos := some (c.entries.length - 1) }, st)

/-- Number of entries whose key is strictly below the probe, in the sense of
the supplied predicate.  On a sorted entry list this is the rank of the probe:
the index of the first entry at or above it. -/
def rankOf (c : Cursor κ α) (ltProbe : κ → Bool) : Nat :=
  c.entries.countP (fun e => ltProbe e.1)

/-- Position the cursor on the greatest entry strictly below the probe, or
invalidate it when there is none.  This is reverse_seek of the backward scan
mode; it counts one seek_for_prev (the step back that the engine cursor takes
when seek_for_prev lands exactly on the probe never happens here, because the
probe is a user key without timestamp suffix for the write CF and an excluded
range bound for the lock CF). -/
def reverse_seek (c : Cursor κ α) (ltProbe : κ → Bool) (st : CfStatistics) :
    Cursor κ α × CfStatistics :=
  let st := { st with seek_for_prev := st.seek_for_prev + 1 }
  let n := c.rankOf ltProbe
  if n = 0 then ({ c with pos := none }, st)
  else ({ c with pos := some (n - 1) }, st)

/-- Position the cursor on the first entry at or above the probe (an ascending
direction seek), or invalidate it when there is none.  Counts one seek. -/
def internal_seek (c : Cursor κ α) (ltProbe : κ → Bool) (st : CfStatistics) :
    Cursor κ α × CfStatistics :=
  let st := { st with seek := st.seek + 1 }
  let n := c.rankOf ltProbe
  if n = c.entries.length then ({ c with pos := none }, st)
  else ({ c with pos := some n }, st)

/-- Position the cursor on the greatest entry at or below the probe, or
invalidate it when there is none.  Counts one seek_for_prev. -/
def internal_seek_for_prev (c : Cursor κ α) (leProbe : κ → Bool) (st : CfStatistics) :
    Cursor κ α × CfStatistics :=
  let st := { st with seek_for_prev := st.seek_for_prev + 1 }
  let n := c.entries.countP (fun e => leProbe e.1)
  if n = 0 then ({ c with pos := none }, st)
  else ({ c with pos := some (n - 1) }, st)

end Cursor

/-- A snapshot of the three column families.  The write CF list is meant to be
sorted by compositeLt, the lock CF list by keyLt; the invariants are stated as
hypotheses of the theorems, not enforced by the type. -/
structure Snapshot where
  write_cf : List ((UserKey × Ts) × Write)
  lock_cf : List (UserKey × LockRecord)
  default_cf : List ((UserKey × Ts) × Value)
deriving DecidableEq, Repr, Inhabited

/-- Whether a user key lies inside the half open range given by the optional
bounds, as enforced by the range restriction of CursorBuilder. -/
def inRangeUser (lower upper : Option UserKey) (k : UserKey) : Bool :=
  (match lower with
   | none => true
   | some l => !keyLt k l) &&
  (match upper with
   | none => true
   | some u => keyLt k u)

/-- The source constant: REVERSE_SEEK_BOUND = 16. -/
def REVERSE_SEEK_BOUND : Nat := 16

/-- The scanner state (struct BackwardScanner).  The snapshot field of the
source is kept as the default CF entry list, which is all the scanner ever
reads from it after build (the lazily created default cursor). -/
structure BackwardScanner where
  fill_cache : Bool
  omit_value : Bool
  isolation_level : IsolationLevel
  lower_bound : Option UserKey
  upper_bound : Option UserKey
  ts : Ts
  lock_cursor : Cursor UserKey LockRecord
  write_cursor : Cursor (UserKey × Ts) Write
  default_cursor : Option (Cursor (UserKey × Ts) Value)
  default_cf : List ((UserKey × Ts) × Value)
  is_started : Bool
  statistics : Statistics
deriving DecidableEq, Repr

/-- The builder (struct BackwardScannerBuilder). -/
structure BackwardScannerBuilder where
  snapshot : Snapshot
  fill_cache : Bool := true
  omit_value : Bool := false
  isolation_level : IsolationLevel := .SI
  lower_bound : Option UserKey := none
  upper_bound : Option UserKey := none
  ts : Ts
deriving DecidableEq, Repr

/-- BackwardScannerBuilder::build: create the lock and write cursors eagerly
with the configured range; the default cursor is deferred. -/
def BackwardScannerBuilder.build (b : BackwardScannerBuilder) : BackwardScanner :=
  { fill_cache := b.fill_cache
    omit_value := b.omit_value
    isolation_level := b.isolation_level
    lower_bound := b.lower_bound
    upper_bound := b.upper_bound
    ts := b.ts
    lock_cursor :=
      { entries := b.snapshot.lock_cf.filter (fun e => inRangeUser b.lower_bound b.upper_bound e.1)
        pos := none }
    write_cursor :=
      { entries := b.snapshot.write_cf.filter (fun e => inRangeUser b.lower_bound b.upper_bound e.1.1)
        pos := none }
    default_cursor := none
    default_cf := b.snapshot.default_cf
    is_started := false
    statistics := {} }

namespace BackwardScanner

/-- BackwardScanner::take_statistics: hand out the collected statistics and
reset them to their default (all zero) value. -/
def take_statistics (s : BackwardScanner) : Statistics × BackwardScanner :=
  (s.statistics, { s with statistics := {} })

/-- self.write_cursor.prev(&mut self.statistics.write). -/
def writePrev (s : BackwardScanner) : BackwardScanner :=
  let r := s.write_cursor.prev s.statistics.write
  { s with write_cursor := r.1, statistics := { s.statistics with write := r.2 } }

/-- self.write_cursor.next(&mut self.statistics.write). -/
def writeNext (s : BackwardScanner) : BackwardScanner :=
  let r := s.write_cursor.next s.statistics.write
  { s with write_cursor := r.1, statistics := { s.statistics with write := r.2 } }

/-- self.lock_cursor.prev(&mut self.statistics.lock). -/
def lockPrev (s : BackwardScanner) : BackwardScanner :=
  let r := s.lock_cursor.prev s.statistics.lock
  { s with lock_cursor := r.1, statistics := { s.statistics with lock := r.2 } }

/-- self.statistics.write.processed += 1 (after parsing a write record). -/
def incWriteProcessed (s : BackwardScanner) : BackwardScanner :=
  { s with statistics :=
    { s.statistics with write :=
      { s.statistics.write with processed := s.statistics.write.processed + 1 } } }

/-- self.write_cursor.internal_seek(&seek_key, ..) with seek_key the composite
key (user_key, ts). -/
def writeInternalSeek (s : BackwardScanner) (seek_key : UserKey × Ts) : BackwardScanner :=
  let r := s.write_cursor.internal_seek (fun ck => compositeLt ck seek_key) s.statistics.write
  { s with write_cursor := r.1, statistics := { s.statistics with write := r.2 } }

/-- self.write_cursor.internal_seek_for_prev(&current_user_key, ..): the probe
is a bare user key, and a composite key is at or below it exactly when its
user component is strictly below it. -/
def writeInternalSeekForPrev (s : BackwardScanner) (user_key : UserKey) : BackwardScanner :=
  let r := s.write_cursor.internal_seek_for_prev (fun ck => keyLt ck.1 user_key)
    s.statistics.write
  { s with write_cursor := r.1, statistics := { s.statistics with write := r.2 } }

/-- BackwardScanner::ensure_default_cursor: lazily create the default CF
cursor, consuming the stored range bounds. -/
def ensure_default_cursor (s : BackwardScanner) : BackwardScanner :=
  match s.default_cursor with
  | some _ => s
  | none =>
    let entries := s.default_cf.filter (fun e => inRangeUser s.lower_bound s.upper_bound e.1.1)
    { s with
      default_cursor := some { entries := entries, pos := none }
      lower_bound := none
      upper_bound := none }

/-- Modelled from the spec: super::util::near_reverse_load_data_by_write lives
in reader/util.rs, which is not among the sources.  Per the spec (section 4.6)
it locates the value stored in the default CF at the composite key given by
the user key and the start_ts of the write record, failing with ValueNotFound
when the entry is absent; the bounded near seek strategy it uses only affects
the cursor position and the default CF statistics, which no claim observes, so
the model performs the lookup directly and leaves the cursor on the entry it
found. -/
def near_reverse_load_data_by_write (c : Cursor (UserKey × Ts) Value) (user_key : UserKey)
    (write : Write) : Except ScanError Value × Cursor (UserKey × Ts) Value :=
  match c.entries.findIdx? (fun e => e.1 == (user_key, write.start_ts)) with
  | none => (.error .ValueNotFound, c)
  | some i => (.ok (c.entries.getD i default).2, { c with pos := some i })

/-- BackwardScanner::reverse_load_data_by_write: with omit_value the value is
the empty byte string and the default CF is never touched; a short value is
returned directly; otherwise the default cursor is created on demand and the
value is loaded from the default CF. -/
def reverse_load_data_by_write (s : BackwardScanner) (write : Write) (user_key : UserKey) :
    Except ScanError Value × BackwardScanner :=
  if s.omit_value then (.ok [], s)
  else
    match write.short_value with
    | some value => (.ok value, s)
    | none =>
      let s1 := s.ensure_default_cursor
      match s1.default_cursor with
      | none => (.error .ValueNotFound, s1)
      | some dc =>
        let r := near_reverse_load_data_by_write dc user_key write
        (r.1, { s1 with default_cursor := some r.2 })

/-- BackwardScanner::handle_last_version: interpret the recorded last Put or
Delete; any other kind is unreachable. -/
def handle_last_version (s : BackwardScanner) (some_write : Option Write) (user_key : UserKey) :
    Except ScanError (Option Value) × BackwardScanner :=
  match some_write with
  | none => (.ok none, s)
  | some write =>
    match write.write_type with
    | .Put =>
      let r := s.reverse_load_data_by_write write user_key
      (r.1.map some, r.2)
    | .Delete => (.ok none, s)
    | .Lock => (.error .AssertionFailed, s)
    | .Rollback => (.error .AssertionFailed, s)

/-- Result of the bounded stepping phase of reverse_get: either an early
return (with the met_prev_user_key flag as set by the source), after which
handle_last_version decides the result, or fall through to the seek phase
carrying last_version and last_checked_commit_ts. -/
inductive PhaseARes where
  | Ret (last_version : Option Write) (met_prev_user_key : Bool)
  | Cont (last_version : Option Write) (last_checked_commit_ts : Ts)
deriving DecidableEq, Repr

/-- The body of one iteration of the for loop of reverse_get (phase A),
applied once the cursor is known to be valid: record last_checked_commit_ts
from the key under the cursor, return early when another user key is met
(setting met_prev_user_key) or when the version is newer than ts, otherwise
parse the record, count it as processed, record it as last_version when it is
a Put or a Delete, and continue with the updated accumulators. -/
def phase_a_check (user_key : UserKey) (ts : Ts) (lv : Option Write) (s1 : BackwardScanner) :
    (PhaseARes × BackwardScanner) ⊕ (Option Write × Ts × BackwardScanner) :=
  let current_key := s1.write_cursor.currentKey
  if current_key.1 ≠ user_key then .inl (.Ret lv true, s1)
  else if ts < current_key.2 then .inl (.Ret lv false, s1)
  else
    let w := s1.write_cursor.currentValue
    .inr (match w.write_type with
          | .Put => some w
          | .Delete => some w
          | .Lock => lv
          | .Rollback => lv,
          current_key.2, s1.incWriteProcessed)

/-- The iterations of the for loop of reverse_get (phase A) with index above
zero: step backward first, return early when the key space ends, otherwise run
the iteration body. -/
def reverse_get_phase_a_loop (user_key : UserKey) (ts : Ts) :
    Nat → Option Write → Ts → BackwardScanner → PhaseARes × BackwardScanner
  | 0, lv, lc, s => (.Cont lv lc, s)
  | remaining + 1, lv, _, s =>
    let s1 := s.writePrev
    if !s1.write_cursor.valid then (.Ret lv false, s1)
    else
      match phase_a_check user_key ts lv s1 with
      | .inl out => out
      | .inr (lv1, lc1, s2) => reverse_get_phase_a_loop user_key ts remaining lv1 lc1 s2

/-- The for loop of reverse_get (phase A): the iteration with index zero runs
the body without stepping (the cursor already points at the smallest version),
the remaining rsb - 1 iterations step backward first.  Returns the early
result, or falls through carrying last_version and last_checked_commit_ts. -/
def reverse_get_phase_a (user_key : UserKey) (ts : Ts) (rsb : Nat) (s : BackwardScanner) :
    PhaseARes × BackwardScanner :=
  match rsb with
  | 0 => (.Cont none 0, s)
  | remaining + 1 =>
    match phase_a_check user_key ts none s with
    | .inl out => out
    | .inr (lv1, lc1, s2) => reverse_get_phase_a_loop user_key ts remaining lv1 lc1 s2

/-- The seek phase of reverse_get (phase B): after the ascending seek to the
composite key (user_key, ts), walk forward with next over Lock and Rollback
records; a Put or Delete decides the result, and reaching the region already
covered by phase A falls back to last_version.  The asserts of the source are
modelled as AssertionFailed results; the fuel is an upper bound on the list
length and is proved sufficient where needed. -/
def reverse_get_phase_b (user_key : UserKey) (last_checked_commit_ts : Ts)
    (last_version : Option Write) :
    Nat → BackwardScanner → Except ScanError (Option Value) × BackwardScanner
  | 0, s => (.error .FuelExhausted, s)
  | fuel + 1, s =>
    let current_key := s.write_cursor.currentKey
    if current_key.1 ≠ user_key then (.error .AssertionFailed, s)
    else
      let current_ts := current_key.2
      if current_ts ≤ last_checked_commit_ts then s.handle_last_version last_version user_key
      else
        let w := s.write_cursor.currentValue
        let s1 := s.incWriteProcessed
        match w.write_type with
        | .Put =>
          let r := s1.reverse_load_data_by_write w user_key
          (r.1.map some, r.2)
        | .Delete => (.ok none, s1)
        | .Lock =>
          let s2 := s1.writeNext
          if !s2.write_cursor.valid then (.error .AssertionFailed, s2)
          else reverse_get_phase_b user_key last_checked_commit_ts last_version fuel s2
        | .Rollback =>
          let s2 := s1.writeNext
          if !s2.write_cursor.valid then (.error .AssertionFailed, s2)
          else reverse_get_phase_b user_key last_checked_commit_ts last_version fuel s2

/-- BackwardScanner::reverse_get, with the met_prev_user_key out parameter
returned alongside the result.  rsb is the REVERSE_SEEK_BOUND budget of the
bounded stepping phase (16 in the source). -/
def reverse_get (s : BackwardScanner) (rsb : Nat) (user_key : UserKey) (ts : Ts) :
    Except ScanError (Option Value) × Bool × BackwardScanner :=
  if !s.write_cursor.valid then (.error .AssertionFailed, false, s)
  else
    match reverse_get_phase_a user_key ts rsb s with
    | (.Ret lv met, s1) =>
      let r := s1.handle_last_version lv user_key
      (r.1, met, r.2)
    | (.Cont lv lc, s1) =>
      if lc = ts then
        let r := s1.handle_last_version lv user_key
        (r.1, false, r.2)
      else if lc < ts then
        let s2 := s1.writeInternalSeek (user_key, ts)
        if !s2.write_cursor.valid then (.error .AssertionFailed, false, s2)
        else
          let r := reverse_get_phase_b user_key lc lv (s2.write_cursor.entries.length + 1) s2
          (r.1, false, r.2)
      else
        (.error .AssertionFailed, false, s1)

/-- The iterations of the for loop of move_write_cursor_to_prev_user_key with
index above zero: step backward, then stop when the cursor is invalid or on
another user key; when the budget runs out, issue one internal_seek_for_prev
on the current user key. -/
def move_write_cursor_loop (current_user_key : UserKey) :
    Nat → BackwardScanner → BackwardScanner
  | 0, s => s.writeInternalSeekForPrev current_user_key
  | remaining + 1, s =>
    let s1 := s.writePrev
    if !s1.write_cursor.valid then s1
    else if s1.write_cursor.currentKey.1 ≠ current_user_key then s1
    else move_write_cursor_loop current_user_key remaining s1

/-- BackwardScanner::move_write_cursor_to_prev_user_key: up to the sb budget
of iterations (stepping backward before every iteration but the first), stop
as soon as the cursor is invalid or on another user key; if the budget runs
out, issue one internal_seek_for_prev on the current user key. -/
def move_write_cursor_to_prev_user_key (current_user_key : UserKey) (sb : Nat)
    (s : BackwardScanner) : BackwardScanner :=
  match sb with
  | 0 => s.writeInternalSeekForPrev current_user_key
  | remaining + 1 =>
    if !s.write_cursor.valid then s
    else if s.write_cursor.currentKey.1 ≠ current_user_key then s
    else move_write_cursor_loop current_user_key remaining s

/-- The head of one main loop iteration of read_next: determine the current
user key and which column families take part (none when both cursors are
invalid, which is the end of the stream). -/
def currentKeyInfo (s : BackwardScanner) : Option (UserKey × Bool × Bool) :=
  let w_key : Option (UserKey × Ts) :=
    if s.write_cursor.valid then some s.write_cursor.currentKey else none
  let l_key : Option UserKey :=
    if s.lock_cursor.valid then some s.lock_cursor.currentKey else none
  match w_key, l_key with
  | none, none => none
  | none, some lk => some (lk, false, true)
  | some wk, none => some (wk.1, true, false)
  | some wk, some lk =>
    match compareKeys wk.1 lk with
    | .lt => some (lk, false, true)
    | .gt => some (wk.1, true, false)
    | .eq => some (wk.1, true, true)

/-- Lock handling of one main loop iteration: under SI consult the lock check
(possibly blocking the read or overriding the read timestamp), under RC ignore
locks; in either case step the lock cursor backward. -/
def lockStep (checkLock : LockRecord → Ts → CheckLockResult) (s : BackwardScanner)
    (has_lock : Bool) : Except ScanError (Option Value) × Ts × BackwardScanner :=
  if has_lock then
    let rg : Except ScanError (Option Value) × Ts :=
      match s.isolation_level with
      | .SI =>
        match checkLock s.lock_cursor.currentValue s.ts with
        | .NotLocked => (.ok none, s.ts)
        | .Locked e => (.error (.KeyIsLocked e), s.ts)
        | .Ignored nts => (.ok none, nts)
      | .RC => (.ok none, s.ts)
    (rg.1, rg.2, s.lockPrev)
  else (.ok none, s.ts, s)

/-- Write handling of one main loop iteration: run reverse_get unless the lock
produced an error, then, unless reverse_get already met the previous user key,
skip the remaining versions of the current user key. -/
def writeStep (rsb sb : Nat) (s : BackwardScanner) (result1 : Except ScanError (Option Value))
    (get_ts : Ts) (current_user_key : UserKey) (has_write : Bool) :
    Except ScanError (Option Value) × BackwardScanner :=
  if has_write then
    let rg : Except ScanError (Option Value) × Bool × BackwardScanner :=
      match result1 with
      | .ok _ => s.reverse_get rsb current_user_key get_ts
      | .error e => (.error e, false, s)
    if !rg.2.1 then (rg.1, (rg.2.2).move_write_cursor_to_prev_user_key current_user_key sb)
    else (rg.1, rg.2.2)
  else (result1, s)

/-- One iteration of the main loop of read_next plus the recursion into the
next iteration, with fuel.  checkLock stands for the external lock visibility
check (see CheckLockResult); rsb and sb are the two step budgets. -/
def read_next_loop (rsb sb : Nat) (checkLock : LockRecord → Ts → CheckLockResult) :
    Nat → BackwardScanner → Except ScanError (Option (UserKey × Value)) × BackwardScanner
  | 0, s => (.error .FuelExhausted, s)
  | fuel + 1, s =>
    match currentKeyInfo s with
    | none => (.ok none, s)
    | some (current_user_key, has_write, has_lock) =>
      let t1 := lockStep checkLock s has_lock
      let t2 := writeStep rsb sb t1.2.2 t1.1 t1.2.1 current_user_key has_write
      match t2.1 with
      | .error e => (.error e, t2.2)
      | .ok (some v) => (.ok (some (current_user_key, v)), t2.2)
      | .ok none => read_next_loop rsb sb checkLock fuel t2.2

/-- The once only initialization at the head of read_next: position both
cursors with a reverse seek to the upper bound when one is configured, with
seek_to_last otherwise, and mark the iteration as started. -/
def initOnce (s : BackwardScanner) : BackwardScanner :=
  if s.is_started then s
  else
    let s2 :=
      match s.upper_bound with
      | some ub =>
        let rw := s.write_cursor.reverse_seek (fun ck => keyLt ck.1 ub) s.statistics.write
        let s1 := { s with write_cursor := rw.1
                           statistics := { s.statistics with write := rw.2 } }
        let rl := s1.lock_cursor.reverse_seek (fun k => keyLt k ub) s1.statistics.lock
        { s1 with lock_cursor := rl.1
                  statistics := { s1.statistics with lock := rl.2 } }
      | none =>
        let rw := s.write_cursor.seek_to_last s.statistics.write
        let s1 := { s with write_cursor := rw.1
                           statistics := { s.statistics with write := rw.2 } }
        let rl := s1.lock_cursor.seek_to_last s1.statistics.lock
        { s1 with lock_cursor := rl.1
                  statistics := { s1.statistics with lock := rl.2 } }
    { s2 with is_started := true }

/-- BackwardScanner::read_next: on the first call position both cursors, then
run the main loop.  The fuel passed to the loop exceeds the number of user
keys either cursor can traverse, so in well formed states the loop never runs
out. -/
def read_next (rsb sb : Nat) (checkLock : LockRecord → Ts → CheckLockResult)
    (s : BackwardScanner) : Except ScanError (Option (UserKey × Value)) × BackwardScanner :=
  let s0 := s.initOnce
  read_next_loop rsb sb checkLock
    (s0.lock_cursor.entries.length + s0.write_cursor.entries.length + 1) s0

end BackwardScanner

/-- Repeated read_next calls: collect the pairs of all successful calls, in
order, continuing over per key errors (the scanner remains usable after an
error) and stopping at end of stream or when the call budget runs out. -/
def scanCollect (rsb sb : Nat) (cl : LockRecord → Ts → CheckLockResult) :
    Nat → BackwardScanner → List (UserKey × Value)
  | 0, _ => []
  | n + 1, s =>
    match BackwardScanner.read_next rsb sb cl s with
    | (.ok none, _) => []
    | (.ok (some kv), s1) => kv :: scanCollect rsb sb cl n s1
    | (.error _, s1) => scanCollect rsb sb cl n s1

/-- Data model invariant of the write CF (spec section 3): the entry list is
strictly sorted in the physical composite key order, which also makes commit
timestamps distinct per user key. -/
def WriteSorted (l : List ((UserKey × Ts) × Write)) : Prop :=
  l.Pairwise (fun a b => compositeLt a.1 b.1 = true)

/-- Data model invariant of the lock CF (spec section 3): the entry list is
strictly sorted by user key, so there is at most one lock per user key. -/
def LockSorted (l : List (UserKey × LockRecord)) : Prop :=
  l.Pairwise (fun a b => keyLt a.1 b.1 = true)

/-- The search predicate of newestPD: a Put or Delete record of user key k
with commit timestamp at most ts. -/
def pdPred (k : UserKey) (ts : Ts) (e : (UserKey × Ts) × Write) : Bool :=
  e.1.1 == k && decide (e.1.2 ≤ ts) &&
  (e.2.write_type == WriteType.Put || e.2.write_type == WriteType.Delete)

/-- Spec side reading of the C1 claim (its words, not the source): the write
record of user key k that decides the read at ts — the first Put or Delete
record of k with commit timestamp at most ts in the physical order of the
write CF.  On a WriteSorted list this is the record with the greatest such
commit timestamp, so its being a Put says exactly that some Put with
commit_ts at most ts is not superseded by a Delete at a greater (but still at
most ts) commit timestamp; Lock and Rollback records never take part. -/
def newestPD (L : List ((UserKey × Ts) × Write)) (k : UserKey) (ts : Ts) : Option Write :=
  (L.find? (pdPred k ts)).map (fun e => e.2)

/-- Spec side reading of the value of a Put (claim words): its short value
when it carries one, otherwise the default CF content stored at the user key
and the start timestamp of the Put. -/
def specValue (dcf : List ((UserKey × Ts) × Value)) (k : UserKey) (w : Write) :
    Option Value :=
  match w.short_value with
  | some v => some v
  | none => (dcf.find? (fun e => e.1 == (k, w.start_ts))).map (fun e => e.2)

/-- Spec side reading of the result a read of user key k at ts must produce
(claim words): nothing when the deciding record is absent or a Delete, the
value of the Put when it is a Put (with ValueNotFound marking the default CF
miss that the completeness invariant rules out). -/
def specAnswer (dcf : List ((UserKey × Ts) × Value)) (k : UserKey)
    (L : List ((UserKey × Ts) × Write)) (ts : Ts) : Except ScanError (Option Value) :=
  match newestPD L k ts with
  | none => .ok none
  | some w =>
    if w.write_type == WriteType.Put then
      match specValue dcf k w with
      | some v => .ok (some v)
      | none => .error .ValueNotFound
    else .ok none

/-- Spec side reading of no blocking lock applies to k: whatever lock record
the lock CF holds for k, the external lock visibility check answers
NotLocked.  (An Ignored answer is not blocking either, but it replaces the
read timestamp and is outside the scope of the claim; the C1 theorem's
hypotheses restrict the check on k to the NotLocked and Locked answers.) -/
def LockClear (cl : LockRecord → Ts → CheckLockResult)
    (locks : List (UserKey × LockRecord)) (k : UserKey) (ts : Ts) : Prop :=
  ∀ l, (k, l) ∈ locks → cl l ts = .NotLocked

/-- Data model invariant of the default CF (spec section 3): every Put of the
write CF without a short value has its full value stored in the default CF
under the composite key made of its user key and its start timestamp. -/
def DefaultComplete (snap : Snapshot) : Prop :=
  ∀ e ∈ snap.write_cf, e.2.write_type = WriteType.Put → e.2.short_value = none →
    ∃ v, ((e.1.1, e.2.start_ts), v) ∈ snap.default_cf

/-- The scanner fields that feed the lazily created default cursor, relative
to the configuration fixed at build time: either the cursor does not exist
yet and the range bounds are still the configured ones, or it exists and
holds exactly the configured range restriction of the default CF. -/
def DefaultInv (dcf : List ((UserKey × Ts) × Value)) (lb ub : Option UserKey)
    (s : BackwardScanner) : Prop :=
  s.default_cf = dcf ∧
  ((s.default_cursor = none ∧ s.lower_bound = lb ∧ s.upper_bound = ub) ∨
   (∃ c : Cursor (UserKey × Ts) Value, s.default_cursor = some c ∧
     c.entries = dcf.filter (fun e => inRangeUser lb ub e.1.1)))

/-- The scanner fields DefaultInv observes, bundled for the steps that touch
none of them. -/
structure SameDefault (s t : BackwardScanner) : Prop where
  dc : t.default_cursor = s.default_cursor
  lb : t.lower_bound = s.lower_bound
  ub : t.upper_bound = s.upper_bound
  dcf : t.default_cf = s.default_cf

/-- The write cursor position invariant of the backward scan: a valid cursor
always stands on the last entry of its user key's block (the version with the
smallest commit timestamp), which is where every positioning step of the
scanner lands. -/
def AtBlockEnd (c : Cursor (UserKey × Ts) Write) : Prop :=
  ∀ p, c.pos = some p → ∀ hq : p + 1 < c.entries.length,
    (c.entries.get ⟨p, Nat.lt_of_succ_lt hq⟩).1.1 ≠ (c.entries.get ⟨p + 1, hq⟩).1.1

/-- Progress measure of one cursor: how many entries lie at or below its
position. -/
def Cursor.cursorMeasure {κ α : Type} (c : Cursor κ α) : Nat :=
  match c.pos with
  | none => 0
  | some p => p + 1

/-- Progress measure of the scan: every main loop iteration strictly
decreases it while the stream lasts. -/
def scanMeasure (s : BackwardScanner) : Nat :=
  s.write_cursor.cursorMeasure + s.lock_cursor.cursorMeasure

/-- The invariant of the last_version accumulator of reverse_get: it only
ever records Put or Delete write records, so handle_last_version never hits
its unreachable arms on it. -/
def GoodLV : Option Write → Prop
  | none => True
  | some w => w.write_type = WriteType.Put ∨ w.write_type = WriteType.Delete

/-- Well formedness of a cursor position: when the cursor is valid, its
position indexes into the entries. -/
def Cursor.WFpos {κ α : Type} (c : Cursor κ α) : Prop :=
  ∀ p, c.pos = some p → p < c.entries.length

/-- The scanner fields that no scan step ever modifies (the configuration and
the entry lists fixed at build time), bundled for reuse. -/
structure SameShape (s t : BackwardScanner) : Prop where
  is_started : t.is_started = s.is_started
  write_entries : t.write_cursor.entries = s.write_cursor.entries
  lock_entries : t.lock_cursor.entries = s.lock_cursor.entries
  isolation_level : t.isolation_level = s.isolation_level
  ts : t.ts = s.ts
  omit_value : t.omit_value = s.omit_value

/-- Transport of position well formedness by a scan step, for both main
cursors. -/
structure KeepsWF (s t : BackwardScanner) : Prop where
  w : s.write_cursor.WFpos → t.write_cursor.WFpos
  l : s.lock_cursor.WFpos → t.lock_cursor.WFpos

/-- The write cursor side of the scan invariant relative to an awaited user
key k: as long as some write entry of k exists, the cursor stands on the last
entry of a version block whose user key is at or above k, so no version of k
has been passed yet. -/
def WriteAbove (k : UserKey) (s : BackwardScanner) : Prop :=
  (∃ e ∈ s.write_cursor.entries, e.1.1 = k) →
  ∃ p, ∃ hp : p < s.write_cursor.entries.length, s.write_cursor.pos = some p ∧
    keyLt (s.write_cursor.entries.get ⟨p, hp⟩).1.1 k = false ∧
    ∀ hq : p + 1 < s.write_cursor.entries.length,
      (s.write_cursor.entries.get ⟨p + 1, hq⟩).1.1
        ≠ (s.write_cursor.entries.get ⟨p, hp⟩).1.1

/-- The lock cursor side of the scan invariant relative to an awaited user key
k: a lock of k, when one exists, still lies at or below the cursor position,
so it has not been passed yet. -/
def LockAbove (k : UserKey) (s : BackwardScanner) : Prop :=
  ∀ i, ∀ hi : i < s.lock_cursor.entries.length,
    (s.lock_cursor.entries.get ⟨i, hi⟩).1 = k →
    ∃ q, s.lock_cursor.pos = some q ∧ i ≤ q

/-- Both cursors invalid or strictly below the user key k: the scan has moved
past k for good. -/
def BelowKey (k : UserKey) (s : BackwardScanner) : Prop :=
  (s.write_cursor.valid = true → keyLt s.write_cursor.currentKey.1 k = true) ∧
  (s.lock_cursor.valid = true → keyLt s.lock_cursor.currentKey k = true)

/-- The right hand side of the C1 claim for the pair (k, v), read over the
entry lists the scanner's cursors see: no blocking lock applies to k, and the
deciding write record of k at ts is a Put whose value is v.  Lock and
Rollback records never enter newestPD, so they never influence v. -/
def ClaimYield (cl : LockRecord → Ts → CheckLockResult)
    (dcf : List ((UserKey × Ts) × Value)) (LW : List ((UserKey × Ts) × Write))
    (LL : List (UserKey × LockRecord)) (k : UserKey) (ts : Ts) (v : Value) : Prop :=
  LockClear cl LL k ts ∧
  ∃ w, newestPD LW k ts = some w ∧ w.write_type = WriteType.Put ∧
    specValue dcf k w = some v

/-- The loop level state invariant of the C1 proof: the configuration facts
of the scanner, the cursor entry lists with well formed positions, the
default CF invariant, and the two per key cursor facts for the awaited key. -/
structure ScanReady (dcf : List ((UserKey × Ts) × Value)) (lb ub : Option UserKey)
    (LW : List ((UserKey × Ts) × Write)) (LL : List (UserKey × LockRecord))
    (k : UserKey) (ts : Ts) (s : BackwardScanner) : Prop where
  wents : s.write_cursor.entries = LW
  lents : s.lock_cursor.entries = LL
  wfW : s.write_cursor.WFpos
  wfL : s.lock_cursor.WFpos
  dinv : DefaultInv dcf lb ub s
  omitv : s.omit_value = false
  iso : s.isolation_level = IsolationLevel.SI
  tsf : s.ts = ts
  wk : WriteAbove k s
  lk : LockAbove k s

/-- The store of concrete scenario S4: user keys one to six, each with a
single committed Put at commit timestamp 7 (short value equal to the key). -/
def s4Snapshot : Snapshot :=
  ⟨[(([1], 7), ⟨.Put, 7, some [1]⟩), (([2], 7), ⟨.Put, 7, some [2]⟩),
    (([3], 7), ⟨.Put, 7, some [3]⟩), (([4], 7), ⟨.Put, 7, some [4]⟩),
    (([5], 7), ⟨.Put, 7, some [5]⟩), (([6], 7), ⟨.Put, 7, some [6]⟩)], [], []⟩

/-- The S4 scanner: read timestamp 10, range from key three (inclusive) to key
five (exclusive). -/
def s4Scanner : BackwardScanner :=
  BackwardScannerBuilder.build
    { snapshot := s4Snapshot, ts := 10,
      lower_bound := some [3], upper_bound := some [5] }

/-- The lock check that never blocks, used by the concrete scenarios whose
lock column family is empty. -/
def noLockCheck : LockRecord → Ts → CheckLockResult := fun _ _ => .NotLocked

/-- The store of concrete scenario S2 exactly as the claim states it: user key
b (byte 98) carries five Rollback records at commit timestamps 0 to 4, user
key c (byte 99) carries one committed Put at commit timestamp 8 (here with
short value [1]); the write CF is listed in its physical order, user key
ascending and commit timestamp descending. -/
def s2Snapshot : Snapshot :=
  ⟨[(([98], 4), ⟨.Rollback, 4, none⟩), (([98], 3), ⟨.Rollback, 3, none⟩),
    (([98], 2), ⟨.Rollback, 2, none⟩), (([98], 1), ⟨.Rollback, 1, none⟩),
    (([98], 0), ⟨.Rollback, 0, none⟩), (([99], 8), ⟨.Put, 8, some [1]⟩)], [], []⟩

/-- The S2 scanner: read timestamp 8, fully unbounded range. -/
def s2Scanner : BackwardScanner :=
  BackwardScannerBuilder.build { snapshot := s2Snapshot, ts := 8 }

/-- The first S2 call with both step budgets at 4, followed by the
take_statistics of the test harness (so the second call starts from zeroed
counters). -/
def s2FirstCall : Except ScanError (Option (UserKey × Value)) × BackwardScanner :=
  BackwardScanner.read_next 4 4 noLockCheck s2Scanner

/-- The second S2 call, made on the state left by the first call after its
statistics were taken. -/
def s2SecondCall : Except ScanError (Option (UserKey × Value)) × BackwardScanner :=
  BackwardScanner.read_next 4 4 noLockCheck (s2FirstCall.2.take_statistics).2

/-- The external lock check of concrete scenario S3 under SI: the lock always
blocks, reporting the lock error 7. -/
def lockedCl : LockRecord → Ts → CheckLockResult := fun _ _ => .Locked 7

/-- The locked key scenario: user key 107 carries one committed Put and one
lock; the scanner runs under SI at read timestamp 10, with the cursors
positioned by the initialization of the first read_next call. -/
def c3Scanner : BackwardScanner :=
  (BackwardScannerBuilder.build
    { snapshot := ⟨[(([107], 5), ⟨.Put, 5, some [3]⟩)], [([107], ⟨7, [107]⟩)], []⟩,
      ts := 10 }).initOnce

/-- The phase B safety scenario: a single committed Put of user key five at
commit timestamp 2, scanner at read timestamp 9, cursors positioned by the
initialization of the first read_next call. -/
def c6Scanner : BackwardScanner :=
  (BackwardScannerBuilder.build
    { snapshot := ⟨[(([5], 2), ⟨.Put, 2, some [7]⟩)], [], []⟩, ts := 9 }).initOnce

/-- A scanner built with omit_value over a store whose single Put carries no
short value: even then the default CF is never consulted. -/
def omitScanner : BackwardScanner :=
  BackwardScannerBuilder.build
    { snapshot := ⟨[(([7], 3), ⟨.Put, 3, none⟩)], [], [(([7], 3), [42])]⟩,
      ts := 5, omit_value := true }

section Lemmas

namespace Cursor

variable {κ α : Type}

@[simp] theorem prev_entries (c : Cursor κ α) (st : CfStatistics) :
    (c.prev st).1.entries = c.entries := by
  rcases c with ⟨e, _ | (_ | p)⟩ <;> rfl

@[simp] theorem next_entries (c : Cursor κ α) (st : CfStatistics) :
    (c.next st).1.entries = c.entries := by
  rcases c with ⟨e, _ | p⟩
  · rfl
  · simp only [next]
    split <;> rfl

@[simp] theorem seek_to_last_entries (c : Cursor κ α) (st : CfStatistics) :
    (c.seek_to_last st).1.entries = c.entries := by
  simp only [seek_to_last]
  split <;> rfl

@[simp] theorem reverse_seek_entries (c : Cursor κ α) (p : κ → Bool) (st : CfStatistics) :
    (c.reverse_seek p st).1.entries = c.entries := by
  simp only [reverse_seek]
  split <;> rfl

@[simp] theorem internal_seek_entries (c : Cursor κ α) (p : κ → Bool) (st : CfStatistics) :
    (c.internal_seek p st).1.entries = c.entries := by
  simp only [internal_seek]
  split <;> rfl

@[simp] theorem internal_seek_for_prev_entries (c : Cursor κ α) (p : κ → Bool)
    (st : CfStatistics) : (c.internal_seek_for_prev p st).1.entries = c.entries := by
  simp only [internal_seek_for_prev]
  split <;> rfl

end Cursor

theorem SameShape.refl_shape (s : BackwardScanner) : SameShape s s :=
  ⟨rfl, rfl, rfl, rfl, rfl, rfl⟩

theorem SameShape.trans_shape {a b c : BackwardScanner} (h1 : SameShape a b) (h2 : SameShape b c) :
    SameShape a c :=
  ⟨h2.1.trans h1.1, h2.2.trans h1.2, h2.3.trans h1.3, h2.4.trans h1.4, h2.5.trans h1.5,
   h2.6.trans h1.6⟩

namespace BackwardScanner

theorem writePrev_shape (s : BackwardScanner) : SameShape s s.writePrev := by
  constructor <;> simp [writePrev]

theorem writeNext_shape (s : BackwardScanner) : SameShape s s.writeNext := by
  constructor <;> simp [writeNext]

theorem lockPrev_shape (s : BackwardScanner) : SameShape s s.lockPrev := by
  constructor <;> simp [lockPrev]

theorem incWriteProcessed_shape (s : BackwardScanner) : SameShape s s.incWriteProcessed := by
  constructor <;> simp [incWriteProcessed]

theorem writeInternalSeek_shape (s : BackwardScanner) (k : UserKey × Ts) :
    SameShape s (s.writeInternalSeek k) := by
  constructor <;> simp [writeInternalSeek]

theorem writeInternalSeekForPrev_shape (s : BackwardScanner) (k : UserKey) :
    SameShape s (s.writeInternalSeekForPrev k) := by
  constructor <;> simp [writeInternalSeekForPrev]

theorem ensure_default_cursor_shape (s : BackwardScanner) :
    SameShape s s.ensure_default_cursor := by
  unfold ensure_default_cursor
  rcases s.default_cursor with _ | dc
  · exact ⟨rfl, rfl, rfl, rfl, rfl, rfl⟩
  · exact SameShape.refl_shape s

theorem reverse_load_data_by_write_shape (s : BackwardScanner) (w : Write) (k : UserKey) :
    SameShape s (s.reverse_load_data_by_write w k).2 := by
  unfold reverse_load_data_by_write
  split
  · exact SameShape.refl_shape s
  · rcases hsv : w.short_value with _ | v
    · simp only [hsv]
      rcases hdc : s.ensure_default_cursor.default_cursor with _ | dc
      · simp only [hdc]
        exact ensure_default_cursor_shape s
      · simp only [hdc]
        refine SameShape.trans_shape (ensure_default_cursor_shape s) ?_
        constructor <;> rfl
    · simp only [hsv]
      exact SameShape.refl_shape s

theorem handle_last_version_shape (s : BackwardScanner) (sw : Option Write) (k : UserKey) :
    SameShape s (s.handle_last_version sw k).2 := by
  unfold handle_last_version
  rcases sw with _ | w
  · exact SameShape.refl_shape s
  · rcases w with ⟨wt, sts, sv⟩
    rcases wt <;> dsimp only
    · exact reverse_load_data_by_write_shape ..
    · exact SameShape.refl_shape s
    · exact SameShape.refl_shape s
    · exact SameShape.refl_shape s

theorem phase_a_check_shape_inl (user_key : UserKey) (ts : Ts) (lv : Option Write)
    (s : BackwardScanner) (out : PhaseARes × BackwardScanner)
    (h : phase_a_check user_key ts lv s = .inl out) : SameShape s out.2 := by
  unfold phase_a_check at h
  dsimp only at h
  split at h
  · cases h
    exact SameShape.refl_shape s
  · split at h
    · cases h
      exact SameShape.refl_shape s
    · cases h

theorem phase_a_check_shape_inr (user_key : UserKey) (ts : Ts) (lv : Option Write)
    (s : BackwardScanner) (lv1 : Option Write) (lc1 : Ts) (s2 : BackwardScanner)
    (h : phase_a_check user_key ts lv s = .inr (lv1, lc1, s2)) : SameShape s s2 := by
  unfold phase_a_check at h
  dsimp only at h
  split at h
  · cases h
  · split at h
    · cases h
    · cases h
      exact incWriteProcessed_shape s

theorem reverse_get_phase_a_loop_shape (user_key : UserKey) (ts : Ts) (n : Nat)
    (lv : Option Write) (lc : Ts) (s : BackwardScanner) :
    SameShape s (reverse_get_phase_a_loop user_key ts n lv lc s).2 := by
  induction n generalizing lv lc s with
  | zero => exact SameShape.refl_shape s
  | succ n ih =>
    unfold reverse_get_phase_a_loop
    dsimp only
    split
    · exact writePrev_shape s
    · split
      · rename_i out heq
        exact SameShape.trans_shape (writePrev_shape s) (phase_a_check_shape_inl _ _ _ _ _ heq)
      · rename_i lv1 lc1 s2 heq
        exact SameShape.trans_shape
          (SameShape.trans_shape (writePrev_shape s) (phase_a_check_shape_inr _ _ _ _ _ _ _ heq))
          (ih ..)

theorem reverse_get_phase_a_shape (user_key : UserKey) (ts : Ts) (rsb : Nat)
    (s : BackwardScanner) : SameShape s (reverse_get_phase_a user_key ts rsb s).2 := by
  unfold reverse_get_phase_a
  rcases rsb with _ | n
  · exact SameShape.refl_shape s
  · dsimp only
    split
    · rename_i out heq
      exact phase_a_check_shape_inl _ _ _ _ _ heq
    · rename_i lv1 lc1 s2 heq
      exact SameShape.trans_shape (phase_a_check_shape_inr _ _ _ _ _ _ _ heq)
        (reverse_get_phase_a_loop_shape ..)

theorem reverse_get_phase_b_shape (user_key : UserKey) (lc : Ts) (lv : Option Write)
    (fuel : Nat) (s : BackwardScanner) :
    SameShape s (reverse_get_phase_b user_key lc lv fuel s).2 := by
  induction fuel generalizing s with
  | zero => exact SameShape.refl_shape s
  | succ n ih =>
    unfold reverse_get_phase_b
    dsimp only
    split
    · exact SameShape.refl_shape s
    · split
      · exact handle_last_version_shape ..
      · split
        · exact SameShape.trans_shape (incWriteProcessed_shape s)
            (reverse_load_data_by_write_shape ..)
        · exact incWriteProcessed_shape s
        · split
          · exact SameShape.trans_shape (incWriteProcessed_shape s) (writeNext_shape _)
          · exact SameShape.trans_shape (SameShape.trans_shape (incWriteProcessed_shape s)
              (writeNext_shape _)) (ih _)
        · split
          · exact SameShape.trans_shape (incWriteProcessed_shape s) (writeNext_shape _)
          · exact SameShape.trans_shape (SameShape.trans_shape (incWriteProcessed_shape s)
              (writeNext_shape _)) (ih _)

theorem reverse_get_shape (s : BackwardScanner) (rsb : Nat) (user_key : UserKey) (ts : Ts) :
    SameShape s (s.reverse_get rsb user_key ts).2.2 := by
  unfold reverse_get
  split
  · exact SameShape.refl_shape s
  · split
    · rename_i lv met s1 heq
      have h1 : SameShape s s1 := by
        have := reverse_get_phase_a_shape user_key ts rsb s
        rw [heq] at this
        exact this
      exact SameShape.trans_shape h1 (handle_last_version_shape ..)
    · rename_i lv lc s1 heq
      have h1 : SameShape s s1 := by
        have := reverse_get_phase_a_shape user_key ts rsb s
        rw [heq] at this
        exact this
      dsimp only
      split
      · exact SameShape.trans_shape h1 (handle_last_version_shape ..)
      · split
        · split
          · exact SameShape.trans_shape h1 (writeInternalSeek_shape ..)
          · exact SameShape.trans_shape (SameShape.trans_shape h1 (writeInternalSeek_shape ..))
              (reverse_get_phase_b_shape ..)
        · exact h1

theorem move_write_cursor_loop_shape (k : UserKey) (n : Nat) (s : BackwardScanner) :
    SameShape s (move_write_cursor_loop k n s) := by
  induction n generalizing s with
  | zero => exact writeInternalSeekForPrev_shape s k
  | succ n ih =>
    unfold move_write_cursor_loop
    dsimp only
    split
    · exact writePrev_shape s
    · split
      · exact writePrev_shape s
      · exact SameShape.trans_shape (writePrev_shape s) (ih _)

theorem move_write_cursor_to_prev_user_key_shape (k : UserKey) (n : Nat)
    (s : BackwardScanner) : SameShape s (move_write_cursor_to_prev_user_key k n s) := by
  unfold move_write_cursor_to_prev_user_key
  rcases n with _ | n
  · exact writeInternalSeekForPrev_shape s k
  · dsimp only
    split
    · exact SameShape.refl_shape s
    · split
      · exact SameShape.refl_shape s
      · exact move_write_cursor_loop_shape ..

theorem lockStep_shape (cl : LockRecord → Ts → CheckLockResult) (s : BackwardScanner)
    (hl : Bool) : SameShape s (lockStep cl s hl).2.2 := by
  unfold lockStep
  split
  · exact lockPrev_shape s
  · exact SameShape.refl_shape s

theorem writeStep_shape (rsb sb : Nat) (s : BackwardScanner)
    (r1 : Except ScanError (Option Value)) (get_ts : Ts) (cur : UserKey) (hw : Bool) :
    SameShape s (writeStep rsb sb s r1 get_ts cur hw).2 := by
  unfold writeStep
  split
  · rcases r1 with e | v <;> dsimp only <;> split
    · exact move_write_cursor_to_prev_user_key_shape ..
    · exact SameShape.refl_shape s
    · exact SameShape.trans_shape (reverse_get_shape ..) (move_write_cursor_to_prev_user_key_shape ..)
    · exact reverse_get_shape ..
  · exact SameShape.refl_shape s

theorem read_next_loop_shape (rsb sb : Nat) (cl : LockRecord → Ts → CheckLockResult)
    (fuel : Nat) (s : BackwardScanner) :
    SameShape s (read_next_loop rsb sb cl fuel s).2 := by
  induction fuel generalizing s with
  | zero => exact SameShape.refl_shape s
  | succ n ih =>
    unfold read_next_loop
    split
    · exact SameShape.refl_shape s
    · rename_i current_user_key has_write has_lock heq
      have h2 : SameShape s (writeStep rsb sb (lockStep cl s has_lock).2.2
          (lockStep cl s has_lock).1 (lockStep cl s has_lock).2.1 current_user_key
          has_write).2 :=
        SameShape.trans_shape (lockStep_shape cl s has_lock) (writeStep_shape ..)
      dsimp only
      split
      · exact h2
      · exact h2
      · exact SameShape.trans_shape h2 (ih _)

theorem initOnce_is_started (s : BackwardScanner) : s.initOnce.is_started = true := by
  unfold initOnce
  split
  · assumption
  · rcases s.upper_bound <;> rfl

theorem initOnce_of_started (s : BackwardScanner) (h : s.is_started = true) :
    s.initOnce = s := by
  unfold initOnce
  rw [h]
  rfl

theorem currentKeyInfo_eq_none_iff (s : BackwardScanner) :
    s.currentKeyInfo = none ↔
      (s.write_cursor.valid = false ∧ s.lock_cursor.valid = false) := by
  unfold currentKeyInfo
  rcases hw : s.write_cursor.valid <;> rcases hl : s.lock_cursor.valid <;> simp
  rcases compareKeys s.write_cursor.currentKey.1 s.lock_cursor.currentKey <;> simp

theorem read_next_loop_none_invalid (rsb sb : Nat) (cl : LockRecord → Ts → CheckLockResult)
    (fuel : Nat) (s s1 : BackwardScanner)
    (h : read_next_loop rsb sb cl fuel s = (.ok none, s1)) :
    s1.write_cursor.valid = false ∧ s1.lock_cursor.valid = false := by
  induction fuel generalizing s with
  | zero =>
    rw [read_next_loop] at h
    simp at h
  | succ n ih =>
    rw [read_next_loop] at h
    split at h
    · rename_i hinfo
      have hs : s = s1 := congrArg Prod.snd h
      subst hs
      exact (currentKeyInfo_eq_none_iff s).1 hinfo
    · dsimp only at h
      split at h
      · simp at h
      · simp at h
      · exact ih _ h

theorem read_next_loop_invalid_fix (rsb sb : Nat) (cl : LockRecord → Ts → CheckLockResult)
    (fuel : Nat) (s : BackwardScanner) (hw : s.write_cursor.valid = false)
    (hl : s.lock_cursor.valid = false) (hf : fuel ≠ 0) :
    read_next_loop rsb sb cl fuel s = (.ok none, s) := by
  rcases fuel with _ | n
  · exact absurd rfl hf
  · rw [read_next_loop]
    rw [(currentKeyInfo_eq_none_iff s).2 ⟨hw, hl⟩]

/-- C10: once read_next has returned none, which happens exactly when both the
write cursor and the lock cursor are invalid after initialization, every later
read_next call returns none again with a completely unchanged scanner state,
so in particular no cursor operation is performed and all statistics counters
stay as they are. -/
theorem read_next_none_stable (rsb sb : Nat) (cl : LockRecord → Ts → CheckLockResult)
    (s s1 : BackwardScanner) (h : BackwardScanner.read_next rsb sb cl s = (.ok none, s1)) :
    s1.write_cursor.valid = false ∧ s1.lock_cursor.valid = false ∧ s1.is_started = true ∧
    BackwardScanner.read_next rsb sb cl s1 = (.ok none, s1) := by
  unfold BackwardScanner.read_next at h ⊢
  dsimp only at h ⊢
  have hinv := read_next_loop_none_invalid _ _ _ _ _ _ h
  have hshape := read_next_loop_shape rsb sb cl
    (s.initOnce.lock_cursor.entries.length + s.initOnce.write_cursor.entries.length + 1)
    s.initOnce
  rw [h] at hshape
  have hstarted : s1.is_started = true := hshape.is_started.trans (initOnce_is_started s)
  refine ⟨hinv.1, hinv.2, hstarted, ?_⟩
  rw [initOnce_of_started s1 hstarted]
  exact read_next_loop_invalid_fix _ _ _ _ _ hinv.1 hinv.2 (Nat.succ_ne_zero _)

/-- Closed instance for the hypotheses of the C10 theorem: on the scanner
built over the empty snapshot, the first call returns none, and the theorem
then yields that the next call returns none with the state unchanged. -/
theorem read_next_none_stable_witness :
    (BackwardScannerModel.BackwardScanner.read_next 16 8 (fun _ _ => .NotLocked)
        (BackwardScannerBuilder.build { snapshot := ⟨[], [], []⟩, ts := 5 })).1 = .ok none ∧
    (BackwardScannerModel.BackwardScanner.read_next 16 8 (fun _ _ => .NotLocked)
        ((BackwardScannerModel.BackwardScanner.read_next 16 8 (fun _ _ => .NotLocked)
          (BackwardScannerBuilder.build { snapshot := ⟨[], [], []⟩, ts := 5 })).2)) =
      ((Except.ok none),
       (BackwardScannerModel.BackwardScanner.read_next 16 8 (fun _ _ => .NotLocked)
        (BackwardScannerBuilder.build { snapshot := ⟨[], [], []⟩, ts := 5 })).2) := by
  refine ⟨rfl, ?_⟩
  have h := read_next_none_stable 16 8 (fun _ _ => .NotLocked)
    (BackwardScannerBuilder.build { snapshot := ⟨[], [], []⟩, ts := 5 })
    ((BackwardScannerModel.BackwardScanner.read_next 16 8 (fun _ _ => .NotLocked)
      (BackwardScannerBuilder.build { snapshot := ⟨[], [], []⟩, ts := 5 })).2) rfl
  exact h.2.2.2

/-- C9: take_statistics hands out the statistics collected since construction
or since the previous take_statistics call and resets the stored statistics to
the all zero record, so a second take_statistics with no scanner operation in
between returns counters that are all zero. -/
theorem take_statistics_take_take (s : BackwardScanner) :
    (s.take_statistics).1 = s.statistics ∧
    (s.take_statistics).2 = { s with statistics := {} } ∧
    ((s.take_statistics).2.take_statistics).1 =
      ({ lock := { seek := 0, seek_for_prev := 0, next := 0, prev := 0, processed := 0 }
         write := { seek := 0, seek_for_prev := 0, next := 0, prev := 0, processed := 0 }
         data := { seek := 0, seek_for_prev := 0, next := 0, prev := 0, processed := 0 } } :
        Statistics) :=
  ⟨rfl, rfl, rfl⟩

end BackwardScanner

/-- C5, counterexample: on the S2 store of the claim, run with the step
budgets REVERSE_SEEK_BOUND = 4 and SEEK_BOUND = 4 of the claim, the write CF
statistics of the second read_next call are not prev = 4 and seek = 0 (they
are prev = 5 and seek = 1, because five rollbacks do not fit into a phase A
budget of four, forcing the phase B seek). -/
theorem s2_statistics_counterexample :
    ¬ (s2SecondCall.2.statistics.write.prev = 4 ∧
       s2SecondCall.2.statistics.write.seek = 0) := by
  decide

/-- C5, amended: scenario S2 with REVERSE_SEEK_BOUND = 4 and SEEK_BOUND = 4 on
the claimed store (five rollbacks at commit timestamps 0 to 4 on key b, one
Put at commit timestamp 8 on key c, read timestamp 8, unbounded range): the
first read_next returns the pair for c, the second returns none, and the write
CF statistics accumulated during the second call are prev = 5 (three rollback
steps inside phase A, then two steps while skipping the remaining versions),
seek = 1 (the phase B fallback seek), next = 1 and seek_for_prev = 0. -/
theorem s2_scenario_amended :
    s2FirstCall.1 = .ok (some ([99], [1])) ∧
    s2SecondCall.1 = .ok none ∧
    s2SecondCall.2.statistics.write.prev = 5 ∧
    s2SecondCall.2.statistics.write.seek = 1 ∧
    s2SecondCall.2.statistics.write.next = 1 ∧
    s2SecondCall.2.statistics.write.seek_for_prev = 0 := by
  refine ⟨rfl, rfl, rfl, rfl, rfl, rfl⟩

namespace BackwardScanner

@[simp] theorem writePrev_default_cursor (s : BackwardScanner) :
    s.writePrev.default_cursor = s.default_cursor := rfl

@[simp] theorem writeNext_default_cursor (s : BackwardScanner) :
    s.writeNext.default_cursor = s.default_cursor := rfl

@[simp] theorem lockPrev_default_cursor (s : BackwardScanner) :
    s.lockPrev.default_cursor = s.default_cursor := rfl

@[simp] theorem incWriteProcessed_default_cursor (s : BackwardScanner) :
    s.incWriteProcessed.default_cursor = s.default_cursor := rfl

@[simp] theorem writeInternalSeek_default_cursor (s : BackwardScanner) (k : UserKey × Ts) :
    (s.writeInternalSeek k).default_cursor = s.default_cursor := rfl

@[simp] theorem writeInternalSeekForPrev_default_cursor (s : BackwardScanner) (k : UserKey) :
    (s.writeInternalSeekForPrev k).default_cursor = s.default_cursor := rfl

@[simp] theorem writePrev_omit_value (s : BackwardScanner) :
    s.writePrev.omit_value = s.omit_value := rfl

@[simp] theorem writeNext_omit_value (s : BackwardScanner) :
    s.writeNext.omit_value = s.omit_value := rfl

@[simp] theorem lockPrev_omit_value (s : BackwardScanner) :
    s.lockPrev.omit_value = s.omit_value := rfl

@[simp] theorem incWriteProcessed_omit_value (s : BackwardScanner) :
    s.incWriteProcessed.omit_value = s.omit_value := rfl

@[simp] theorem writeInternalSeek_omit_value (s : BackwardScanner) (k : UserKey × Ts) :
    (s.writeInternalSeek k).omit_value = s.omit_value := rfl

@[simp] theorem writeInternalSeekForPrev_omit_value (s : BackwardScanner) (k : UserKey) :
    (s.writeInternalSeekForPrev k).omit_value = s.omit_value := rfl

theorem move_write_cursor_loop_default_cursor (k : UserKey) (n : Nat) (s : BackwardScanner) :
    (move_write_cursor_loop k n s).default_cursor = s.default_cursor := by
  induction n generalizing s with
  | zero => rfl
  | succ n ih =>
    unfold move_write_cursor_loop
    dsimp only
    split
    · rfl
    · split
      · rfl
      · rw [ih]
        rfl

theorem move_write_cursor_to_prev_user_key_default_cursor (k : UserKey) (n : Nat)
    (s : BackwardScanner) :
    (move_write_cursor_to_prev_user_key k n s).default_cursor = s.default_cursor := by
  unfold move_write_cursor_to_prev_user_key
  rcases n with _ | n
  · rfl
  · dsimp only
    split
    · rfl
    · split
      · rfl
      · exact move_write_cursor_loop_default_cursor ..

theorem phase_a_check_inl_default_cursor (user_key : UserKey) (ts : Ts) (lv : Option Write)
    (s : BackwardScanner) (out : PhaseARes × BackwardScanner)
    (h : phase_a_check user_key ts lv s = .inl out) :
    out.2.default_cursor = s.default_cursor := by
  unfold phase_a_check at h
  dsimp only at h
  split at h
  · cases h
    rfl
  · split at h
    · cases h
      rfl
    · cases h

theorem phase_a_check_inr_default_cursor (user_key : UserKey) (ts : Ts) (lv : Option Write)
    (s : BackwardScanner) (lv1 : Option Write) (lc1 : Ts) (s2 : BackwardScanner)
    (h : phase_a_check user_key ts lv s = .inr (lv1, lc1, s2)) :
    s2.default_cursor = s.default_cursor := by
  unfold phase_a_check at h
  dsimp only at h
  split at h
  · cases h
  · split at h
    · cases h
    · cases h
      rfl

theorem reverse_get_phase_a_loop_default_cursor (user_key : UserKey) (ts : Ts) (n : Nat)
    (lv : Option Write) (lc : Ts) (s : BackwardScanner) :
    (reverse_get_phase_a_loop user_key ts n lv lc s).2.default_cursor = s.default_cursor := by
  induction n generalizing lv lc s with
  | zero => rfl
  | succ n ih =>
    unfold reverse_get_phase_a_loop
    dsimp only
    split
    · rfl
    · split
      · rename_i out heq
        exact (phase_a_check_inl_default_cursor _ _ _ _ _ heq).trans
          (writePrev_default_cursor s)
      · rename_i lv1 lc1 s2 heq
        rw [ih]
        exact (phase_a_check_inr_default_cursor _ _ _ _ _ _ _ heq).trans
          (writePrev_default_cursor s)

theorem reverse_get_phase_a_default_cursor (user_key : UserKey) (ts : Ts) (rsb : Nat)
    (s : BackwardScanner) :
    (reverse_get_phase_a user_key ts rsb s).2.default_cursor = s.default_cursor := by
  unfold reverse_get_phase_a
  rcases rsb with _ | n
  · rfl
  · dsimp only
    split
    · rename_i out heq
      exact phase_a_check_inl_default_cursor _ _ _ _ _ heq
    · rename_i lv1 lc1 s2 heq
      rw [reverse_get_phase_a_loop_default_cursor]
      exact phase_a_check_inr_default_cursor _ _ _ _ _ _ _ heq

theorem reverse_load_data_by_write_omit (s : BackwardScanner) (w : Write) (k : UserKey)
    (h : s.omit_value = true) : s.reverse_load_data_by_write w k = (.ok [], s) := by
  unfold reverse_load_data_by_write
  rw [h]
  rfl

theorem handle_last_version_omit (s : BackwardScanner) (sw : Option Write) (k : UserKey)
    (h : s.omit_value = true) :
    (s.handle_last_version sw k).2 = s ∧
    (∀ v, (s.handle_last_version sw k).1 = .ok (some v) → v = []) := by
  unfold handle_last_version
  rcases sw with _ | w
  · refine ⟨rfl, ?_⟩
    intro v hv
    simp at hv
  · rcases w with ⟨wt, sts, sv⟩
    rcases wt <;> dsimp only
    · rw [reverse_load_data_by_write_omit s _ _ h]
      refine ⟨rfl, ?_⟩
      intro v hv
      simp only [Except.map] at hv
      have : some ([] : Value) = some v := by
        exact Except.ok.inj hv
      exact (Option.some.inj this).symm
    · refine ⟨rfl, ?_⟩
      intro v hv
      simp at hv
    · refine ⟨rfl, ?_⟩
      intro v hv
      simp at hv
    · refine ⟨rfl, ?_⟩
      intro v hv
      simp at hv

theorem reverse_get_phase_b_omit (user_key : UserKey) (lc : Ts) (lv : Option Write)
    (fuel : Nat) (s : BackwardScanner) (h : s.omit_value = true) :
    (reverse_get_phase_b user_key lc lv fuel s).2.default_cursor = s.default_cursor ∧
    (reverse_get_phase_b user_key lc lv fuel s).2.omit_value = true ∧
    (∀ v, (reverse_get_phase_b user_key lc lv fuel s).1 = .ok (some v) → v = []) := by
  induction fuel generalizing s with
  | zero =>
    refine ⟨rfl, h, ?_⟩
    intro v hv
    unfold reverse_get_phase_b at hv
    simp at hv
  | succ n ih =>
    unfold reverse_get_phase_b
    dsimp only
    split
    · refine ⟨rfl, h, ?_⟩
      intro v hv
      simp at hv
    · split
      · have hh := handle_last_version_omit s lv user_key h
        refine ⟨by rw [hh.1], by rw [hh.1]; exact h, hh.2⟩
      · have hs1 : s.incWriteProcessed.omit_value = true := h
        split
        · rw [reverse_load_data_by_write_omit s.incWriteProcessed _ _ hs1]
          refine ⟨rfl, hs1, ?_⟩
          intro v hv
          simp only [Except.map] at hv
          have : some ([] : Value) = some v := Except.ok.inj hv
          exact (Option.some.inj this).symm
        · refine ⟨rfl, hs1, ?_⟩
          intro v hv
          simp at hv
        · split
          · refine ⟨rfl, hs1, ?_⟩
            intro v hv
            simp at hv
          · have h2 : s.incWriteProcessed.writeNext.omit_value = true := hs1
            exact ⟨(ih _ h2).1, (ih _ h2).2.1, (ih _ h2).2.2⟩
        · split
          · refine ⟨rfl, hs1, ?_⟩
            intro v hv
            simp at hv
          · have h2 : s.incWriteProcessed.writeNext.omit_value = true := hs1
            exact ⟨(ih _ h2).1, (ih _ h2).2.1, (ih _ h2).2.2⟩

theorem reverse_get_omit (s : BackwardScanner) (rsb : Nat) (user_key : UserKey) (ts : Ts)
    (h : s.omit_value = true) :
    (s.reverse_get rsb user_key ts).2.2.default_cursor = s.default_cursor ∧
    (s.reverse_get rsb user_key ts).2.2.omit_value = true ∧
    (∀ v, (s.reverse_get rsb user_key ts).1 = .ok (some v) → v = []) := by
  unfold reverse_get
  split
  · refine ⟨rfl, h, ?_⟩
    intro v hv
    simp at hv
  · split
    · rename_i lv met s1 heq
      have hd : s1.default_cursor = s.default_cursor := by
        have := reverse_get_phase_a_default_cursor user_key ts rsb s
        rw [heq] at this
        exact this
      have ho : s1.omit_value = true := by
        have := (reverse_get_phase_a_shape user_key ts rsb s).omit_value
        rw [heq] at this
        dsimp at this
        rw [this]
        exact h
      have hh := handle_last_version_omit s1 lv user_key ho
      exact ⟨by rw [hh.1]; exact hd, by rw [hh.1]; exact ho, hh.2⟩
    · rename_i lv lc s1 heq
      have hd : s1.default_cursor = s.default_cursor := by
        have := reverse_get_phase_a_default_cursor user_key ts rsb s
        rw [heq] at this
        exact this
      have ho : s1.omit_value = true := by
        have := (reverse_get_phase_a_shape user_key ts rsb s).omit_value
        rw [heq] at this
        dsimp at this
        rw [this]
        exact h
      dsimp only
      split
      · have hh := handle_last_version_omit s1 lv user_key ho
        exact ⟨by rw [hh.1]; exact hd, by rw [hh.1]; exact ho, hh.2⟩
      · split
        · split
          · refine ⟨hd, ho, ?_⟩
            intro v hv
            simp at hv
          · have ho2 : (s1.writeInternalSeek (user_key, ts)).omit_value = true := ho
            have hb := reverse_get_phase_b_omit user_key lc lv
              ((s1.writeInternalSeek (user_key, ts)).write_cursor.entries.length + 1)
              (s1.writeInternalSeek (user_key, ts)) ho2
            refine ⟨hb.1.trans hd, hb.2.1, hb.2.2⟩
        · refine ⟨hd, ho, ?_⟩
          intro v hv
          simp at hv

theorem lockStep_omit (cl : LockRecord → Ts → CheckLockResult) (s : BackwardScanner)
    (hl : Bool) :
    (lockStep cl s hl).2.2.default_cursor = s.default_cursor ∧
    (lockStep cl s hl).2.2.omit_value = s.omit_value := by
  unfold lockStep
  split
  · exact ⟨rfl, rfl⟩
  · exact ⟨rfl, rfl⟩

theorem writeStep_omit (rsb sb : Nat) (s : BackwardScanner)
    (r1 : Except ScanError (Option Value)) (get_ts : Ts) (cur : UserKey) (hw : Bool)
    (h : s.omit_value = true) :
    (writeStep rsb sb s r1 get_ts cur hw).2.default_cursor = s.default_cursor ∧
    (writeStep rsb sb s r1 get_ts cur hw).2.omit_value = true ∧
    (∀ v, (writeStep rsb sb s r1 get_ts cur hw).1 = .ok (some v) →
      (r1 = .ok (some v) ∨ v = [])) := by
  unfold writeStep
  split
  · rcases r1 with e | v1 <;> dsimp only <;> split
    · refine ⟨move_write_cursor_to_prev_user_key_default_cursor .., ?_, ?_⟩
      · have := (move_write_cursor_to_prev_user_key_shape cur sb s).omit_value
        rw [this]
        exact h
      · intro v hv
        simp at hv
    · refine ⟨rfl, h, ?_⟩
      intro v hv
      simp at hv
    · have hg := reverse_get_omit s rsb cur get_ts h
      refine ⟨?_, ?_, ?_⟩
      · rw [move_write_cursor_to_prev_user_key_default_cursor]
        exact hg.1
      · have := (move_write_cursor_to_prev_user_key_shape cur sb
          (s.reverse_get rsb cur get_ts).2.2).omit_value
        rw [this]
        exact hg.2.1
      · intro v hv
        exact Or.inr (hg.2.2 v hv)
    · have hg := reverse_get_omit s rsb cur get_ts h
      refine ⟨hg.1, hg.2.1, ?_⟩
      intro v hv
      exact Or.inr (hg.2.2 v hv)
  · refine ⟨rfl, h, ?_⟩
    intro v hv
    exact Or.inl hv

theorem lockStep_result_not_some (cl : LockRecord → Ts → CheckLockResult)
    (s : BackwardScanner) (hl : Bool) (v : Value) :
    (lockStep cl s hl).1 ≠ .ok (some v) := by
  unfold lockStep
  split
  · dsimp only
    split
    · split <;> intro hx <;> simp at hx
    · intro hx
      simp at hx
  · intro hx
    simp at hx

theorem read_next_loop_omit (rsb sb : Nat) (cl : LockRecord → Ts → CheckLockResult)
    (fuel : Nat) (s : BackwardScanner) (h : s.omit_value = true) :
    (read_next_loop rsb sb cl fuel s).2.default_cursor = s.default_cursor ∧
    (read_next_loop rsb sb cl fuel s).2.omit_value = true ∧
    (∀ k v, (read_next_loop rsb sb cl fuel s).1 = .ok (some (k, v)) → v = []) := by
  induction fuel generalizing s with
  | zero =>
    refine ⟨rfl, h, ?_⟩
    intro k v hv
    unfold read_next_loop at hv
    simp at hv
  | succ n ih =>
    unfold read_next_loop
    split
    · refine ⟨rfl, h, ?_⟩
      intro k v hv
      simp at hv
    · rename_i current_user_key has_write has_lock heq
      dsimp only
      have hls := lockStep_omit cl s has_lock
      have ho1 : (lockStep cl s has_lock).2.2.omit_value = true := by
        rw [hls.2]
        exact h
      have hws := writeStep_omit rsb sb (lockStep cl s has_lock).2.2
        (lockStep cl s has_lock).1 (lockStep cl s has_lock).2.1 current_user_key has_write ho1
      split
      · refine ⟨hws.1.trans hls.1, hws.2.1, ?_⟩
        intro k v hv
        simp at hv
      · rename_i v1 hstep
        refine ⟨hws.1.trans hls.1, hws.2.1, ?_⟩
        intro k v hv
        have hv1 : v1 = v := by
          have := Except.ok.inj hv
          exact (Prod.mk.inj (Option.some.inj this)).2
        subst hv1
        rcases hws.2.2 v1 hstep with hcase | hcase
        · exact absurd hcase (lockStep_result_not_some cl s has_lock v1)
        · exact hcase
      · have ho2 := hws.2.1
        have hrec := ih _ ho2
        refine ⟨hrec.1.trans (hws.1.trans hls.1), hrec.2.1, hrec.2.2⟩

theorem initOnce_default_cursor (s : BackwardScanner) :
    s.initOnce.default_cursor = s.default_cursor := by
  unfold initOnce
  split
  · rfl
  · rcases s.upper_bound <;> rfl

theorem initOnce_omit_value (s : BackwardScanner) :
    s.initOnce.omit_value = s.omit_value := by
  unfold initOnce
  split
  · rfl
  · rcases s.upper_bound <;> rfl

/-- C8: when the scanner is configured with omit_value, every value a
read_next call returns is the empty byte string, and the default CF cursor is
never created (it stays absent, so the default CF is never read); both facts
are preserved by the call, so they hold over the whole lifetime of a scanner
built with omit_value, whose default cursor starts absent. -/
theorem read_next_omit_value (rsb sb : Nat) (cl : LockRecord → Ts → CheckLockResult)
    (s : BackwardScanner) (homit : s.omit_value = true) (hdc : s.default_cursor = none) :
    (∀ k v s1, BackwardScanner.read_next rsb sb cl s = (.ok (some (k, v)), s1) → v = []) ∧
    (BackwardScanner.read_next rsb sb cl s).2.omit_value = true ∧
    (BackwardScanner.read_next rsb sb cl s).2.default_cursor = none := by
  unfold BackwardScanner.read_next
  dsimp only
  have ho : s.initOnce.omit_value = true := by
    rw [initOnce_omit_value]
    exact homit
  have hl := read_next_loop_omit rsb sb cl
    (s.initOnce.lock_cursor.entries.length + s.initOnce.write_cursor.entries.length + 1)
    s.initOnce ho
  refine ⟨?_, hl.2.1, ?_⟩
  · intro k v s1 hv
    exact hl.2.2 k v (by rw [hv])
  · rw [hl.1, initOnce_default_cursor]
    exact hdc

/-- Closed instance for the hypotheses of the C8 theorem, on a concrete
scanner in omit_value mode whose Put has no short value. -/
theorem read_next_omit_value_witness :
    omitScanner.omit_value = true ∧ omitScanner.default_cursor = none ∧
    ((∀ k v s1, BackwardScanner.read_next 4 4 noLockCheck omitScanner =
        (.ok (some (k, v)), s1) → v = []) ∧
     (BackwardScanner.read_next 4 4 noLockCheck omitScanner).2.omit_value = true ∧
     (BackwardScanner.read_next 4 4 noLockCheck omitScanner).2.default_cursor = none) :=
  ⟨rfl, rfl, read_next_omit_value 4 4 noLockCheck omitScanner rfl rfl⟩

end BackwardScanner

theorem WriteSorted.pairwise_write {l : List ((UserKey × Ts) × Write)} (h : WriteSorted l) :
    l.Pairwise (fun a b => compositeLt a.1 b.1 = true) := h

theorem LockSorted.pairwise_lock {l : List (UserKey × LockRecord)} (h : LockSorted l) :
    l.Pairwise (fun a b => keyLt a.1 b.1 = true) := h

theorem keyLt_irrefl (a : List Nat) : keyLt a a = false := by
  induction a with
  | nil => rfl
  | cons x xs ih => simp [keyLt, ih, Nat.lt_irrefl]

theorem keyLt_trans {a b c : List Nat} (h1 : keyLt a b = true) (h2 : keyLt b c = true) :
    keyLt a c = true := by
  induction a generalizing b c with
  | nil =>
    rcases b with _ | ⟨y, ys⟩
    · simp [keyLt] at h1
    · rcases c with _ | ⟨z, zs⟩
      · simp [keyLt] at h2
      · rfl
  | cons x xs ih =>
    rcases b with _ | ⟨y, ys⟩
    · simp [keyLt] at h1
    · rcases c with _ | ⟨z, zs⟩
      · simp [keyLt] at h2
      · simp only [keyLt, Bool.or_eq_true, Bool.and_eq_true, decide_eq_true_eq,
          beq_iff_eq] at h1 h2 ⊢
        rcases h1 with h1 | ⟨rfl, h1⟩
        · rcases h2 with h2 | ⟨rfl, h2⟩
          · exact Or.inl (Nat.lt_trans h1 h2)
          · exact Or.inl h1
        · rcases h2 with h2 | ⟨rfl, h2⟩
          · exact Or.inl h2
          · exact Or.inr ⟨rfl, ih h1 h2⟩

theorem keyLt_antisymm {a b : List Nat} (h1 : keyLt a b = false) (h2 : keyLt b a = false) :
    a = b := by
  induction a generalizing b with
  | nil =>
    rcases b with _ | ⟨y, ys⟩
    · rfl
    · simp [keyLt] at h1
  | cons x xs ih =>
    rcases b with _ | ⟨y, ys⟩
    · simp [keyLt] at h2
    · simp only [keyLt, Bool.or_eq_false_iff, Bool.and_eq_false_iff,
        decide_eq_false_iff_not, beq_eq_false_iff_ne, ne_eq] at h1 h2
      rcases h1 with ⟨h1a, h1b⟩
      rcases h2 with ⟨h2a, h2b⟩
      have hxy : x = y := Nat.le_antisymm (Nat.le_of_not_lt h2a) (Nat.le_of_not_lt h1a)
      subst hxy
      rcases h1b with h1b | h1b
      · exact absurd rfl h1b
      · rcases h2b with h2b | h2b
        · exact absurd rfl h2b
        · rw [ih h1b h2b]

theorem keyLt_asymm {a b : List Nat} (h : keyLt a b = true) : keyLt b a = false := by
  rcases hc : keyLt b a
  · rfl
  · have := keyLt_trans h hc
    rw [keyLt_irrefl] at this
    cases this

theorem keyLt_of_ne_of_not_lt {a b : List Nat} (hne : a ≠ b) (h : keyLt b a = false) :
    keyLt a b = true := by
  rcases hc : keyLt a b
  · exact absurd (keyLt_antisymm hc h) hne
  · rfl

theorem compositeLt_irrefl (a : UserKey × Ts) : compositeLt a a = false := by
  simp [compositeLt, keyLt_irrefl, Nat.lt_irrefl]

theorem compositeLt_trans {a b c : UserKey × Ts} (h1 : compositeLt a b = true)
    (h2 : compositeLt b c = true) : compositeLt a c = true := by
  simp only [compositeLt, Bool.or_eq_true, Bool.and_eq_true, beq_iff_eq,
    decide_eq_true_eq] at h1 h2 ⊢
  rcases h1 with h1 | ⟨he1, ht1⟩
  · rcases h2 with h2 | ⟨he2, ht2⟩
    · exact Or.inl (keyLt_trans h1 h2)
    · rw [← he2]
      exact Or.inl h1
  · rcases h2 with h2 | ⟨he2, ht2⟩
    · rw [he1]
      exact Or.inl h2
    · exact Or.inr ⟨he1.trans he2, Nat.lt_trans ht2 ht1⟩

theorem compositeLt_userKey_not_lt {a b : UserKey × Ts} (h : compositeLt a b = true) :
    keyLt b.1 a.1 = false := by
  simp only [compositeLt, Bool.or_eq_true, Bool.and_eq_true, beq_iff_eq] at h
  rcases h with h | ⟨he, _⟩
  · exact keyLt_asymm h
  · rw [he]
    exact keyLt_irrefl _

/-- On a strictly sorted list, a downward closed predicate holds exactly on
the positions below its count: the satisfying entries form a prefix. -/
theorem sorted_get_iff_lt_countP {α : Type} {R : α → α → Prop} {p : α → Bool}
    (hdc : ∀ a b, R a b → p b = true → p a = true) :
    ∀ (l : List α), l.Pairwise R → ∀ (i : Nat) (hi : i < l.length),
      (p (l.get ⟨i, hi⟩) = true ↔ i < l.countP p) := by
  intro l
  induction l with
  | nil =>
    intro _ i hi
    exact absurd hi (Nat.not_lt_zero i)
  | cons x xs ih =>
    intro hs i hi
    rcases List.pairwise_cons.1 hs with ⟨hx, hxs⟩
    rcases i with _ | j
    · have hget0 : (x :: xs).get ⟨0, hi⟩ = x := rfl
      rw [hget0, List.countP_cons]
      rcases hpx : p x
      · have hall : ∀ a ∈ xs, ¬ p a = true := by
          intro a ha hpa
          have hcontra := hdc x a (hx a ha) hpa
          rw [hpx] at hcontra
          cases hcontra
        have hzero : xs.countP p = 0 := List.countP_eq_zero.2 hall
        rw [hzero]
        simp
      · simp
    · have hj : j < xs.length := Nat.lt_of_succ_lt_succ hi
      have hxsj := ih hxs j hj
      rw [List.countP_cons, List.get_cons_succ]
      rcases hpx : p x
      · have hall : ∀ a ∈ xs, ¬ p a = true := by
          intro a ha hpa
          have hcontra := hdc x a (hx a ha) hpa
          rw [hpx] at hcontra
          cases hcontra
        have hzero : xs.countP p = 0 := List.countP_eq_zero.2 hall
        rw [hzero]
        constructor
        · intro hcontra
          exact absurd hcontra (hall _ (xs.get_mem _ _))
        · intro hcontra
          simp at hcontra
      · constructor
        · intro hp1
          have hlt := hxsj.1 hp1
          simp
          omega
        · intro hlt
          refine hxsj.2 ?_
          simp at hlt
          omega

/-- Bridge between getD, used by the executable cursor, and get. -/
theorem getD_eq_get' {α : Type} (l : List α) (d : α) {n : Nat} (hn : n < l.length) :
    l.getD n d = l.get ⟨n, hn⟩ := by
  rw [List.getD_eq_getElem l d hn]
  rfl

namespace Cursor

theorem current_eq_get {κ α : Type} [Inhabited κ] [Inhabited α] (c : Cursor κ α) {p : Nat}
    (hp : c.pos = some p) (hlt : p < c.entries.length) :
    c.current = c.entries.get ⟨p, hlt⟩ := by
  unfold current
  rw [hp]
  exact getD_eq_get' _ _ hlt

theorem currentKey_eq_get {κ α : Type} [Inhabited κ] [Inhabited α] (c : Cursor κ α)
    {p : Nat} (hp : c.pos = some p) (hlt : p < c.entries.length) :
    c.currentKey = (c.entries.get ⟨p, hlt⟩).1 := by
  unfold currentKey
  rw [current_eq_get c hp hlt]

theorem valid_iff_pos_some {κ α : Type} (c : Cursor κ α) :
    c.valid = true ↔ ∃ p, c.pos = some p := by
  unfold valid
  rcases c.pos with _ | p <;> simp

end Cursor

namespace BackwardScanner

theorem writePrev_write_stats (s : BackwardScanner) :
    s.writePrev.statistics.write.prev = s.statistics.write.prev + 1 ∧
    s.writePrev.statistics.write.seek = s.statistics.write.seek ∧
    s.writePrev.statistics.write.seek_for_prev = s.statistics.write.seek_for_prev ∧
    s.writePrev.statistics.write.next = s.statistics.write.next := by
  unfold writePrev Cursor.prev
  rcases s.write_cursor.pos with _ | (_ | p) <;> exact ⟨rfl, rfl, rfl, rfl⟩

theorem writeInternalSeekForPrev_write_stats (s : BackwardScanner) (k : UserKey) :
    (s.writeInternalSeekForPrev k).statistics.write.prev = s.statistics.write.prev ∧
    (s.writeInternalSeekForPrev k).statistics.write.seek = s.statistics.write.seek ∧
    (s.writeInternalSeekForPrev k).statistics.write.seek_for_prev
      = s.statistics.write.seek_for_prev + 1 ∧
    (s.writeInternalSeekForPrev k).statistics.write.next = s.statistics.write.next := by
  unfold writeInternalSeekForPrev Cursor.internal_seek_for_prev
  dsimp only
  split <;> exact ⟨rfl, rfl, rfl, rfl⟩

theorem writePrev_pos_none (s : BackwardScanner) (h : s.write_cursor.pos = none) :
    s.writePrev.write_cursor.pos = none := by
  unfold writePrev Cursor.prev
  rw [h]

theorem writePrev_pos_zero (s : BackwardScanner) (h : s.write_cursor.pos = some 0) :
    s.writePrev.write_cursor.pos = none := by
  unfold writePrev Cursor.prev
  rw [h]

theorem writePrev_pos_succ (s : BackwardScanner) (p : Nat)
    (h : s.write_cursor.pos = some (p + 1)) : s.writePrev.write_cursor.pos = some p := by
  unfold writePrev Cursor.prev
  rw [h]

theorem writePrev_currentKey (s : BackwardScanner) (q : Nat)
    (h : s.write_cursor.pos = some (q + 1)) :
    s.writePrev.write_cursor.currentKey = (s.write_cursor.entries.getD q default).1 := by
  unfold writePrev Cursor.prev
  rw [h]
  rfl

/-- After internal_seek_for_prev on the write cursor with a bare user key
probe, the cursor is invalid or sits on an entry whose user key is strictly
below the probe. -/
theorem writeInternalSeekForPrev_below (s : BackwardScanner) (K : UserKey)
    (hsort : WriteSorted s.write_cursor.entries) :
    (s.writeInternalSeekForPrev K).write_cursor.valid = true →
      keyLt (s.writeInternalSeekForPrev K).write_cursor.currentKey.1 K = true := by
  intro hv
  unfold writeInternalSeekForPrev Cursor.internal_seek_for_prev at hv ⊢
  dsimp only at hv ⊢
  by_cases hzero : s.write_cursor.entries.countP (fun e => keyLt e.1.1 K) = 0
  · rw [if_pos hzero] at hv
    simp [Cursor.valid] at hv
  · rw [if_neg hzero] at hv ⊢
    have hnlen : s.write_cursor.entries.countP (fun e => keyLt e.1.1 K)
        ≤ s.write_cursor.entries.length := List.countP_le_length _
    have hlt : s.write_cursor.entries.countP (fun e => keyLt e.1.1 K) - 1
        < s.write_cursor.entries.length := by omega
    have hkey := (sorted_get_iff_lt_countP
      (R := fun a b => compositeLt a.1 b.1 = true) (p := fun e => keyLt e.1.1 K)
      (fun a b hr hp => by
        dsimp only at hr hp ⊢
        rcases hc : keyLt a.1.1 b.1.1
        · have hab := keyLt_antisymm hc (compositeLt_userKey_not_lt hr)
          rw [hab]
          exact hp
        · exact keyLt_trans hc hp)
      s.write_cursor.entries hsort.pairwise_write
      (s.write_cursor.entries.countP (fun e => keyLt e.1.1 K) - 1) hlt).2 (by omega)
    show keyLt ((Cursor.mk s.write_cursor.entries
      (some (s.write_cursor.entries.countP (fun e => keyLt e.1.1 K) - 1))).currentKey).1 K
        = true
    rw [Cursor.currentKey_eq_get (Cursor.mk s.write_cursor.entries
      (some (s.write_cursor.entries.countP (fun e => keyLt e.1.1 K) - 1))) rfl hlt]
    exact hkey

/-- The strict order of the write CF list, read at two positions. -/
theorem WriteSorted.get_lt {l : List ((UserKey × Ts) × Write)} (hs : WriteSorted l)
    {i j : Nat} (hij : i < j) (hj : j < l.length) :
    compositeLt (l.get ⟨i, Nat.lt_trans hij hj⟩).1 (l.get ⟨j, hj⟩).1 = true :=
  List.pairwise_iff_get.1 hs.pairwise_write ⟨i, Nat.lt_trans hij hj⟩ ⟨j, hj⟩ hij

theorem move_write_cursor_loop_spec (K : UserKey) (n : Nat) (s : BackwardScanner)
    (hsort : WriteSorted s.write_cursor.entries) (hwf : s.write_cursor.WFpos)
    (hvalid : s.write_cursor.valid = true)
    (hK : s.write_cursor.currentKey.1 = K) :
    ((((move_write_cursor_loop K n s).statistics.write.seek_for_prev
          = s.statistics.write.seek_for_prev ∧
       (move_write_cursor_loop K n s).statistics.write.prev
          ≤ s.statistics.write.prev + n) ∨
      ((move_write_cursor_loop K n s).statistics.write.seek_for_prev
          = s.statistics.write.seek_for_prev + 1 ∧
       (move_write_cursor_loop K n s).statistics.write.prev
          = s.statistics.write.prev + n)) ∧
     (move_write_cursor_loop K n s).statistics.write.seek = s.statistics.write.seek ∧
     (move_write_cursor_loop K n s).statistics.write.next = s.statistics.write.next) ∧
    ((move_write_cursor_loop K n s).write_cursor.valid = true →
      keyLt (move_write_cursor_loop K n s).write_cursor.currentKey.1 K = true) := by
  induction n generalizing s with
  | zero =>
    unfold move_write_cursor_loop
    have hst := writeInternalSeekForPrev_write_stats s K
    refine ⟨⟨Or.inr ⟨hst.2.2.1, by rw [hst.1, Nat.add_zero]⟩, hst.2.1, hst.2.2.2⟩, ?_⟩
    exact writeInternalSeekForPrev_below s K hsort
  | succ n ih =>
    obtain ⟨p, hp⟩ := (Cursor.valid_iff_pos_some _).1 hvalid
    have hplen := hwf p hp
    unfold move_write_cursor_loop
    dsimp only
    have hstp := writePrev_write_stats s
    rcases p with _ | q
    · -- stepping from position zero invalidates the cursor
      have hnone := writePrev_pos_zero s hp
      have hinv : s.writePrev.write_cursor.valid = false := by
        simp [Cursor.valid, hnone]
      rw [if_pos (by simp [hinv])]
      refine ⟨⟨Or.inl ⟨hstp.2.2.1, by omega⟩, hstp.2.1, hstp.2.2.2⟩, ?_⟩
      intro hv
      rw [hinv] at hv
      cases hv
    · have hq := writePrev_pos_succ s q hp
      have hqlen : q < s.write_cursor.entries.length := by omega
      have hvalid1 : s.writePrev.write_cursor.valid = true := by
        simp [Cursor.valid, hq]
      rw [if_neg (by simp [hvalid1])]
      -- the entry one step down is strictly below the entry at q + 1
      have hcomp : compositeLt (s.write_cursor.entries.get ⟨q, hqlen⟩).1
          (s.write_cursor.entries.get ⟨q + 1, hplen⟩).1 = true :=
        WriteSorted.get_lt hsort (Nat.lt_succ_self q) hplen
      have hckq : s.writePrev.write_cursor.currentKey
          = (s.write_cursor.entries.get ⟨q, hqlen⟩).1 := by
        rw [writePrev_currentKey s q hp, getD_eq_get' _ _ hqlen]
      have hckold : s.write_cursor.currentKey
          = (s.write_cursor.entries.get ⟨q + 1, hplen⟩).1 :=
        Cursor.currentKey_eq_get _ hp hplen
      have hnotlt : keyLt K s.writePrev.write_cursor.currentKey.1 = false := by
        rw [hckq]
        have hmono := compositeLt_userKey_not_lt hcomp
        rw [← hckold, hK] at hmono
        exact hmono
      split
      · -- met a different user key after the step
        rename_i hne
        refine ⟨⟨Or.inl ⟨hstp.2.2.1, by omega⟩, hstp.2.1, hstp.2.2.2⟩, ?_⟩
        intro _
        exact keyLt_of_ne_of_not_lt (by simpa using hne) hnotlt
      · rename_i heqk
        have hKq : s.writePrev.write_cursor.currentKey.1 = K := by
          simpa using heqk
        have hsort1 : WriteSorted s.writePrev.write_cursor.entries := by
          rw [(writePrev_shape s).write_entries]
          exact hsort
        have hwf1 : s.writePrev.write_cursor.WFpos := by
          intro r hr
          rw [hq] at hr
          cases hr
          rw [(writePrev_shape s).write_entries]
          omega
        have hrec := ih s.writePrev hsort1 hwf1 hvalid1 hKq
        refine ⟨⟨?_, hrec.1.2.1.trans hstp.2.1, hrec.1.2.2.trans hstp.2.2.2⟩, hrec.2⟩
        rcases hrec.1.1 with ⟨ha, hb⟩ | ⟨ha, hb⟩
        · exact Or.inl ⟨ha.trans hstp.2.2.1, by omega⟩
        · exact Or.inr ⟨ha.trans (by rw [hstp.2.2.1]), by omega⟩

/-- C7: for every call on a well formed write CF whose cursor, when valid,
sits on a user key at most current_user_key (which holds at every call site),
move_write_cursor_to_prev_user_key performs at most SEEK_BOUND - 1 prev steps
and at most one internal_seek_for_prev; the seek is issued exactly when the
bounded stepping used its whole budget (so a seek implies SEEK_BOUND - 1 prev
steps), no other write cursor operation is counted, and on return the write
cursor is invalid or positioned on a user key strictly smaller than
current_user_key. -/
theorem move_write_cursor_to_prev_user_key_spec (K : UserKey) (sb : Nat)
    (s : BackwardScanner) (hsort : WriteSorted s.write_cursor.entries)
    (hwf : s.write_cursor.WFpos)
    (hcur : s.write_cursor.valid = true → keyLt K s.write_cursor.currentKey.1 = false) :
    ((move_write_cursor_to_prev_user_key K sb s).statistics.write.prev
        ≤ s.statistics.write.prev + (sb - 1)) ∧
    ((move_write_cursor_to_prev_user_key K sb s).statistics.write.seek_for_prev
        ≤ s.statistics.write.seek_for_prev + 1) ∧
    ((move_write_cursor_to_prev_user_key K sb s).statistics.write.seek_for_prev
        = s.statistics.write.seek_for_prev + 1 →
      (move_write_cursor_to_prev_user_key K sb s).statistics.write.prev
        = s.statistics.write.prev + (sb - 1)) ∧
    ((move_write_cursor_to_prev_user_key K sb s).statistics.write.seek
        = s.statistics.write.seek) ∧
    ((move_write_cursor_to_prev_user_key K sb s).statistics.write.next
        = s.statistics.write.next) ∧
    ((move_write_cursor_to_prev_user_key K sb s).write_cursor.valid = true →
      keyLt (move_write_cursor_to_prev_user_key K sb s).write_cursor.currentKey.1 K
        = true) := by
  unfold move_write_cursor_to_prev_user_key
  rcases sb with _ | n
  · dsimp only
    have hst := writeInternalSeekForPrev_write_stats s K
    refine ⟨by rw [hst.1]; omega, by omega, ?_, hst.2.1, hst.2.2.2, ?_⟩
    · intro _
      rw [hst.1]
      omega
    · exact writeInternalSeekForPrev_below s K hsort
  · dsimp only
    split
    · rename_i hinv
      refine ⟨by omega, by omega, ?_, rfl, rfl, ?_⟩
      · intro hcontra
        omega
      · intro hv
        simp at hinv
        rw [hinv] at hv
        cases hv
    · rename_i hvalid
      have hvalid' : s.write_cursor.valid = true := by
        rcases hb : s.write_cursor.valid
        · rw [hb] at hvalid
          simp at hvalid
        · rfl
      split
      · rename_i hne
        refine ⟨by omega, by omega, ?_, rfl, rfl, ?_⟩
        · intro hcontra
          omega
        · intro _
          exact keyLt_of_ne_of_not_lt (by simpa using hne) (hcur hvalid')
      · rename_i heqk
        have hK : s.write_cursor.currentKey.1 = K := by simpa using heqk
        have hrec := move_write_cursor_loop_spec K n s hsort hwf hvalid' hK
        refine ⟨?_, ?_, ?_, hrec.1.2.1, hrec.1.2.2, hrec.2⟩
        · rcases hrec.1.1 with ⟨_, hb⟩ | ⟨_, hb⟩ <;> omega
        · rcases hrec.1.1 with ⟨ha, _⟩ | ⟨ha, _⟩ <;> omega
        · intro hsfp
          rcases hrec.1.1 with ⟨ha, hb⟩ | ⟨ha, hb⟩
          · omega
          · omega

/-- Closed instance for the hypotheses of the C7 theorem: a two entry sorted
write CF with the cursor on the second entry, current user key being that of
the entry; the move ends on the strictly smaller first key with one prev. -/
theorem move_write_cursor_to_prev_user_key_spec_witness :
    (WriteSorted ((BackwardScannerBuilder.build
        { snapshot := ⟨[(([1], 0), ⟨.Put, 0, some []⟩), (([2], 0), ⟨.Put, 0, some []⟩)],
          [], []⟩, ts := 3 }).initOnce.write_cursor.entries) ∧
     ((BackwardScannerBuilder.build
        { snapshot := ⟨[(([1], 0), ⟨.Put, 0, some []⟩), (([2], 0), ⟨.Put, 0, some []⟩)],
          [], []⟩, ts := 3 }).initOnce.write_cursor.WFpos)) ∧
    ((move_write_cursor_to_prev_user_key [2] 4 ((BackwardScannerBuilder.build
        { snapshot := ⟨[(([1], 0), ⟨.Put, 0, some []⟩), (([2], 0), ⟨.Put, 0, some []⟩)],
          [], []⟩, ts := 3 }).initOnce)).statistics.write.prev
      ≤ ((BackwardScannerBuilder.build
        { snapshot := ⟨[(([1], 0), ⟨.Put, 0, some []⟩), (([2], 0), ⟨.Put, 0, some []⟩)],
          [], []⟩, ts := 3 }).initOnce).statistics.write.prev + 3) := by
  have hsort : WriteSorted ((BackwardScannerBuilder.build
      { snapshot := ⟨[(([1], 0), ⟨.Put, 0, some []⟩), (([2], 0), ⟨.Put, 0, some []⟩)],
        [], []⟩, ts := 3 }).initOnce.write_cursor.entries) := by
    unfold WriteSorted
    refine List.Pairwise.cons ?_ (List.pairwise_singleton _ _)
    intro b hb
    rcases List.mem_singleton.1 hb with rfl
    decide
  have hwf : ((BackwardScannerBuilder.build
      { snapshot := ⟨[(([1], 0), ⟨.Put, 0, some []⟩), (([2], 0), ⟨.Put, 0, some []⟩)],
        [], []⟩, ts := 3 }).initOnce.write_cursor.WFpos) := by
    intro p hp
    cases hp
    decide
  have hcur : ((BackwardScannerBuilder.build
      { snapshot := ⟨[(([1], 0), ⟨.Put, 0, some []⟩), (([2], 0), ⟨.Put, 0, some []⟩)],
        [], []⟩, ts := 3 }).initOnce.write_cursor.valid = true →
      keyLt [2] ((BackwardScannerBuilder.build
      { snapshot := ⟨[(([1], 0), ⟨.Put, 0, some []⟩), (([2], 0), ⟨.Put, 0, some []⟩)],
        [], []⟩, ts := 3 }).initOnce.write_cursor.currentKey.1) = false) := by
    intro _
    decide
  exact ⟨⟨hsort, hwf⟩,
    (move_write_cursor_to_prev_user_key_spec [2] 4 _ hsort hwf hcur).1⟩

end BackwardScanner

namespace Cursor

theorem WFpos_prev {κ α : Type} {c : Cursor κ α} (st : CfStatistics) (h : c.WFpos) :
    (c.prev st).1.WFpos := by
  intro p hp
  rw [prev_entries]
  unfold prev at hp
  dsimp only at hp
  rcases hc : c.pos with _ | (_ | q) <;> rw [hc] at hp <;> dsimp only at hp
  · exact Option.noConfusion hp
  · exact Option.noConfusion hp
  · cases hp
    exact Nat.lt_of_succ_lt (h _ hc)

theorem WFpos_next {κ α : Type} {c : Cursor κ α} (st : CfStatistics) (_h : c.WFpos) :
    (c.next st).1.WFpos := by
  intro p hp
  rw [next_entries]
  unfold next at hp
  dsimp only at hp
  rcases hc : c.pos with _ | q <;> rw [hc] at hp <;> dsimp only at hp
  · rw [hc] at hp
    exact Option.noConfusion hp
  · split at hp
    · cases hp
      assumption
    · exact Option.noConfusion hp

theorem WFpos_seek_to_last {κ α : Type} {c : Cursor κ α} (st : CfStatistics) :
    (c.seek_to_last st).1.WFpos := by
  intro p hp
  rw [seek_to_last_entries]
  unfold seek_to_last at hp
  dsimp only at hp
  split at hp
  · exact Option.noConfusion hp
  · rename_i hne
    cases hp
    have hlen : c.entries ≠ [] := by
      intro h0
      exact hne (by simp [h0])
    have : c.entries.length ≠ 0 := by
      intro h0
      exact hlen (List.length_eq_zero.1 h0)
    omega

theorem WFpos_reverse_seek {κ α : Type} {c : Cursor κ α} (ltP : κ → Bool)
    (st : CfStatistics) : (c.reverse_seek ltP st).1.WFpos := by
  intro p hp
  rw [reverse_seek_entries]
  unfold reverse_seek rankOf at hp
  dsimp only at hp
  split at hp
  · exact Option.noConfusion hp
  · rename_i hne
    cases hp
    have := List.countP_le_length (fun e => ltP e.1) (l := c.entries)
    omega

theorem WFpos_internal_seek {κ α : Type} {c : Cursor κ α} (ltP : κ → Bool)
    (st : CfStatistics) : (c.internal_seek ltP st).1.WFpos := by
  intro p hp
  rw [internal_seek_entries]
  unfold internal_seek rankOf at hp
  dsimp only at hp
  split at hp
  · exact Option.noConfusion hp
  · rename_i hne
    cases hp
    have := List.countP_le_length (fun e => ltP e.1) (l := c.entries)
    omega

theorem WFpos_internal_seek_for_prev {κ α : Type} {c : Cursor κ α} (leP : κ → Bool)
    (st : CfStatistics) : (c.internal_seek_for_prev leP st).1.WFpos := by
  intro p hp
  rw [internal_seek_for_prev_entries]
  unfold internal_seek_for_prev at hp
  dsimp only at hp
  split at hp
  · exact Option.noConfusion hp
  · rename_i hne
    cases hp
    have := List.countP_le_length (fun e => leP e.1) (l := c.entries)
    omega

theorem currentKey_mem {κ α : Type} [Inhabited κ] [Inhabited α] {c : Cursor κ α}
    (hwf : c.WFpos) (hv : c.valid = true) : ∃ e ∈ c.entries, e.1 = c.currentKey := by
  obtain ⟨p, hp⟩ := (valid_iff_pos_some c).1 hv
  have hlt := hwf p hp
  exact ⟨c.entries.get ⟨p, hlt⟩, List.get_mem _ _ _, (currentKey_eq_get c hp hlt).symm⟩

end Cursor

theorem KeepsWF.refl_wf (s : BackwardScanner) : KeepsWF s s := ⟨id, id⟩

theorem KeepsWF.trans_wf {a b c : BackwardScanner} (h1 : KeepsWF a b) (h2 : KeepsWF b c) :
    KeepsWF a c := ⟨fun h => h2.w (h1.w h), fun h => h2.l (h1.l h)⟩

namespace BackwardScanner

theorem writePrev_keeps (s : BackwardScanner) : KeepsWF s s.writePrev :=
  ⟨fun h => Cursor.WFpos_prev _ h, fun h => h⟩

theorem writeNext_keeps (s : BackwardScanner) : KeepsWF s s.writeNext :=
  ⟨fun h => Cursor.WFpos_next _ h, fun h => h⟩

theorem lockPrev_keeps (s : BackwardScanner) : KeepsWF s s.lockPrev :=
  ⟨fun h => h, fun h => Cursor.WFpos_prev _ h⟩

theorem incWriteProcessed_keeps (s : BackwardScanner) : KeepsWF s s.incWriteProcessed :=
  ⟨id, id⟩

theorem writeInternalSeek_keeps (s : BackwardScanner) (k : UserKey × Ts) :
    KeepsWF s (s.writeInternalSeek k) :=
  ⟨fun _ => Cursor.WFpos_internal_seek _ _, fun h => h⟩

theorem writeInternalSeekForPrev_keeps (s : BackwardScanner) (k : UserKey) :
    KeepsWF s (s.writeInternalSeekForPrev k) :=
  ⟨fun _ => Cursor.WFpos_internal_seek_for_prev _ _, fun h => h⟩

theorem ensure_default_cursor_cursors (s : BackwardScanner) :
    s.ensure_default_cursor.write_cursor = s.write_cursor ∧
    s.ensure_default_cursor.lock_cursor = s.lock_cursor := by
  unfold ensure_default_cursor
  split <;> exact ⟨rfl, rfl⟩

theorem reverse_load_data_by_write_cursors (s : BackwardScanner) (w : Write) (k : UserKey) :
    (s.reverse_load_data_by_write w k).2.write_cursor = s.write_cursor ∧
    (s.reverse_load_data_by_write w k).2.lock_cursor = s.lock_cursor := by
  unfold reverse_load_data_by_write
  split
  · exact ⟨rfl, rfl⟩
  · rcases hsv : w.short_value with _ | v
    · simp only [hsv]
      rcases hdc : s.ensure_default_cursor.default_cursor with _ | dc
      · simp only [hdc]
        exact ensure_default_cursor_cursors s
      · simp only [hdc]
        exact ensure_default_cursor_cursors s
    · simp [hsv]

theorem handle_last_version_cursors (s : BackwardScanner) (sw : Option Write) (k : UserKey) :
    (s.handle_last_version sw k).2.write_cursor = s.write_cursor ∧
    (s.handle_last_version sw k).2.lock_cursor = s.lock_cursor := by
  unfold handle_last_version
  rcases sw with _ | w
  · exact ⟨rfl, rfl⟩
  · rcases w with ⟨wt, sts, sv⟩
    rcases wt <;> dsimp only
    · exact reverse_load_data_by_write_cursors ..
    · exact ⟨rfl, rfl⟩
    · exact ⟨rfl, rfl⟩
    · exact ⟨rfl, rfl⟩

theorem handle_last_version_keeps (s : BackwardScanner) (sw : Option Write) (k : UserKey) :
    KeepsWF s (s.handle_last_version sw k).2 := by
  rcases handle_last_version_cursors s sw k with ⟨hw, hl⟩
  exact ⟨fun h => by rw [hw]; exact h, fun h => by rw [hl]; exact h⟩

theorem phase_a_check_keeps_inl (user_key : UserKey) (ts : Ts) (lv : Option Write)
    (s : BackwardScanner) (out : PhaseARes × BackwardScanner)
    (h : phase_a_check user_key ts lv s = .inl out) : KeepsWF s out.2 := by
  unfold phase_a_check at h
  dsimp only at h
  split at h
  · cases h
    exact KeepsWF.refl_wf s
  · split at h
    · cases h
      exact KeepsWF.refl_wf s
    · cases h

theorem phase_a_check_keeps_inr (user_key : UserKey) (ts : Ts) (lv : Option Write)
    (s : BackwardScanner) (lv1 : Option Write) (lc1 : Ts) (s2 : BackwardScanner)
    (h : phase_a_check user_key ts lv s = .inr (lv1, lc1, s2)) : KeepsWF s s2 := by
  unfold phase_a_check at h
  dsimp only at h
  split at h
  · cases h
  · split at h
    · cases h
    · cases h
      exact incWriteProcessed_keeps s

theorem reverse_get_phase_a_loop_keeps (user_key : UserKey) (ts : Ts) (n : Nat)
    (lv : Option Write) (lc : Ts) (s : BackwardScanner) :
    KeepsWF s (reverse_get_phase_a_loop user_key ts n lv lc s).2 := by
  induction n generalizing lv lc s with
  | zero => exact KeepsWF.refl_wf s
  | succ n ih =>
    unfold reverse_get_phase_a_loop
    dsimp only
    split
    · exact writePrev_keeps s
    · split
      · rename_i out heq
        exact KeepsWF.trans_wf (writePrev_keeps s) (phase_a_check_keeps_inl _ _ _ _ _ heq)
      · rename_i lv1 lc1 s2 heq
        exact KeepsWF.trans_wf
          (KeepsWF.trans_wf (writePrev_keeps s) (phase_a_check_keeps_inr _ _ _ _ _ _ _ heq))
          (ih ..)

theorem reverse_get_phase_a_keeps (user_key : UserKey) (ts : Ts) (rsb : Nat)
    (s : BackwardScanner) : KeepsWF s (reverse_get_phase_a user_key ts rsb s).2 := by
  unfold reverse_get_phase_a
  rcases rsb with _ | n
  · exact KeepsWF.refl_wf s
  · dsimp only
    split
    · rename_i out heq
      exact phase_a_check_keeps_inl _ _ _ _ _ heq
    · rename_i lv1 lc1 s2 heq
      exact KeepsWF.trans_wf (phase_a_check_keeps_inr _ _ _ _ _ _ _ heq)
        (reverse_get_phase_a_loop_keeps ..)

theorem reverse_get_phase_b_keeps (user_key : UserKey) (lc : Ts) (lv : Option Write)
    (fuel : Nat) (s : BackwardScanner) :
    KeepsWF s (reverse_get_phase_b user_key lc lv fuel s).2 := by
  induction fuel generalizing s with
  | zero => exact KeepsWF.refl_wf s
  | succ n ih =>
    unfold reverse_get_phase_b
    dsimp only
    split
    · exact KeepsWF.refl_wf s
    · split
      · exact handle_last_version_keeps ..
      · split
        · refine KeepsWF.trans_wf (incWriteProcessed_keeps s) ?_
          rcases reverse_load_data_by_write_cursors s.incWriteProcessed
            (s.write_cursor.currentValue) user_key with ⟨hw, hl⟩
          exact ⟨fun h => by rw [hw]; exact h, fun h => by rw [hl]; exact h⟩
        · exact incWriteProcessed_keeps s
        · split
          · exact KeepsWF.trans_wf (incWriteProcessed_keeps s) (writeNext_keeps _)
          · exact KeepsWF.trans_wf (KeepsWF.trans_wf (incWriteProcessed_keeps s)
              (writeNext_keeps _)) (ih _)
        · split
          · exact KeepsWF.trans_wf (incWriteProcessed_keeps s) (writeNext_keeps _)
          · exact KeepsWF.trans_wf (KeepsWF.trans_wf (incWriteProcessed_keeps s)
              (writeNext_keeps _)) (ih _)

theorem reverse_get_keeps (s : BackwardScanner) (rsb : Nat) (user_key : UserKey) (ts : Ts) :
    KeepsWF s (s.reverse_get rsb user_key ts).2.2 := by
  unfold reverse_get
  split
  · exact KeepsWF.refl_wf s
  · split
    · rename_i lv met s1 heq
      have h1 : KeepsWF s s1 := by
        have h0 := reverse_get_phase_a_keeps user_key ts rsb s
        rw [heq] at h0
        exact h0
      exact KeepsWF.trans_wf h1 (handle_last_version_keeps ..)
    · rename_i lv lc s1 heq
      have h1 : KeepsWF s s1 := by
        have h0 := reverse_get_phase_a_keeps user_key ts rsb s
        rw [heq] at h0
        exact h0
      dsimp only
      split
      · exact KeepsWF.trans_wf h1 (handle_last_version_keeps ..)
      · split
        · split
          · exact KeepsWF.trans_wf h1 (writeInternalSeek_keeps ..)
          · exact KeepsWF.trans_wf (KeepsWF.trans_wf h1 (writeInternalSeek_keeps ..))
              (reverse_get_phase_b_keeps ..)
        · exact h1

theorem move_write_cursor_loop_keeps (k : UserKey) (n : Nat) (s : BackwardScanner) :
    KeepsWF s (move_write_cursor_loop k n s) := by
  induction n generalizing s with
  | zero => exact writeInternalSeekForPrev_keeps s k
  | succ n ih =>
    unfold move_write_cursor_loop
    dsimp only
    split
    · exact writePrev_keeps s
    · split
      · exact writePrev_keeps s
      · exact KeepsWF.trans_wf (writePrev_keeps s) (ih _)

theorem move_write_cursor_to_prev_user_key_keeps (k : UserKey) (n : Nat)
    (s : BackwardScanner) : KeepsWF s (move_write_cursor_to_prev_user_key k n s) := by
  unfold move_write_cursor_to_prev_user_key
  rcases n with _ | n
  · exact writeInternalSeekForPrev_keeps s k
  · dsimp only
    split
    · exact KeepsWF.refl_wf s
    · split
      · exact KeepsWF.refl_wf s
      · exact move_write_cursor_loop_keeps ..

theorem lockStep_keeps (cl : LockRecord → Ts → CheckLockResult) (s : BackwardScanner)
    (hl : Bool) : KeepsWF s (lockStep cl s hl).2.2 := by
  unfold lockStep
  split
  · exact lockPrev_keeps s
  · exact KeepsWF.refl_wf s

theorem writeStep_keeps (rsb sb : Nat) (s : BackwardScanner)
    (r1 : Except ScanError (Option Value)) (get_ts : Ts) (cur : UserKey) (hw : Bool) :
    KeepsWF s (writeStep rsb sb s r1 get_ts cur hw).2 := by
  unfold writeStep
  split
  · rcases r1 with e | v <;> dsimp only <;> split
    · exact move_write_cursor_to_prev_user_key_keeps ..
    · exact KeepsWF.refl_wf s
    · exact KeepsWF.trans_wf (reverse_get_keeps ..) (move_write_cursor_to_prev_user_key_keeps ..)
    · exact reverse_get_keeps ..
  · exact KeepsWF.refl_wf s

theorem read_next_loop_keeps (rsb sb : Nat) (cl : LockRecord → Ts → CheckLockResult)
    (fuel : Nat) (s : BackwardScanner) :
    KeepsWF s (read_next_loop rsb sb cl fuel s).2 := by
  induction fuel generalizing s with
  | zero => exact KeepsWF.refl_wf s
  | succ n ih =>
    unfold read_next_loop
    split
    · exact KeepsWF.refl_wf s
    · rename_i current_user_key has_write has_lock heq
      have h2 : KeepsWF s (writeStep rsb sb (lockStep cl s has_lock).2.2
          (lockStep cl s has_lock).1 (lockStep cl s has_lock).2.1 current_user_key
          has_write).2 :=
        KeepsWF.trans_wf (lockStep_keeps cl s has_lock) (writeStep_keeps ..)
      dsimp only
      split
      · exact h2
      · exact h2
      · exact KeepsWF.trans_wf h2 (ih _)

theorem initOnce_entries (s : BackwardScanner) :
    s.initOnce.write_cursor.entries = s.write_cursor.entries ∧
    s.initOnce.lock_cursor.entries = s.lock_cursor.entries := by
  unfold initOnce
  split
  · exact ⟨rfl, rfl⟩
  · rcases hub : s.upper_bound with _ | ub <;> dsimp only <;> exact ⟨by simp, by simp⟩

theorem initOnce_keeps (s : BackwardScanner) : KeepsWF s s.initOnce := by
  unfold initOnce
  split
  · exact KeepsWF.refl_wf s
  · rcases hub : s.upper_bound with _ | ub <;> dsimp only
    · exact ⟨fun _ => Cursor.WFpos_seek_to_last _, fun _ => Cursor.WFpos_seek_to_last _⟩
    · exact ⟨fun _ => Cursor.WFpos_reverse_seek _ _, fun _ => Cursor.WFpos_reverse_seek _ _⟩

/-- The user key determined by a main loop iteration is the user key of some
entry of one of the two cursors. -/
theorem currentKeyInfo_mem (s : BackwardScanner) (cur : UserKey) (hw hl : Bool)
    (hwwf : s.write_cursor.WFpos) (hlwf : s.lock_cursor.WFpos)
    (h : s.currentKeyInfo = some (cur, hw, hl)) :
    (∃ e ∈ s.write_cursor.entries, e.1.1 = cur) ∨
    (∃ e ∈ s.lock_cursor.entries, e.1 = cur) := by
  unfold currentKeyInfo at h
  rcases hwv : s.write_cursor.valid <;> rcases hlv : s.lock_cursor.valid <;>
    simp only [hwv, hlv, if_true, if_false, Bool.false_eq_true, Bool.true_eq_false] at h
  · cases h
  · cases h
    obtain ⟨e, he, hek⟩ := Cursor.currentKey_mem hlwf hlv
    exact Or.inr ⟨e, he, hek⟩
  · cases h
    obtain ⟨e, he, hek⟩ := Cursor.currentKey_mem hwwf hwv
    exact Or.inl ⟨e, he, congrArg Prod.fst hek⟩
  · rcases hcmp : compareKeys s.write_cursor.currentKey.1 s.lock_cursor.currentKey with
      _ | _ | _ <;> rw [hcmp] at h <;> cases h
    · obtain ⟨e, he, hek⟩ := Cursor.currentKey_mem hlwf hlv
      exact Or.inr ⟨e, he, hek⟩
    · obtain ⟨e, he, hek⟩ := Cursor.currentKey_mem hwwf hwv
      exact Or.inl ⟨e, he, congrArg Prod.fst hek⟩
    · obtain ⟨e, he, hek⟩ := Cursor.currentKey_mem hwwf hwv
      exact Or.inl ⟨e, he, congrArg Prod.fst hek⟩

/-- Every pair a main loop run emits carries the user key of some entry of one
of the two cursors of the entering state. -/
theorem read_next_loop_emit_mem (rsb sb : Nat) (cl : LockRecord → Ts → CheckLockResult)
    (fuel : Nat) (s s1 : BackwardScanner) (k : UserKey) (v : Value)
    (hwwf : s.write_cursor.WFpos) (hlwf : s.lock_cursor.WFpos)
    (h : read_next_loop rsb sb cl fuel s = (.ok (some (k, v)), s1)) :
    (∃ e ∈ s.write_cursor.entries, e.1.1 = k) ∨
    (∃ e ∈ s.lock_cursor.entries, e.1 = k) := by
  induction fuel generalizing s with
  | zero =>
    rw [read_next_loop] at h
    simp at h
  | succ n ih =>
    rw [read_next_loop] at h
    split at h
    · simp at h
    · rename_i cur has_write has_lock heq
      dsimp only at h
      split at h
      · simp at h
      · rename_i v1 hstep
        have hk : cur = k := by
          have hinj := congrArg Prod.fst h
          simp at hinj
          exact hinj.1
        subst hk
        exact currentKeyInfo_mem s cur has_write has_lock hwwf hlwf heq
      · rename_i hstep
        have hkeep : KeepsWF s (writeStep rsb sb (lockStep cl s has_lock).2.2
            (lockStep cl s has_lock).1 (lockStep cl s has_lock).2.1 cur has_write).2 :=
          KeepsWF.trans_wf (lockStep_keeps cl s has_lock) (writeStep_keeps ..)
        have hshape : SameShape s (writeStep rsb sb (lockStep cl s has_lock).2.2
            (lockStep cl s has_lock).1 (lockStep cl s has_lock).2.1 cur has_write).2 :=
          SameShape.trans_shape (lockStep_shape cl s has_lock) (writeStep_shape ..)
        have hmem := ih _ (hkeep.w hwwf) (hkeep.l hlwf) h
        rw [hshape.write_entries, hshape.lock_entries] at hmem
        exact hmem

/-- Every pair a read_next call emits carries the user key of some entry of
one of the two cursors, hence a key inside the configured range when the
entries all are. -/
theorem read_next_emit_mem (rsb sb : Nat) (cl : LockRecord → Ts → CheckLockResult)
    (s s1 : BackwardScanner) (k : UserKey) (v : Value)
    (hwwf : s.write_cursor.WFpos) (hlwf : s.lock_cursor.WFpos)
    (h : BackwardScanner.read_next rsb sb cl s = (.ok (some (k, v)), s1)) :
    (∃ e ∈ s.write_cursor.entries, e.1.1 = k) ∨
    (∃ e ∈ s.lock_cursor.entries, e.1 = k) := by
  unfold BackwardScanner.read_next at h
  dsimp only at h
  have hkeep := initOnce_keeps s
  have hmem := read_next_loop_emit_mem _ _ _ _ _ _ _ _ (hkeep.w hwwf) (hkeep.l hlwf) h
  rw [(initOnce_entries s).1, (initOnce_entries s).2] at hmem
  exact hmem

end BackwardScanner

/-- The cursor entry lists and their position well formedness survive a full
read_next call. -/
theorem read_next_pres (rsb sb : Nat) (cl : LockRecord → Ts → CheckLockResult)
    (s : BackwardScanner) :
    (BackwardScanner.read_next rsb sb cl s).2.write_cursor.entries
        = s.write_cursor.entries ∧
    (BackwardScanner.read_next rsb sb cl s).2.lock_cursor.entries
        = s.lock_cursor.entries ∧
    (s.write_cursor.WFpos →
      (BackwardScanner.read_next rsb sb cl s).2.write_cursor.WFpos) ∧
    (s.lock_cursor.WFpos →
      (BackwardScanner.read_next rsb sb cl s).2.lock_cursor.WFpos) := by
  unfold BackwardScanner.read_next
  dsimp only
  have hshape := BackwardScanner.read_next_loop_shape rsb sb cl
    (s.initOnce.lock_cursor.entries.length + s.initOnce.write_cursor.entries.length + 1)
    s.initOnce
  have hkeep := BackwardScanner.read_next_loop_keeps rsb sb cl
    (s.initOnce.lock_cursor.entries.length + s.initOnce.write_cursor.entries.length + 1)
    s.initOnce
  have hie := BackwardScanner.initOnce_entries s
  have hik := BackwardScanner.initOnce_keeps s
  exact ⟨hshape.write_entries.trans hie.1, hshape.lock_entries.trans hie.2,
    fun h => hkeep.w (hik.w h), fun h => hkeep.l (hik.l h)⟩

/-- Invariant used for the range claim: when every entry visible to either
cursor lies inside the half open range, so does every emitted user key, over
any number of calls. -/
theorem scanCollect_in_range (rsb sb : Nat) (cl : LockRecord → Ts → CheckLockResult)
    (L U : Option UserKey) (fuel : Nat) (s : BackwardScanner)
    (hwwf : s.write_cursor.WFpos) (hlwf : s.lock_cursor.WFpos)
    (hwe : ∀ e ∈ s.write_cursor.entries, inRangeUser L U e.1.1 = true)
    (hle : ∀ e ∈ s.lock_cursor.entries, inRangeUser L U e.1 = true) :
    ∀ kv ∈ scanCollect rsb sb cl fuel s, inRangeUser L U kv.1 = true := by
  induction fuel generalizing s with
  | zero =>
    intro kv hkv
    rw [scanCollect] at hkv
    cases hkv
  | succ n ih =>
    intro kv hkv
    rw [scanCollect] at hkv
    split at hkv
    · cases hkv
    · rename_i kv1 s1 hcall
      have hpres := read_next_pres rsb sb cl s
      rw [hcall] at hpres
      dsimp only at hpres
      rcases List.mem_cons.1 hkv with rfl | hkv'
      · rcases BackwardScanner.read_next_emit_mem rsb sb cl s s1 kv.1 kv.2 hwwf hlwf hcall
          with ⟨e, he, hek⟩ | ⟨e, he, hek⟩
        · rw [← hek]
          exact hwe e he
        · rw [← hek]
          exact hle e he
      · refine ih s1 (hpres.2.2.1 hwwf) (hpres.2.2.2 hlwf) ?_ ?_ kv hkv'
        · rw [hpres.1]
          exact hwe
        · rw [hpres.2.1]
          exact hle
    · rename_i e s1 hcall
      have hpres := read_next_pres rsb sb cl s
      rw [hcall] at hpres
      dsimp only at hpres
      refine ih s1 (hpres.2.2.1 hwwf) (hpres.2.2.2 hlwf) ?_ ?_ kv hkv
      · rw [hpres.1]
        exact hwe
      · rw [hpres.2.1]
        exact hle

/-- C4: every user key emitted over the lifetime of a scanner built with the
half open range given by the optional bounds L and U satisfies L at most k
(when L is given) and k strictly below U (when U is given): in particular the
upper bound key is never returned; and the lower bound key itself is
eligible, witnessed by the concrete S4 scanner with range from key three
inclusive to key five exclusive, which does return its lower bound key. -/
theorem scan_emits_in_range (rsb sb : Nat) (cl : LockRecord → Ts → CheckLockResult)
    (b : BackwardScannerBuilder) (fuel : Nat) :
    (∀ kv ∈ scanCollect rsb sb cl fuel b.build,
      inRangeUser b.lower_bound b.upper_bound kv.1 = true) ∧
    ((([3], [3]) : UserKey × Value) ∈ scanCollect 4 4 noLockCheck 4 s4Scanner ∧
     s4Scanner.lower_bound = some [3] ∧ s4Scanner.upper_bound = some [5]) := by
  constructor
  · refine scanCollect_in_range rsb sb cl b.lower_bound b.upper_bound fuel b.build ?_ ?_ ?_ ?_
    · intro p hp
      cases hp
    · intro p hp
      cases hp
    · intro e he
      unfold BackwardScannerBuilder.build at he
      dsimp only at he
      exact (List.mem_filter.1 he).2
    · intro e he
      unfold BackwardScannerBuilder.build at he
      dsimp only at he
      exact (List.mem_filter.1 he).2
  · exact ⟨by decide, rfl, rfl⟩

/-- Closed instance of the C4 theorem at the S4 configuration: the key the S4
scan returns through its membership fact is inside the configured range. -/
theorem scan_emits_in_range_witness :
    inRangeUser (some [3]) (some [5]) ([3] : UserKey) = true := by
  have h := scan_emits_in_range 4 4 noLockCheck
    { snapshot := s4Snapshot, ts := 10,
      lower_bound := some [3], upper_bound := some [5] } 4
  exact h.1 ([3], [3]) h.2.1

theorem compareKeys_lt {a b : List Nat} (h : compareKeys a b = .lt) : keyLt a b = true := by
  unfold compareKeys at h
  split at h
  · assumption
  · split at h <;> cases h

theorem compareKeys_gt {a b : List Nat} (h : compareKeys a b = .gt) :
    keyLt b a = true ∧ keyLt a b = false := by
  unfold compareKeys at h
  split at h
  · cases h
  · split at h
    · rename_i h1 h2
      exact ⟨h2, by rcases hc : keyLt a b with _ | _; rfl; exact absurd hc h1⟩
    · cases h

theorem compareKeys_eq {a b : List Nat} (h : compareKeys a b = .eq) : a = b := by
  unfold compareKeys at h
  split at h
  · cases h
  · split at h
    · cases h
    · rename_i h1 h2
      exact keyLt_antisymm (by rcases hc : keyLt a b with _ | _; rfl; exact absurd hc h1)
        (by rcases hc : keyLt b a with _ | _; rfl; exact absurd hc h2)

namespace BackwardScanner

/-- One backward step on the write cursor never increases the user key. -/
theorem writePrev_key_le (s : BackwardScanner) (hsort : WriteSorted s.write_cursor.entries)
    (hwf : s.write_cursor.WFpos) (hv1 : s.writePrev.write_cursor.valid = true) :
    keyLt s.write_cursor.currentKey.1 s.writePrev.write_cursor.currentKey.1 = false := by
  rcases hpos : s.write_cursor.pos with _ | p
  · exfalso
    have := writePrev_pos_none s hpos
    simp [Cursor.valid, this] at hv1
  · rcases p with _ | q
    · exfalso
      have := writePrev_pos_zero s hpos
      simp [Cursor.valid, this] at hv1
    · have hplen := hwf _ hpos
      have hqlen : q < s.write_cursor.entries.length := by omega
      have hcomp : compositeLt (s.write_cursor.entries.get ⟨q, hqlen⟩).1
          (s.write_cursor.entries.get ⟨q + 1, hplen⟩).1 = true :=
        WriteSorted.get_lt hsort (Nat.lt_succ_self q) hplen
      rw [Cursor.currentKey_eq_get s.write_cursor hpos hplen,
        writePrev_currentKey s q hpos, getD_eq_get' _ _ hqlen]
      exact compositeLt_userKey_not_lt hcomp

/-- One backward step on the lock cursor from a valid position lands strictly
below the key it was on, or goes invalid. -/
theorem lockPrev_below (s : BackwardScanner) (hsort : LockSorted s.lock_cursor.entries)
    (hwf : s.lock_cursor.WFpos) (hvalid : s.lock_cursor.valid = true) :
    s.lockPrev.lock_cursor.valid = false ∨
    (s.lockPrev.lock_cursor.valid = true ∧
      keyLt s.lockPrev.lock_cursor.currentKey s.lock_cursor.currentKey = true) := by
  obtain ⟨p, hpos⟩ := (Cursor.valid_iff_pos_some _).1 hvalid
  have hplen := hwf _ hpos
  rcases p with _ | q
  · left
    have hn : s.lockPrev.lock_cursor.pos = none := by
      unfold lockPrev Cursor.prev
      rw [hpos]
    simp [Cursor.valid, hn]
  · right
    have hq : s.lockPrev.lock_cursor.pos = some q := by
      unfold lockPrev Cursor.prev
      rw [hpos]
    have hqlen : q < s.lock_cursor.entries.length := by omega
    have hqlen' : q < s.lockPrev.lock_cursor.entries.length := by
      rw [(lockPrev_shape s).lock_entries]
      omega
    constructor
    · simp [Cursor.valid, hq]
    · have hck : s.lockPrev.lock_cursor.currentKey = (s.lock_cursor.entries.get ⟨q, hqlen⟩).1 := by
        have h0 := Cursor.currentKey_eq_get s.lockPrev.lock_cursor hq hqlen'
        rw [h0, ← getD_eq_get' _ default hqlen', (lockPrev_shape s).lock_entries,
          getD_eq_get' _ default hqlen]
      rw [hck, Cursor.currentKey_eq_get s.lock_cursor hpos hplen]
      exact List.pairwise_iff_get.1 hsort.pairwise_lock ⟨q, hqlen⟩ ⟨q + 1, hplen⟩
        (Nat.lt_succ_self q)

/-- Characterization of the early returns of the phase A iteration body. -/
theorem phase_a_check_inl_cases (user_key : UserKey) (ts : Ts) (lv : Option Write)
    (s : BackwardScanner) (out : PhaseARes × BackwardScanner)
    (h : phase_a_check user_key ts lv s = .inl out) :
    (out = (.Ret lv true, s) ∧ s.write_cursor.currentKey.1 ≠ user_key) ∨
    (out = (.Ret lv false, s) ∧ s.write_cursor.currentKey.1 = user_key ∧
      ts < s.write_cursor.currentKey.2) := by
  unfold phase_a_check at h
  dsimp only at h
  split at h
  · rename_i hne
    cases h
    exact Or.inl ⟨rfl, hne⟩
  · rename_i hne
    split at h
    · rename_i hts
      cases h
      exact Or.inr ⟨rfl, by simpa using hne, hts⟩
    · cases h

/-- Characterization of the continue case of the phase A iteration body. -/
theorem phase_a_check_inr_cases (user_key : UserKey) (ts : Ts) (lv : Option Write)
    (s : BackwardScanner) (lv1 : Option Write) (lc1 : Ts) (s2 : BackwardScanner)
    (h : phase_a_check user_key ts lv s = .inr (lv1, lc1, s2)) :
    s2 = s.incWriteProcessed ∧ lc1 = s.write_cursor.currentKey.2 ∧
    s.write_cursor.currentKey.1 = user_key ∧ ¬ ts < lc1 := by
  unfold phase_a_check at h
  dsimp only at h
  split at h
  · cases h
  · rename_i hne
    split at h
    · cases h
    · rename_i hts
      cases h
      exact ⟨rfl, rfl, by simpa using hne, hts⟩

@[simp] theorem incWriteProcessed_write_cursor (s : BackwardScanner) :
    s.incWriteProcessed.write_cursor = s.write_cursor := rfl

@[simp] theorem incWriteProcessed_lock_cursor (s : BackwardScanner) :
    s.incWriteProcessed.lock_cursor = s.lock_cursor := rfl

end BackwardScanner

theorem except_map_ne_error {α β : Type} (f : α → β) (x : Except ScanError α) (e : ScanError)
    (hx : x ≠ .error e) : x.map f ≠ .error e := by
  rcases x with e1 | v
  · intro h
    simp only [Except.map] at h
    cases h
    exact hx rfl
  · intro h
    simp only [Except.map] at h
    exact Except.noConfusion h

namespace BackwardScanner

theorem near_reverse_load_result (c : Cursor (UserKey × Ts) Value) (k : UserKey) (w : Write) :
    (near_reverse_load_data_by_write c k w).1 ≠ .error .AssertionFailed ∧
    (near_reverse_load_data_by_write c k w).1 ≠ .error .FuelExhausted := by
  unfold near_reverse_load_data_by_write
  split <;> exact ⟨by simp, by simp⟩

/-- reverse_load_data_by_write either produces a value or fails with
ValueNotFound; it never raises the error forms that model the asserts or the
recursion fuel. -/
theorem reverse_load_result (s : BackwardScanner) (w : Write) (k : UserKey) :
    (s.reverse_load_data_by_write w k).1 ≠ .error .AssertionFailed ∧
    (s.reverse_load_data_by_write w k).1 ≠ .error .FuelExhausted := by
  unfold reverse_load_data_by_write
  split
  · exact ⟨by simp, by simp⟩
  · rcases hsv : w.short_value with _ | v
    · simp only [hsv]
      rcases hdc : s.ensure_default_cursor.default_cursor with _ | dc
      · exact ⟨by simp, by simp⟩
      · exact near_reverse_load_result dc k w
    · simp only [hsv]
      exact ⟨by simp, by simp⟩

/-- handle_last_version on an accumulator that only holds Put or Delete
records never hits its unreachable arms. -/
theorem handle_last_version_no_assert (s : BackwardScanner) (lv : Option Write) (k : UserKey)
    (hlv : GoodLV lv) :
    (s.handle_last_version lv k).1 ≠ .error .AssertionFailed ∧
    (s.handle_last_version lv k).1 ≠ .error .FuelExhausted := by
  unfold handle_last_version
  rcases lv with _ | w
  · exact ⟨by simp, by simp⟩
  · rcases w with ⟨wt, sts, sv⟩
    rcases wt <;> dsimp only
    · have hr := reverse_load_result s ⟨.Put, sts, sv⟩ k
      exact ⟨except_map_ne_error some _ _ hr.1, except_map_ne_error some _ _ hr.2⟩
    · exact ⟨by simp, by simp⟩
    · rcases hlv with h | h <;> cases h
    · rcases hlv with h | h <;> cases h

theorem writeNext_pos_succ (s : BackwardScanner) (p : Nat)
    (hp : s.write_cursor.pos = some p) (hlt : p + 1 < s.write_cursor.entries.length) :
    s.writeNext.write_cursor.pos = some (p + 1) := by
  unfold writeNext Cursor.next
  rw [hp]
  dsimp only
  rw [if_pos hlt]

/-- The continue case of the phase A body preserves the accumulator
invariant: it only records the parsed record when it is a Put or a Delete. -/
theorem phase_a_check_inr_goodlv (user_key : UserKey) (ts : Ts) (lv : Option Write)
    (s : BackwardScanner) (lv1 : Option Write) (lc1 : Ts) (s2 : BackwardScanner)
    (h : phase_a_check user_key ts lv s = .inr (lv1, lc1, s2)) (hlv : GoodLV lv) :
    GoodLV lv1 := by
  unfold phase_a_check at h
  dsimp only at h
  split at h
  · cases h
  · split at h
    · cases h
    · rcases hwt : s.write_cursor.currentValue.write_type <;> rw [hwt] at h <;> cases h
      · exact Or.inl hwt
      · exact Or.inr hwt
      · exact hlv
      · exact hlv

/-- Position analysis of the stepping iterations of phase A, entered on a
valid cursor at the current user key: an early return with met_prev_user_key
leaves the cursor valid on a strictly smaller user key, an early return
without it leaves the cursor invalid or still on the current user key, and
fall through leaves the cursor on the version of the current user key whose
commit ts is the recorded last_checked_commit_ts, which never exceeds ts; the
last_version accumulator always satisfies its Put or Delete invariant. -/
theorem phase_a_loop_pos (K : UserKey) (ts : Ts) (n : Nat) :
    ∀ (lv : Option Write) (lc : Ts) (s : BackwardScanner),
    WriteSorted s.write_cursor.entries → s.write_cursor.WFpos →
    s.write_cursor.valid = true → s.write_cursor.currentKey = (K, lc) →
    ¬ ts < lc → GoodLV lv →
    (∀ lv2 met s2, reverse_get_phase_a_loop K ts n lv lc s = (.Ret lv2 met, s2) →
      GoodLV lv2 ∧
      (met = true → s2.write_cursor.valid = true ∧
        keyLt s2.write_cursor.currentKey.1 K = true) ∧
      (met = false → s2.write_cursor.valid = false ∨
        (s2.write_cursor.valid = true ∧ s2.write_cursor.currentKey.1 = K))) ∧
    (∀ lv2 lc2 s2, reverse_get_phase_a_loop K ts n lv lc s = (.Cont lv2 lc2, s2) →
      GoodLV lv2 ∧ s2.write_cursor.valid = true ∧
      s2.write_cursor.currentKey = (K, lc2) ∧ ¬ ts < lc2) := by
  induction n with
  | zero =>
    intro lv lc s _ _ hvalid hKlc hts hlv
    constructor
    · intro lv2 met s2 h
      unfold reverse_get_phase_a_loop at h
      have hfst := congrArg Prod.fst h
      simp at hfst
    · intro lv2 lc2 s2 h
      unfold reverse_get_phase_a_loop at h
      have hfst := congrArg Prod.fst h
      have hsnd := congrArg Prod.snd h
      simp at hfst
      dsimp only at hsnd
      rcases hfst with ⟨h1, h2⟩
      subst hsnd
      exact ⟨h1 ▸ hlv, hvalid, h2 ▸ hKlc, h2 ▸ hts⟩
  | succ m ih =>
    intro lv lc s hsort hwf hvalid hKlc hts hlv
    have hKeq : s.write_cursor.currentKey.1 = K := by rw [hKlc]
    have hstep : reverse_get_phase_a_loop K ts (m + 1) lv lc s
        = (if (!s.writePrev.write_cursor.valid) = true
           then (PhaseARes.Ret lv false, s.writePrev)
           else match phase_a_check K ts lv s.writePrev with
             | Sum.inl out => out
             | Sum.inr (a, b, c) => reverse_get_phase_a_loop K ts m a b c) := rfl
    by_cases hv1 : s.writePrev.write_cursor.valid = true
    · have hsort1 : WriteSorted s.writePrev.write_cursor.entries := by
        rw [(writePrev_shape s).write_entries]
        exact hsort
      have hwf1 := (writePrev_keeps s).w hwf
      have hle := writePrev_key_le s hsort hwf hv1
      rw [hKeq] at hle
      rcases hchk : phase_a_check K ts lv s.writePrev with out | ⟨lv1, lc1, s2'⟩
      · have heq : reverse_get_phase_a_loop K ts (m + 1) lv lc s = out := by
          rw [hstep, if_neg (by simp [hv1]), hchk]
        rcases phase_a_check_inl_cases K ts lv s.writePrev out hchk with
          ⟨hout, hne⟩ | ⟨hout, hKp, htsp⟩
        · subst hout
          constructor
          · intro lv2 met s2 h
            rw [heq] at h
            have hfst := congrArg Prod.fst h
            have hsnd := congrArg Prod.snd h
            simp at hfst
            dsimp only at hsnd
            rcases hfst with ⟨h1, h2⟩
            subst hsnd
            refine ⟨h1 ▸ hlv, ?_, ?_⟩
            · intro _
              exact ⟨hv1, keyLt_of_ne_of_not_lt hne hle⟩
            · intro hmet
              rw [hmet] at h2
              cases h2
          · intro lv2 lc2 s2 h
            rw [heq] at h
            have hfst := congrArg Prod.fst h
            simp at hfst
        · subst hout
          constructor
          · intro lv2 met s2 h
            rw [heq] at h
            have hfst := congrArg Prod.fst h
            have hsnd := congrArg Prod.snd h
            simp at hfst
            dsimp only at hsnd
            rcases hfst with ⟨h1, h2⟩
            subst hsnd
            refine ⟨h1 ▸ hlv, ?_, ?_⟩
            · intro hmet
              rw [hmet] at h2
              cases h2
            · intro _
              exact Or.inr ⟨hv1, hKp⟩
          · intro lv2 lc2 s2 h
            rw [heq] at h
            have hfst := congrArg Prod.fst h
            simp at hfst
      · have heq : reverse_get_phase_a_loop K ts (m + 1) lv lc s
            = reverse_get_phase_a_loop K ts m lv1 lc1 s2' := by
          rw [hstep, if_neg (by simp [hv1]), hchk]
        rcases phase_a_check_inr_cases K ts lv s.writePrev lv1 lc1 s2' hchk with
          ⟨hs2, hlc1, hKp, hts1⟩
        have hgood := phase_a_check_inr_goodlv K ts lv s.writePrev lv1 lc1 s2' hchk hlv
        subst hs2
        have hrec := ih lv1 lc1 s.writePrev.incWriteProcessed
          (by rw [(incWriteProcessed_shape s.writePrev).write_entries]; exact hsort1)
          ((incWriteProcessed_keeps s.writePrev).w hwf1)
          (by rw [incWriteProcessed_write_cursor]; exact hv1)
          (by rw [incWriteProcessed_write_cursor, Prod.ext_iff]; exact ⟨hKp, hlc1.symm⟩)
          hts1 hgood
        constructor
        · intro lv2 met s2 h
          rw [heq] at h
          exact hrec.1 lv2 met s2 h
        · intro lv2 lc2 s2 h
          rw [heq] at h
          exact hrec.2 lv2 lc2 s2 h
    · have hv1f : s.writePrev.write_cursor.valid = false := by
        rcases hb : s.writePrev.write_cursor.valid
        · rfl
        · exact absurd hb hv1
      have heq : reverse_get_phase_a_loop K ts (m + 1) lv lc s
          = (.Ret lv false, s.writePrev) := by
        rw [hstep, if_pos (by simp [hv1f])]
      constructor
      · intro lv2 met s2 h
        rw [heq] at h
        have hfst := congrArg Prod.fst h
        have hsnd := congrArg Prod.snd h
        simp at hfst
        dsimp only at hsnd
        rcases hfst with ⟨h1, h2⟩
        subst hsnd
        refine ⟨h1 ▸ hlv, ?_, ?_⟩
        · intro hmet
          rw [hmet] at h2
          cases h2
        · intro _
          exact Or.inl hv1f
      · intro lv2 lc2 s2 h
        rw [heq] at h
        have hfst := congrArg Prod.fst h
        simp at hfst

/-- Position analysis of phase A as a whole, entered on a valid cursor
standing on the current user key, with a positive step budget. -/
theorem phase_a_pos (K : UserKey) (ts : Ts) (rsb : Nat) (s : BackwardScanner)
    (hrsb : 1 ≤ rsb) (hsort : WriteSorted s.write_cursor.entries)
    (hwf : s.write_cursor.WFpos) (hvalid : s.write_cursor.valid = true)
    (hK : s.write_cursor.currentKey.1 = K) :
    (∀ lv2 met s2, reverse_get_phase_a K ts rsb s = (.Ret lv2 met, s2) →
      GoodLV lv2 ∧
      (met = true → s2.write_cursor.valid = true ∧
        keyLt s2.write_cursor.currentKey.1 K = true) ∧
      (met = false → s2.write_cursor.valid = false ∨
        (s2.write_cursor.valid = true ∧ s2.write_cursor.currentKey.1 = K))) ∧
    (∀ lv2 lc2 s2, reverse_get_phase_a K ts rsb s = (.Cont lv2 lc2, s2) →
      GoodLV lv2 ∧ s2.write_cursor.valid = true ∧
      s2.write_cursor.currentKey = (K, lc2) ∧ ¬ ts < lc2) := by
  rcases rsb with _ | m
  · exact absurd hrsb (by omega)
  · rcases hchk : phase_a_check K ts none s with out | ⟨lv1, lc1, s2'⟩
    · have heq : reverse_get_phase_a K ts (m + 1) s = out := by
        unfold reverse_get_phase_a
        rw [hchk]
      rcases phase_a_check_inl_cases K ts none s out hchk with
        ⟨hout, hne⟩ | ⟨hout, hKp, htsp⟩
      · exact absurd hK hne
      · subst hout
        constructor
        · intro lv2 met s2 h
          rw [heq] at h
          have hfst := congrArg Prod.fst h
          have hsnd := congrArg Prod.snd h
          simp at hfst
          dsimp only at hsnd
          rcases hfst with ⟨h1, h2⟩
          subst hsnd
          refine ⟨h1 ▸ trivial, ?_, ?_⟩
          · intro hmet
            rw [hmet] at h2
            cases h2
          · intro _
            exact Or.inr ⟨hvalid, hK⟩
        · intro lv2 lc2 s2 h
          rw [heq] at h
          have hfst := congrArg Prod.fst h
          simp at hfst
    · have heq : reverse_get_phase_a K ts (m + 1) s
          = reverse_get_phase_a_loop K ts m lv1 lc1 s2' := by
        unfold reverse_get_phase_a
        rw [hchk]
      rcases phase_a_check_inr_cases K ts none s lv1 lc1 s2' hchk with
        ⟨hs2, hlc1, hKp, hts1⟩
      have hgood := phase_a_check_inr_goodlv K ts none s lv1 lc1 s2' hchk trivial
      subst hs2
      have hrec := phase_a_loop_pos K ts m lv1 lc1 s.incWriteProcessed
        (by rw [(incWriteProcessed_shape s).write_entries]; exact hsort)
        ((incWriteProcessed_keeps s).w hwf)
        (by rw [incWriteProcessed_write_cursor]; exact hvalid)
        (by rw [incWriteProcessed_write_cursor, Prod.ext_iff]; exact ⟨hK, hlc1.symm⟩)
        hts1 hgood
      constructor
      · intro lv2 met s2 h
        rw [heq] at h
        exact hrec.1 lv2 met s2 h
      · intro lv2 lc2 s2 h
        rw [heq] at h
        exact hrec.2 lv2 lc2 s2 h

theorem compositeLt_false_not_lt {a b : UserKey × Ts} (h : compositeLt a b = false) :
    keyLt a.1 b.1 = false := by
  simp only [compositeLt, Bool.or_eq_false_iff] at h
  exact h.1

theorem writeInternalSeek_pos_of_lt (s : BackwardScanner) (k : UserKey × Ts)
    (hne : s.write_cursor.entries.countP (fun e => compositeLt e.1 k)
      ≠ s.write_cursor.entries.length) :
    (s.writeInternalSeek k).write_cursor.pos
      = some (s.write_cursor.entries.countP (fun e => compositeLt e.1 k)) := by
  unfold writeInternalSeek Cursor.internal_seek Cursor.rankOf
  dsimp only
  rw [if_neg hne]

/-- Safety and position analysis of phase B, entered with the cursor at or
below a version of the current user key that phase A has already checked
(index i, with commit ts at most last_checked_commit_ts), on a prefix of
entries that all carry the current user key: the walk stays on the current
user key, never fails an assert, never exhausts its fuel, and ends with the
cursor valid on the current user key. -/
theorem phase_b_spec (K : UserKey) (lc : Ts) (lv : Option Write)
    (L : List ((UserKey × Ts) × Write)) (hsort : WriteSorted L)
    (i : Nat) (hi : i < L.length)
    (hKi : (L.get ⟨i, hi⟩).1.1 = K) (hlci : (L.get ⟨i, hi⟩).1.2 ≤ lc)
    (hlv : GoodLV lv) :
    ∀ (fuel : Nat) (s : BackwardScanner) (p : Nat),
    s.write_cursor.entries = L →
    s.write_cursor.pos = some p →
    p ≤ i →
    (∀ (hp : p < L.length), (L.get ⟨p, hp⟩).1.1 = K) →
    i - p < fuel →
    ((reverse_get_phase_b K lc lv fuel s).1 ≠ .error .AssertionFailed ∧
     (reverse_get_phase_b K lc lv fuel s).1 ≠ .error .FuelExhausted) ∧
    (reverse_get_phase_b K lc lv fuel s).2.write_cursor.valid = true ∧
    (reverse_get_phase_b K lc lv fuel s).2.write_cursor.currentKey.1 = K := by
  intro fuel
  induction fuel with
  | zero =>
    intro s p _ _ _ _ hf
    exact absurd hf (by omega)
  | succ f ih =>
    intro s p hent hpos hple hpK hfuel
    have hplen : p < L.length := Nat.lt_of_le_of_lt hple hi
    have hplen' : p < s.write_cursor.entries.length := by
      rw [hent]
      exact hplen
    have hck : s.write_cursor.currentKey = (L.get ⟨p, hplen⟩).1 := by
      rw [Cursor.currentKey_eq_get s.write_cursor hpos hplen',
        ← getD_eq_get' s.write_cursor.entries default hplen', hent,
        getD_eq_get' L default hplen]
    have hkp : s.write_cursor.currentKey.1 = K := by
      rw [hck]
      exact hpK hplen
    have hstep : reverse_get_phase_b K lc lv (f + 1) s
        = (if s.write_cursor.currentKey.1 ≠ K then (.error .AssertionFailed, s)
           else if s.write_cursor.currentKey.2 ≤ lc then s.handle_last_version lv K
           else match s.write_cursor.currentValue.write_type with
             | .Put =>
               let r := s.incWriteProcessed.reverse_load_data_by_write
                 s.write_cursor.currentValue K
               (r.1.map some, r.2)
             | .Delete => (.ok none, s.incWriteProcessed)
             | .Lock =>
               if (!s.incWriteProcessed.writeNext.write_cursor.valid) = true
               then (.error .AssertionFailed, s.incWriteProcessed.writeNext)
               else reverse_get_phase_b K lc lv f s.incWriteProcessed.writeNext
             | .Rollback =>
               if (!s.incWriteProcessed.writeNext.write_cursor.valid) = true
               then (.error .AssertionFailed, s.incWriteProcessed.writeNext)
               else reverse_get_phase_b K lc lv f s.incWriteProcessed.writeNext) := rfl
    rw [hstep, if_neg (fun hc => hc hkp)]
    by_cases hts2 : s.write_cursor.currentKey.2 ≤ lc
    · rw [if_pos hts2]
      have hna := handle_last_version_no_assert s lv K hlv
      have hcur := (handle_last_version_cursors s lv K).1
      refine ⟨hna, ?_, ?_⟩
      · rw [hcur]
        simp [Cursor.valid, hpos]
      · rw [hcur]
        exact hkp
    · rw [if_neg hts2]
      have hpi : p < i := by
        rcases Nat.lt_or_ge p i with h | h
        · exact h
        · exfalso
          have hpe : p = i := Nat.le_antisymm hple h
          subst hpe
          exact hts2 (by rw [hck]; exact hlci)
      rcases hwt : s.write_cursor.currentValue.write_type
      · dsimp only
        have hr := reverse_load_result s.incWriteProcessed s.write_cursor.currentValue K
        have hcur := (reverse_load_data_by_write_cursors s.incWriteProcessed
          s.write_cursor.currentValue K).1
        refine ⟨⟨except_map_ne_error some _ _ hr.1, except_map_ne_error some _ _ hr.2⟩,
          ?_, ?_⟩
        · rw [hcur, incWriteProcessed_write_cursor]
          simp [Cursor.valid, hpos]
        · rw [hcur, incWriteProcessed_write_cursor]
          exact hkp
      · dsimp only
        refine ⟨⟨by simp, by simp⟩, ?_, ?_⟩
        · rw [incWriteProcessed_write_cursor]
          simp [Cursor.valid, hpos]
        · rw [incWriteProcessed_write_cursor]
          exact hkp
      · dsimp only
        have hq1len : p + 1 < s.write_cursor.entries.length := by
          rw [hent]
          omega
        have hnext : s.incWriteProcessed.writeNext.write_cursor.pos = some (p + 1) :=
          writeNext_pos_succ s.incWriteProcessed p hpos hq1len
        have hv2 : s.incWriteProcessed.writeNext.write_cursor.valid = true := by
          simp [Cursor.valid, hnext]
        rw [if_neg (by simp [hv2])]
        have hpK1 : ∀ (hp : p + 1 < L.length), (L.get ⟨p + 1, hp⟩).1.1 = K := by
          intro hp
          rcases Nat.lt_or_ge (p + 1) i with hlt2 | hge2
          · have hup : compositeLt (L.get ⟨p, hplen⟩).1 (L.get ⟨p + 1, hp⟩).1 = true :=
              List.pairwise_iff_get.1 hsort.pairwise_write ⟨p, hplen⟩ ⟨p + 1, hp⟩
                (Nat.lt_succ_self p)
            have hdown : compositeLt (L.get ⟨p + 1, hp⟩).1 (L.get ⟨i, hi⟩).1 = true :=
              List.pairwise_iff_get.1 hsort.pairwise_write ⟨p + 1, hp⟩ ⟨i, hi⟩ hlt2
            have h1 := compositeLt_userKey_not_lt hup
            have h2 := compositeLt_userKey_not_lt hdown
            rw [hpK hplen] at h1
            rw [hKi] at h2
            exact keyLt_antisymm h1 h2
          · have hpe : p + 1 = i := Nat.le_antisymm (by omega) hge2
            subst hpe
            exact hKi
        have hent1 : s.incWriteProcessed.writeNext.write_cursor.entries = L := by
          rw [(writeNext_shape s.incWriteProcessed).write_entries,
            (incWriteProcessed_shape s).write_entries, hent]
        exact ih s.incWriteProcessed.writeNext (p + 1) hent1 hnext (by omega) hpK1 (by omega)
      · dsimp only
        have hq1len : p + 1 < s.write_cursor.entries.length := by
          rw [hent]
          omega
        have hnext : s.incWriteProcessed.writeNext.write_cursor.pos = some (p + 1) :=
          writeNext_pos_succ s.incWriteProcessed p hpos hq1len
        have hv2 : s.incWriteProcessed.writeNext.write_cursor.valid = true := by
          simp [Cursor.valid, hnext]
        rw [if_neg (by simp [hv2])]
        have hpK1 : ∀ (hp : p + 1 < L.length), (L.get ⟨p + 1, hp⟩).1.1 = K := by
          intro hp
          rcases Nat.lt_or_ge (p + 1) i with hlt2 | hge2
          · have hup : compositeLt (L.get ⟨p, hplen⟩).1 (L.get ⟨p + 1, hp⟩).1 = true :=
              List.pairwise_iff_get.1 hsort.pairwise_write ⟨p, hplen⟩ ⟨p + 1, hp⟩
                (Nat.lt_succ_self p)
            have hdown : compositeLt (L.get ⟨p + 1, hp⟩).1 (L.get ⟨i, hi⟩).1 = true :=
              List.pairwise_iff_get.1 hsort.pairwise_write ⟨p + 1, hp⟩ ⟨i, hi⟩ hlt2
            have h1 := compositeLt_userKey_not_lt hup
            have h2 := compositeLt_userKey_not_lt hdown
            rw [hpK hplen] at h1
            rw [hKi] at h2
            exact keyLt_antisymm h1 h2
          · have hpe : p + 1 = i := Nat.le_antisymm (by omega) hge2
            subst hpe
            exact hKi
        have hent1 : s.incWriteProcessed.writeNext.write_cursor.entries = L := by
          rw [(writeNext_shape s.incWriteProcessed).write_entries,
            (incWriteProcessed_shape s).write_entries, hent]
        exact ih s.incWriteProcessed.writeNext (p + 1) hent1 hnext (by omega) hpK1 (by omega)

/-- The seek fallback branch of reverse_get: phase A fell through with
last_checked_commit_ts strictly below ts while the cursor stands on a version
of the current user key.  The call reports no met_prev_user_key, no assert of
phase B fires, the fuel suffices, and the write cursor ends valid on the
current user key. -/
theorem reverse_get_cont_core (s : BackwardScanner) (rsb : Nat) (K : UserKey) (ts : Ts)
    (lv : Option Write) (lc : Ts) (s1 : BackwardScanner)
    (hvalid : s.write_cursor.valid = true)
    (hpa : reverse_get_phase_a K ts rsb s = (.Cont lv lc, s1))
    (hlceq : ¬ lc = ts) (hnts : ¬ ts < lc)
    (hgood : GoodLV lv) (hvalid1 : s1.write_cursor.valid = true)
    (hKlc : s1.write_cursor.currentKey = (K, lc))
    (hsort : WriteSorted s.write_cursor.entries) (hwf : s.write_cursor.WFpos) :
    (s.reverse_get rsb K ts).2.1 = false ∧
    (s.reverse_get rsb K ts).1 ≠ .error .AssertionFailed ∧
    (s.reverse_get rsb K ts).1 ≠ .error .FuelExhausted ∧
    (s.reverse_get rsb K ts).2.2.write_cursor.valid = true ∧
    (s.reverse_get rsb K ts).2.2.write_cursor.currentKey.1 = K := by
  have hlt : lc < ts :=
    Nat.lt_of_le_of_ne (Nat.le_of_not_lt hnts) hlceq
  have hsh1 : SameShape s s1 := by
    have h0 := reverse_get_phase_a_shape K ts rsb s
    rw [hpa] at h0
    exact h0
  have hsort1 : WriteSorted s1.write_cursor.entries := by
    rw [hsh1.write_entries]
    exact hsort
  have hwf1 : s1.write_cursor.WFpos := by
    have h0 := reverse_get_phase_a_keeps K ts rsb s
    rw [hpa] at h0
    exact h0.w hwf
  obtain ⟨ip, hip⟩ := (Cursor.valid_iff_pos_some _).1 hvalid1
  have hiplen : ip < s1.write_cursor.entries.length := hwf1 ip hip
  have hgeti : (s1.write_cursor.entries.get ⟨ip, hiplen⟩).1 = (K, lc) := by
    rw [← Cursor.currentKey_eq_get s1.write_cursor hip hiplen]
    exact hKlc
  have hdc : ∀ a b : (UserKey × Ts) × Write, compositeLt a.1 b.1 = true →
      compositeLt b.1 (K, ts) = true → compositeLt a.1 (K, ts) = true :=
    fun a b h1 h2 => compositeLt_trans h1 h2
  have hageti : compositeLt (s1.write_cursor.entries.get ⟨ip, hiplen⟩).1 (K, ts)
      = false := by
    rw [hgeti]
    show (keyLt K K || (K == K && decide (ts < lc))) = false
    rw [keyLt_irrefl, decide_eq_false (Nat.lt_asymm hlt), Bool.false_or,
      Bool.and_false]
  have hrankle : s1.write_cursor.entries.countP (fun e => compositeLt e.1 (K, ts))
      ≤ ip := by
    by_contra hcon
    push_neg at hcon
    have h0 := (sorted_get_iff_lt_countP
      (R := fun a b => compositeLt a.1 b.1 = true)
      (p := fun e => compositeLt e.1 (K, ts)) hdc s1.write_cursor.entries
      hsort1.pairwise_write ip hiplen).2 hcon
    rw [h0] at hageti
    cases hageti
  have hranklen : s1.write_cursor.entries.countP (fun e => compositeLt e.1 (K, ts))
      < s1.write_cursor.entries.length := Nat.lt_of_le_of_lt hrankle hiplen
  have hspos := writeInternalSeek_pos_of_lt s1 (K, ts) (by omega)
  have hrklen : s1.write_cursor.entries.countP (fun e => compositeLt e.1 (K, ts))
      < s1.write_cursor.entries.length := hranklen
  have hkeyrk : (s1.write_cursor.entries.get
      ⟨s1.write_cursor.entries.countP (fun e => compositeLt e.1 (K, ts)), hrklen⟩).1.1
      = K := by
    have hnotlt : compositeLt (s1.write_cursor.entries.get
        ⟨s1.write_cursor.entries.countP (fun e => compositeLt e.1 (K, ts)),
          hrklen⟩).1 (K, ts) = false := by
      rcases hb : compositeLt (s1.write_cursor.entries.get
          ⟨s1.write_cursor.entries.countP (fun e => compositeLt e.1 (K, ts)),
            hrklen⟩).1 (K, ts)
      · exact hb
      · have h0 := (sorted_get_iff_lt_countP
          (R := fun a b => compositeLt a.1 b.1 = true)
          (p := fun e => compositeLt e.1 (K, ts)) hdc s1.write_cursor.entries
          hsort1.pairwise_write _ hrklen).1 hb
        exact absurd h0 (Nat.lt_irrefl _)
    have h1 : keyLt (s1.write_cursor.entries.get
        ⟨s1.write_cursor.entries.countP (fun e => compositeLt e.1 (K, ts)),
          hrklen⟩).1.1 K = false := compositeLt_false_not_lt hnotlt
    have h2 : keyLt K (s1.write_cursor.entries.get
        ⟨s1.write_cursor.entries.countP (fun e => compositeLt e.1 (K, ts)),
          hrklen⟩).1.1 = false := by
      rcases Nat.lt_or_ge
        (s1.write_cursor.entries.countP (fun e => compositeLt e.1 (K, ts))) ip with
        hlt2 | hge2
      · have hcomp := List.pairwise_iff_get.1 hsort1.pairwise_write
          ⟨s1.write_cursor.entries.countP (fun e => compositeLt e.1 (K, ts)), hrklen⟩
          ⟨ip, hiplen⟩ hlt2
        have h0 := compositeLt_userKey_not_lt hcomp
        rw [hgeti] at h0
        exact h0
      · have hpe : s1.write_cursor.entries.countP (fun e => compositeLt e.1 (K, ts))
            = ip := Nat.le_antisymm hrankle hge2
        have hg2 : (s1.write_cursor.entries.get
            ⟨s1.write_cursor.entries.countP (fun e => compositeLt e.1 (K, ts)),
              hrklen⟩).1 = (K, lc) := by
          have hfin : (⟨s1.write_cursor.entries.countP
              (fun e => compositeLt e.1 (K, ts)), hrklen⟩
              : Fin s1.write_cursor.entries.length) = ⟨ip, hiplen⟩ :=
            Fin.mk_eq_mk.mpr hpe
          rw [hfin]
          exact hgeti
        rw [hg2]
        exact keyLt_irrefl K
    exact keyLt_antisymm h1 h2
  have hvalid2 : (s1.writeInternalSeek (K, ts)).write_cursor.valid = true := by
    simp [Cursor.valid, hspos]
  have hent2 : (s1.writeInternalSeek (K, ts)).write_cursor.entries
      = s1.write_cursor.entries := (writeInternalSeek_shape s1 (K, ts)).write_entries
  have hlen2 : (s1.writeInternalSeek (K, ts)).write_cursor.entries.length
      = s1.write_cursor.entries.length := by rw [hent2]
  have hBr := phase_b_spec K lc lv s1.write_cursor.entries hsort1 ip hiplen
    (by rw [hgeti]) (by rw [hgeti]) hgood
    ((s1.writeInternalSeek (K, ts)).write_cursor.entries.length + 1)
    (s1.writeInternalSeek (K, ts))
    (s1.write_cursor.entries.countP (fun e => compositeLt e.1 (K, ts)))
    hent2 hspos hrankle (fun _ => hkeyrk) (by omega)
  have heq : s.reverse_get rsb K ts
      = ((reverse_get_phase_b K lc lv
          ((s1.writeInternalSeek (K, ts)).write_cursor.entries.length + 1)
          (s1.writeInternalSeek (K, ts))).1, false,
         (reverse_get_phase_b K lc lv
          ((s1.writeInternalSeek (K, ts)).write_cursor.entries.length + 1)
          (s1.writeInternalSeek (K, ts))).2) := by
    unfold reverse_get
    rw [if_neg (by simp [hvalid]), hpa]
    dsimp only
    rw [if_neg hlceq, if_pos hlt, if_neg (by simp [hvalid2])]
  rw [heq]
  exact ⟨rfl, hBr.1.1, hBr.1.2, hBr.2.1, hBr.2.2⟩


/-- Position and safety analysis of reverse_get, called on a valid write
cursor standing on the current user key with a positive phase A budget: when
it reports met_prev_user_key the cursor ends valid strictly below the current
user key; when it does not, the cursor ends invalid or at most at the current
user key; and no assert of the source can fire, nor can the modelled fuel run
out. -/
theorem reverse_get_pos (s : BackwardScanner) (rsb : Nat) (K : UserKey) (ts : Ts)
    (hrsb : 1 ≤ rsb) (hsort : WriteSorted s.write_cursor.entries)
    (hwf : s.write_cursor.WFpos) (hvalid : s.write_cursor.valid = true)
    (hK : s.write_cursor.currentKey.1 = K) :
    ((s.reverse_get rsb K ts).2.1 = true →
      (s.reverse_get rsb K ts).2.2.write_cursor.valid = true ∧
      keyLt (s.reverse_get rsb K ts).2.2.write_cursor.currentKey.1 K = true) ∧
    ((s.reverse_get rsb K ts).2.1 = false →
      (s.reverse_get rsb K ts).2.2.write_cursor.valid = true →
        keyLt K (s.reverse_get rsb K ts).2.2.write_cursor.currentKey.1 = false) ∧
    (s.reverse_get rsb K ts).1 ≠ .error .AssertionFailed ∧
    (s.reverse_get rsb K ts).1 ≠ .error .FuelExhausted := by
  have hA := phase_a_pos K ts rsb s hrsb hsort hwf hvalid hK
  rcases hpa : reverse_get_phase_a K ts rsb s with ⟨res, s1⟩
  rcases res with ⟨lv, met⟩ | ⟨lv, lc⟩
  · have hr := hA.1 lv met s1 hpa
    have heq : s.reverse_get rsb K ts
        = ((s1.handle_last_version lv K).1, met, (s1.handle_last_version lv K).2) := by
      unfold reverse_get
      rw [if_neg (by simp [hvalid]), hpa]
    rw [heq]
    have hcur := (handle_last_version_cursors s1 lv K).1
    have hna := handle_last_version_no_assert s1 lv K hr.1
    refine ⟨?_, ?_, hna.1, hna.2⟩
    · intro hmet
      have h2 := hr.2.1 hmet
      dsimp only
      rw [hcur]
      exact h2
    · intro hmet hv
      have h2 := hr.2.2 hmet
      dsimp only at hv ⊢
      rw [hcur] at hv ⊢
      rcases h2 with h2 | ⟨_, hkeq⟩
      · rw [h2] at hv
        cases hv
      · rw [hkeq]
        exact keyLt_irrefl K
  · have hc := hA.2 lv lc s1 hpa
    by_cases hlceq : lc = ts
    · have heq : s.reverse_get rsb K ts
          = ((s1.handle_last_version lv K).1, false, (s1.handle_last_version lv K).2) := by
        unfold reverse_get
        rw [if_neg (by simp [hvalid]), hpa]
        dsimp only
        rw [if_pos hlceq]
      rw [heq]
      have hcur := (handle_last_version_cursors s1 lv K).1
      have hna := handle_last_version_no_assert s1 lv K hc.1
      refine ⟨?_, ?_, hna.1, hna.2⟩
      · intro hmet
        dsimp only at hmet
        cases hmet
      · intro _ hv
        dsimp only at hv ⊢
        rw [hcur] at hv ⊢
        have hkk : s1.write_cursor.currentKey.1 = K := by rw [hc.2.2.1]
        rw [hkk]
        exact keyLt_irrefl K
    · have hcore := reverse_get_cont_core s rsb K ts lv lc s1 hvalid hpa hlceq
        hc.2.2.2 hc.1 hc.2.1 hc.2.2.1 hsort hwf
      refine ⟨?_, ?_, hcore.2.1, hcore.2.2.1⟩
      · intro hmet
        rw [hcore.1] at hmet
        cases hmet
      · intro _ _
        rw [hcore.2.2.2.2]
        exact keyLt_irrefl K

/-- C6: under the precondition of reverse_get (the write cursor is valid on a
version of user_key, over a sorted write CF with a well formed position and a
positive phase A budget) and given that phase A ended with
last_checked_commit_ts strictly below ts while still on user_key, none of the
assert! calls of phase B can fail: the call never returns the error that
models them (and never exhausts the modelled recursion fuel), and the write
cursor ends valid with its user key prefix equal to user_key, reflecting that
the seek landing and every next taken over a Lock or Rollback record stay
valid on user_key. -/
theorem phase_b_assert_safety (s : BackwardScanner) (rsb : Nat) (K : UserKey) (ts : Ts)
    (lv : Option Write) (lc : Ts) (s1 : BackwardScanner)
    (hrsb : 1 ≤ rsb)
    (hsort : WriteSorted s.write_cursor.entries) (hwf : s.write_cursor.WFpos)
    (hvalid : s.write_cursor.valid = true) (hK : s.write_cursor.currentKey.1 = K)
    (hA : reverse_get_phase_a K ts rsb s = (.Cont lv lc, s1)) (hlt : lc < ts) :
    (s.reverse_get rsb K ts).1 ≠ .error .AssertionFailed ∧
    (s.reverse_get rsb K ts).1 ≠ .error .FuelExhausted ∧
    (s.reverse_get rsb K ts).2.2.write_cursor.valid = true ∧
    (s.reverse_get rsb K ts).2.2.write_cursor.currentKey.1 = K := by
  have hc := (phase_a_pos K ts rsb s hrsb hsort hwf hvalid hK).2 lv lc s1 hA
  have hcore := reverse_get_cont_core s rsb K ts lv lc s1 hvalid hA
    (Nat.ne_of_lt hlt) hc.2.2.2 hc.1 hc.2.1 hc.2.2.1 hsort hwf
  exact hcore.2

/-- Closed instance of the C6 theorem: on the one entry store, reverse_get of
user key five at read timestamp 9 (whose phase A falls through carrying
last_checked_commit_ts 2) does not fail its asserts. -/
theorem phase_b_assert_safety_witness :
    (WriteSorted c6Scanner.write_cursor.entries ∧
     reverse_get_phase_a [5] 9 1 c6Scanner
       = (.Cont (some ⟨.Put, 2, some [7]⟩) 2, c6Scanner.incWriteProcessed)) ∧
    (c6Scanner.reverse_get 1 [5] 9).1 ≠ .error .AssertionFailed := by
  have hsort : WriteSorted c6Scanner.write_cursor.entries := by
    unfold WriteSorted
    exact List.pairwise_singleton _ _
  have hwf : c6Scanner.write_cursor.WFpos := by
    intro p hp
    cases hp
    decide
  have hA : reverse_get_phase_a [5] 9 1 c6Scanner
      = (.Cont (some ⟨.Put, 2, some [7]⟩) 2, c6Scanner.incWriteProcessed) := rfl
  exact ⟨⟨hsort, hA⟩,
    (phase_b_assert_safety c6Scanner 1 [5] 9 (some ⟨.Put, 2, some [7]⟩) 2
      c6Scanner.incWriteProcessed (by decide) hsort hwf rfl rfl hA (by decide)).1⟩

@[simp] theorem writePrev_lock_cursor (s : BackwardScanner) :
    s.writePrev.lock_cursor = s.lock_cursor := rfl

@[simp] theorem writeNext_lock_cursor (s : BackwardScanner) :
    s.writeNext.lock_cursor = s.lock_cursor := rfl

@[simp] theorem writeInternalSeek_lock_cursor (s : BackwardScanner) (k : UserKey × Ts) :
    (s.writeInternalSeek k).lock_cursor = s.lock_cursor := rfl

@[simp] theorem writeInternalSeekForPrev_lock_cursor (s : BackwardScanner) (k : UserKey) :
    (s.writeInternalSeekForPrev k).lock_cursor = s.lock_cursor := rfl

@[simp] theorem lockPrev_write_cursor (s : BackwardScanner) :
    s.lockPrev.write_cursor = s.write_cursor := rfl

@[simp] theorem lockPrev_write_stats (s : BackwardScanner) :
    s.lockPrev.statistics.write = s.statistics.write := rfl

theorem writePrev_processed (s : BackwardScanner) :
    s.writePrev.statistics.write.processed = s.statistics.write.processed := by
  unfold writePrev Cursor.prev
  rcases s.write_cursor.pos with _ | (_ | p) <;> rfl

/-- The write CF steps leave the lock cursor untouched, phase A loop form. -/
theorem reverse_get_phase_a_loop_lock (user_key : UserKey) (ts : Ts) (n : Nat) :
    ∀ (lv : Option Write) (lc : Ts) (s : BackwardScanner),
    (reverse_get_phase_a_loop user_key ts n lv lc s).2.lock_cursor = s.lock_cursor := by
  induction n with
  | zero =>
    intro lv lc s
    rfl
  | succ m ih =>
    intro lv lc s
    unfold reverse_get_phase_a_loop
    dsimp only
    split
    · rfl
    · split
      · rename_i out heq
        rcases phase_a_check_inl_cases _ _ _ _ _ heq with ⟨ho, _⟩ | ⟨ho, _, _⟩ <;>
          rw [ho] <;> rfl
      · rename_i lv1 lc1 s2 heq
        rw [ih lv1 lc1 s2]
        rcases phase_a_check_inr_cases _ _ _ _ _ _ _ heq with ⟨hs2, _, _, _⟩
        rw [hs2]
        rfl

theorem reverse_get_phase_a_lock (user_key : UserKey) (ts : Ts) (rsb : Nat)
    (s : BackwardScanner) :
    (reverse_get_phase_a user_key ts rsb s).2.lock_cursor = s.lock_cursor := by
  unfold reverse_get_phase_a
  rcases rsb with _ | n
  · rfl
  · dsimp only
    split
    · rename_i out heq
      rcases phase_a_check_inl_cases _ _ _ _ _ heq with ⟨ho, _⟩ | ⟨ho, _, _⟩ <;>
        rw [ho]
    · rename_i lv1 lc1 s2 heq
      rw [reverse_get_phase_a_loop_lock user_key ts n lv1 lc1 s2]
      rcases phase_a_check_inr_cases _ _ _ _ _ _ _ heq with ⟨hs2, _, _, _⟩
      rw [hs2]
      rfl

theorem reverse_get_phase_b_lock (user_key : UserKey) (lc : Ts) (lv : Option Write)
    (fuel : Nat) : ∀ (s : BackwardScanner),
    (reverse_get_phase_b user_key lc lv fuel s).2.lock_cursor = s.lock_cursor := by
  induction fuel with
  | zero =>
    intro s
    rfl
  | succ n ih =>
    intro s
    unfold reverse_get_phase_b
    dsimp only
    split
    · rfl
    · split
      · exact (handle_last_version_cursors ..).2
      · split
        · exact (reverse_load_data_by_write_cursors ..).2
        · rfl
        · split
          · rfl
          · rw [ih]
            rfl
        · split
          · rfl
          · rw [ih]
            rfl

theorem reverse_get_lock (s : BackwardScanner) (rsb : Nat) (user_key : UserKey) (ts : Ts) :
    (s.reverse_get rsb user_key ts).2.2.lock_cursor = s.lock_cursor := by
  unfold reverse_get
  split
  · rfl
  · split
    · rename_i lv met s1 heq
      have h1 : s1.lock_cursor = s.lock_cursor := by
        have h0 := reverse_get_phase_a_lock user_key ts rsb s
        rw [heq] at h0
        exact h0
      dsimp only
      rw [(handle_last_version_cursors ..).2, h1]
    · rename_i lv lc s1 heq
      have h1 : s1.lock_cursor = s.lock_cursor := by
        have h0 := reverse_get_phase_a_lock user_key ts rsb s
        rw [heq] at h0
        exact h0
      dsimp only
      split
      · rw [(handle_last_version_cursors ..).2, h1]
      · split
        · split
          · rw [writeInternalSeek_lock_cursor, h1]
          · rw [reverse_get_phase_b_lock, writeInternalSeek_lock_cursor, h1]
        · rw [h1]

theorem move_write_cursor_loop_misc (K : UserKey) (n : Nat) : ∀ (s : BackwardScanner),
    (move_write_cursor_loop K n s).statistics.write.processed
      = s.statistics.write.processed ∧
    (move_write_cursor_loop K n s).lock_cursor = s.lock_cursor := by
  induction n with
  | zero =>
    intro s
    unfold move_write_cursor_loop writeInternalSeekForPrev Cursor.internal_seek_for_prev
    dsimp only
    split <;> exact ⟨rfl, rfl⟩
  | succ m ih =>
    intro s
    unfold move_write_cursor_loop
    dsimp only
    split
    · exact ⟨writePrev_processed s, rfl⟩
    · split
      · exact ⟨writePrev_processed s, rfl⟩
      · rcases ih s.writePrev with ⟨h1, h2⟩
        rw [h1, h2]
        exact ⟨writePrev_processed s, rfl⟩

theorem move_write_cursor_misc (K : UserKey) (sb : Nat) (s : BackwardScanner) :
    (move_write_cursor_to_prev_user_key K sb s).statistics.write.processed
      = s.statistics.write.processed ∧
    (move_write_cursor_to_prev_user_key K sb s).lock_cursor = s.lock_cursor := by
  unfold move_write_cursor_to_prev_user_key
  rcases sb with _ | n
  · unfold writeInternalSeekForPrev Cursor.internal_seek_for_prev
    dsimp only
    split <;> exact ⟨rfl, rfl⟩
  · dsimp only
    split
    · exact ⟨rfl, rfl⟩
    · split
      · exact ⟨rfl, rfl⟩
      · exact move_write_cursor_loop_misc K n s

/-- What the current user key determination says about each cursor: the flags
report which cursors stand exactly on the current user key, and a cursor not
taking part is invalid or strictly below it; at least one cursor takes
part. -/
theorem currentKeyInfo_facts (s : BackwardScanner) (cur : UserKey) (hw hl : Bool)
    (h : s.currentKeyInfo = some (cur, hw, hl)) :
    (hw = true ∨ hl = true) ∧
    (hw = true → s.write_cursor.valid = true ∧ s.write_cursor.currentKey.1 = cur) ∧
    (hw = false → s.write_cursor.valid = false ∨
      (s.write_cursor.valid = true ∧ keyLt s.write_cursor.currentKey.1 cur = true)) ∧
    (hl = true → s.lock_cursor.valid = true ∧ s.lock_cursor.currentKey = cur) ∧
    (hl = false → s.lock_cursor.valid = false ∨
      (s.lock_cursor.valid = true ∧ keyLt s.lock_cursor.currentKey cur = true)) := by
  unfold currentKeyInfo at h
  rcases hwv : s.write_cursor.valid <;> rcases hlv : s.lock_cursor.valid <;>
    simp only [hwv, hlv, if_true, if_false, Bool.false_eq_true, Bool.true_eq_false] at h
  · cases h
  · cases h
    refine ⟨Or.inr rfl, ?_, ?_, ?_, ?_⟩
    · intro hcon
      cases hcon
    · intro _
      exact Or.inl rfl
    · intro _
      exact ⟨rfl, rfl⟩
    · intro hcon
      cases hcon
  · cases h
    refine ⟨Or.inl rfl, ?_, ?_, ?_, ?_⟩
    · intro _
      exact ⟨rfl, rfl⟩
    · intro hcon
      cases hcon
    · intro hcon
      cases hcon
    · intro _
      exact Or.inl rfl
  · rcases hcmp : compareKeys s.write_cursor.currentKey.1 s.lock_cursor.currentKey with
      _ | _ | _ <;> rw [hcmp] at h <;> cases h
    · refine ⟨Or.inr rfl, ?_, ?_, ?_, ?_⟩
      · intro hcon
        cases hcon
      · intro _
        exact Or.inr ⟨rfl, compareKeys_lt hcmp⟩
      · intro _
        exact ⟨rfl, rfl⟩
      · intro hcon
        cases hcon
    · refine ⟨Or.inl rfl, ?_, ?_, ?_, ?_⟩
      · intro _
        exact ⟨rfl, rfl⟩
      · intro hcon
        cases hcon
      · intro _
        exact ⟨rfl, (compareKeys_eq hcmp).symm⟩
      · intro hcon
        cases hcon
    · refine ⟨Or.inl rfl, ?_, ?_, ?_, ?_⟩
      · intro _
        exact ⟨rfl, rfl⟩
      · intro hcon
        cases hcon
      · intro hcon
        cases hcon
      · intro _
        exact Or.inr ⟨rfl, (compareKeys_gt hcmp).1⟩

@[simp] theorem lockStep_true_state (cl : LockRecord → Ts → CheckLockResult)
    (s : BackwardScanner) : (lockStep cl s true).2.2 = s.lockPrev := rfl

@[simp] theorem lockStep_false_state (cl : LockRecord → Ts → CheckLockResult)
    (s : BackwardScanner) : (lockStep cl s false).2.2 = s := rfl

/-- Under SI, a Locked answer from the external lock check makes the lock
handling of the iteration produce exactly the KeyIsLocked error, with the get
timestamp unchanged. -/
theorem lockStep_locked_result (cl : LockRecord → Ts → CheckLockResult)
    (s : BackwardScanner) (e : Nat)
    (hiso : s.isolation_level = .SI)
    (hlock : cl s.lock_cursor.currentValue s.ts = .Locked e) :
    (lockStep cl s true).1 = .error (.KeyIsLocked e) ∧
    (lockStep cl s true).2.1 = s.ts := by
  unfold lockStep
  rw [if_pos rfl, hiso]
  dsimp only
  rw [hlock]
  exact ⟨rfl, rfl⟩

/-- The lock cursor after the lock handling of an iteration whose current
user key is cur: invalid or strictly below cur. -/
theorem lockStep_below (cl : LockRecord → Ts → CheckLockResult) (s : BackwardScanner)
    (cur : UserKey) (hl : Bool)
    (hlsort : LockSorted s.lock_cursor.entries) (hlwf : s.lock_cursor.WFpos)
    (hft : hl = true → s.lock_cursor.valid = true ∧ s.lock_cursor.currentKey = cur)
    (hff : hl = false → s.lock_cursor.valid = false ∨
      (s.lock_cursor.valid = true ∧ keyLt s.lock_cursor.currentKey cur = true)) :
    (lockStep cl s hl).2.2.lock_cursor.valid = false ∨
    ((lockStep cl s hl).2.2.lock_cursor.valid = true ∧
      keyLt (lockStep cl s hl).2.2.lock_cursor.currentKey cur = true) := by
  rcases hl with _ | _
  · rw [lockStep_false_state]
    exact hff rfl
  · rw [lockStep_true_state]
    rcases hft rfl with ⟨hv, hk⟩
    rcases lockPrev_below s hlsort hlwf hv with h | ⟨h1, h2⟩
    · exact Or.inl h
    · rw [hk] at h2
      exact Or.inr ⟨h1, h2⟩

/-- The write cursor after the write handling of an iteration whose current
user key is cur: invalid or strictly below cur, whatever the lock handling
produced. -/
theorem writeStep_below (rsb sb : Nat) (s : BackwardScanner)
    (result1 : Except ScanError (Option Value)) (gts : Ts) (cur : UserKey) (hw : Bool)
    (hrsb : 1 ≤ rsb)
    (hsort : WriteSorted s.write_cursor.entries) (hwf : s.write_cursor.WFpos)
    (hft : hw = true → s.write_cursor.valid = true ∧ s.write_cursor.currentKey.1 = cur)
    (hff : hw = false → s.write_cursor.valid = false ∨
      (s.write_cursor.valid = true ∧ keyLt s.write_cursor.currentKey.1 cur = true)) :
    (writeStep rsb sb s result1 gts cur hw).2.write_cursor.valid = false ∨
    ((writeStep rsb sb s result1 gts cur hw).2.write_cursor.valid = true ∧
      keyLt (writeStep rsb sb s result1 gts cur hw).2.write_cursor.currentKey.1 cur
        = true) := by
  rcases hw with _ | _
  · have heq : (writeStep rsb sb s result1 gts cur false) = (result1, s) := rfl
    rw [heq]
    exact hff rfl
  · rcases hft rfl with ⟨hv, hk⟩
    rcases result1 with e | v0
    · have heq : (writeStep rsb sb s (.error e) gts cur true)
          = (.error e, s.move_write_cursor_to_prev_user_key cur sb) := rfl
      rw [heq]
      have hmv := move_write_cursor_to_prev_user_key_spec cur sb s hsort hwf
        (fun _ => by rw [hk]; exact keyLt_irrefl cur)
      rcases hb : (s.move_write_cursor_to_prev_user_key cur sb).write_cursor.valid
      · exact Or.inl rfl
      · exact Or.inr ⟨rfl, hmv.2.2.2.2.2 hb⟩
    · have heq : (writeStep rsb sb s (.ok v0) gts cur true)
          = (if !(s.reverse_get rsb cur gts).2.1
             then ((s.reverse_get rsb cur gts).1,
               ((s.reverse_get rsb cur gts).2.2).move_write_cursor_to_prev_user_key cur sb)
             else ((s.reverse_get rsb cur gts).1, (s.reverse_get rsb cur gts).2.2)) := rfl
      have hrg := reverse_get_pos s rsb cur gts hrsb hsort hwf hv hk
      rw [heq]
      rcases hmet : (s.reverse_get rsb cur gts).2.1
      · rw [if_pos (by simp [hmet])]
        have hsh := reverse_get_shape s rsb cur gts
        have hkp := reverse_get_keeps s rsb cur gts
        have hsort2 : WriteSorted (s.reverse_get rsb cur gts).2.2.write_cursor.entries :=
          by
          rw [hsh.write_entries]
          exact hsort
        have hmv := move_write_cursor_to_prev_user_key_spec cur sb
          (s.reverse_get rsb cur gts).2.2 hsort2 (hkp.w hwf) (hrg.2.1 hmet)
        rcases hb : ((s.reverse_get rsb cur gts).2.2.move_write_cursor_to_prev_user_key
            cur sb).write_cursor.valid
        · exact Or.inl rfl
        · exact Or.inr ⟨rfl, hmv.2.2.2.2.2 hb⟩
      · rw [if_neg (by simp [hmet])]
        rcases hrg.1 hmet with ⟨h1, h2⟩
        exact Or.inr ⟨h1, h2⟩

theorem lockStep_write_cursor (cl : LockRecord → Ts → CheckLockResult)
    (s : BackwardScanner) (hl : Bool) :
    (lockStep cl s hl).2.2.write_cursor = s.write_cursor := by
  rcases hl with _ | _ <;> rfl

theorem writeStep_lock_cursor (rsb sb : Nat) (s : BackwardScanner)
    (result1 : Except ScanError (Option Value)) (gts : Ts) (cur : UserKey) (hw : Bool) :
    (writeStep rsb sb s result1 gts cur hw).2.lock_cursor = s.lock_cursor := by
  rcases hw with _ | _
  · rfl
  · rcases result1 with e | v0
    · have heq : (writeStep rsb sb s (.error e) gts cur true)
          = (.error e, s.move_write_cursor_to_prev_user_key cur sb) := rfl
      rw [heq]
      exact (move_write_cursor_misc cur sb s).2
    · have heq : (writeStep rsb sb s (.ok v0) gts cur true)
          = (if !(s.reverse_get rsb cur gts).2.1
             then ((s.reverse_get rsb cur gts).1,
               ((s.reverse_get rsb cur gts).2.2).move_write_cursor_to_prev_user_key cur sb)
             else ((s.reverse_get rsb cur gts).1, (s.reverse_get rsb cur gts).2.2)) := rfl
      rw [heq]
      split
      · dsimp only
        rw [(move_write_cursor_misc cur sb (s.reverse_get rsb cur gts).2.2).2]
        exact reverse_get_lock s rsb cur gts
      · exact reverse_get_lock s rsb cur gts

/-- After one full iteration of the main loop on current user key cur, both
cursors are invalid or strictly below cur. -/
theorem iteration_below (rsb sb : Nat) (cl : LockRecord → Ts → CheckLockResult)
    (hrsb : 1 ≤ rsb) (s : BackwardScanner) (cur : UserKey) (has_write has_lock : Bool)
    (hsw : WriteSorted s.write_cursor.entries) (hsl : LockSorted s.lock_cursor.entries)
    (hww : s.write_cursor.WFpos) (hwl : s.lock_cursor.WFpos)
    (heq : s.currentKeyInfo = some (cur, has_write, has_lock)) :
    ((writeStep rsb sb (lockStep cl s has_lock).2.2 (lockStep cl s has_lock).1
        (lockStep cl s has_lock).2.1 cur has_write).2.write_cursor.valid = true →
      keyLt (writeStep rsb sb (lockStep cl s has_lock).2.2 (lockStep cl s has_lock).1
        (lockStep cl s has_lock).2.1 cur has_write).2.write_cursor.currentKey.1 cur
        = true) ∧
    ((writeStep rsb sb (lockStep cl s has_lock).2.2 (lockStep cl s has_lock).1
        (lockStep cl s has_lock).2.1 cur has_write).2.lock_cursor.valid = true →
      keyLt (writeStep rsb sb (lockStep cl s has_lock).2.2 (lockStep cl s has_lock).1
        (lockStep cl s has_lock).2.1 cur has_write).2.lock_cursor.currentKey cur
        = true) := by
  have hfacts := currentKeyInfo_facts s cur has_write has_lock heq
  have hlockb := lockStep_below cl s cur has_lock hsl hwl
    hfacts.2.2.2.1 hfacts.2.2.2.2
  have hlw : (lockStep cl s has_lock).2.2.write_cursor = s.write_cursor :=
    lockStep_write_cursor ..
  have hwriteb := writeStep_below rsb sb (lockStep cl s has_lock).2.2
    (lockStep cl s has_lock).1 (lockStep cl s has_lock).2.1 cur has_write hrsb
    (by rw [hlw]; exact hsw) (by rw [hlw]; exact hww)
    (fun hh => by rw [hlw]; exact hfacts.2.1 hh)
    (fun hh => by rw [hlw]; exact hfacts.2.2.1 hh)
  have hwl2 : (writeStep rsb sb (lockStep cl s has_lock).2.2 (lockStep cl s has_lock).1
      (lockStep cl s has_lock).2.1 cur has_write).2.lock_cursor
      = (lockStep cl s has_lock).2.2.lock_cursor := writeStep_lock_cursor ..
  constructor
  · intro hv
    rcases hwriteb with hcontra | ⟨_, hk⟩
    · rw [hcontra] at hv
      cases hv
    · exact hk
  · intro hv
    rw [hwl2] at hv ⊢
    rcases hlockb with hcontra | ⟨_, hk⟩
    · rw [hcontra] at hv
      cases hv
    · exact hk

/-- Emissions of the main loop, and the cursors it leaves behind, are
strictly below any user key that bounds both entering cursors from above. -/
theorem read_next_loop_bounded (rsb sb : Nat) (cl : LockRecord → Ts → CheckLockResult)
    (hrsb : 1 ≤ rsb) (fuel : Nat) :
    ∀ (s : BackwardScanner) (B : UserKey),
    WriteSorted s.write_cursor.entries → LockSorted s.lock_cursor.entries →
    s.write_cursor.WFpos → s.lock_cursor.WFpos →
    (s.write_cursor.valid = true → keyLt s.write_cursor.currentKey.1 B = true) →
    (s.lock_cursor.valid = true → keyLt s.lock_cursor.currentKey B = true) →
    ∀ r s1, read_next_loop rsb sb cl fuel s = (r, s1) →
      (∀ k v, r = .ok (some (k, v)) → keyLt k B = true) ∧
      (s1.write_cursor.valid = true → keyLt s1.write_cursor.currentKey.1 B = true) ∧
      (s1.lock_cursor.valid = true → keyLt s1.lock_cursor.currentKey B = true) := by
  induction fuel with
  | zero =>
    intro s B _ _ _ _ hbw hbl r s1 h
    rw [read_next_loop] at h
    have h1 := congrArg Prod.fst h
    have h2 := congrArg Prod.snd h
    dsimp only at h1 h2
    subst h2
    refine ⟨?_, hbw, hbl⟩
    intro k v hr
    rw [← h1] at hr
    cases hr
  | succ n ih =>
    intro s B hsw hsl hww hwl hbw hbl r s1 h
    rw [read_next_loop] at h
    split at h
    · have h1 := congrArg Prod.fst h
      have h2 := congrArg Prod.snd h
      dsimp only at h1 h2
      subst h2
      refine ⟨?_, hbw, hbl⟩
      intro k v hr
      rw [← h1] at hr
      cases hr
    · rename_i cur has_write has_lock heq
      dsimp only at h
      have hfacts := currentKeyInfo_facts s cur has_write has_lock heq
      have hcurB : keyLt cur B = true := by
        rcases hfacts.1 with hwT | hlT
        · rcases hfacts.2.1 hwT with ⟨hv, hk⟩
          rw [← hk]
          exact hbw hv
        · rcases hfacts.2.2.2.1 hlT with ⟨hv, hk⟩
          rw [← hk]
          exact hbl hv
      have hit := iteration_below rsb sb cl hrsb s cur has_write has_lock
        hsw hsl hww hwl heq
      have hshape : SameShape s (writeStep rsb sb (lockStep cl s has_lock).2.2
          (lockStep cl s has_lock).1 (lockStep cl s has_lock).2.1 cur has_write).2 :=
        SameShape.trans_shape (lockStep_shape cl s has_lock) (writeStep_shape ..)
      have hkeep : KeepsWF s (writeStep rsb sb (lockStep cl s has_lock).2.2
          (lockStep cl s has_lock).1 (lockStep cl s has_lock).2.1 cur has_write).2 :=
        KeepsWF.trans_wf (lockStep_keeps cl s has_lock) (writeStep_keeps ..)
      split at h
      · rename_i e hstep
        have h1 := congrArg Prod.fst h
        have h2 := congrArg Prod.snd h
        dsimp only at h1 h2
        subst h2
        refine ⟨?_, ?_, ?_⟩
        · intro k v hr
          rw [← h1] at hr
          cases hr
        · intro hv
          exact keyLt_trans (hit.1 hv) hcurB
        · intro hv
          exact keyLt_trans (hit.2 hv) hcurB
      · rename_i v1 hstep
        have h1 := congrArg Prod.fst h
        have h2 := congrArg Prod.snd h
        dsimp only at h1 h2
        subst h2
        refine ⟨?_, ?_, ?_⟩
        · intro k v hr
          rw [← h1] at hr
          have hk : cur = k := by
            have := congrArg (fun x => x) hr
            simp at hr
            exact hr.1
          rw [← hk]
          exact hcurB
        · intro hv
          exact keyLt_trans (hit.1 hv) hcurB
        · intro hv
          exact keyLt_trans (hit.2 hv) hcurB
      · rename_i hstep
        have hrec := ih (writeStep rsb sb (lockStep cl s has_lock).2.2
            (lockStep cl s has_lock).1 (lockStep cl s has_lock).2.1 cur has_write).2 B
          (by rw [hshape.write_entries]; exact hsw)
          (by rw [hshape.lock_entries]; exact hsl)
          (hkeep.w hww) (hkeep.l hwl)
          (fun hv => keyLt_trans (hit.1 hv) hcurB)
          (fun hv => keyLt_trans (hit.2 hv) hcurB)
          r s1 h
        exact hrec

/-- After the main loop emits the pair of a user key, both cursors are
invalid or strictly below the emitted key. -/
theorem read_next_loop_emit_below (rsb sb : Nat) (cl : LockRecord → Ts → CheckLockResult)
    (hrsb : 1 ≤ rsb) (fuel : Nat) :
    ∀ (s : BackwardScanner),
    WriteSorted s.write_cursor.entries → LockSorted s.lock_cursor.entries →
    s.write_cursor.WFpos → s.lock_cursor.WFpos →
    ∀ k v s1, read_next_loop rsb sb cl fuel s = (.ok (some (k, v)), s1) →
      (s1.write_cursor.valid = true → keyLt s1.write_cursor.currentKey.1 k = true) ∧
      (s1.lock_cursor.valid = true → keyLt s1.lock_cursor.currentKey k = true) := by
  induction fuel with
  | zero =>
    intro s _ _ _ _ k v s1 h
    rw [read_next_loop] at h
    have h1 := congrArg Prod.fst h
    simp at h1
  | succ n ih =>
    intro s hsw hsl hww hwl k v s1 h
    rw [read_next_loop] at h
    split at h
    · have h1 := congrArg Prod.fst h
      simp at h1
    · rename_i cur has_write has_lock heq
      dsimp only at h
      have hit := iteration_below rsb sb cl hrsb s cur has_write has_lock
        hsw hsl hww hwl heq
      have hshape : SameShape s (writeStep rsb sb (lockStep cl s has_lock).2.2
          (lockStep cl s has_lock).1 (lockStep cl s has_lock).2.1 cur has_write).2 :=
        SameShape.trans_shape (lockStep_shape cl s has_lock) (writeStep_shape ..)
      have hkeep : KeepsWF s (writeStep rsb sb (lockStep cl s has_lock).2.2
          (lockStep cl s has_lock).1 (lockStep cl s has_lock).2.1 cur has_write).2 :=
        KeepsWF.trans_wf (lockStep_keeps cl s has_lock) (writeStep_keeps ..)
      split at h
      · have h1 := congrArg Prod.fst h
        simp at h1
      · rename_i v1 hstep
        have h1 := congrArg Prod.fst h
        have h2 := congrArg Prod.snd h
        dsimp only at h1 h2
        subst h2
        have hk : cur = k := by
          simp at h1
          exact h1.1
        subst hk
        exact hit
      · rename_i hstep
        exact ih (writeStep rsb sb (lockStep cl s has_lock).2.2
            (lockStep cl s has_lock).1 (lockStep cl s has_lock).2.1 cur has_write).2
          (by rw [hshape.write_entries]; exact hsw)
          (by rw [hshape.lock_entries]; exact hsl)
          (hkeep.w hww) (hkeep.l hwl) k v s1 h

/-- On an already started scanner the initialization of read_next is a no op
and the call is exactly the main loop. -/
theorem read_next_eq_of_started (rsb sb : Nat) (cl : LockRecord → Ts → CheckLockResult)
    (s : BackwardScanner) (hstart : s.is_started = true) :
    read_next rsb sb cl s = read_next_loop rsb sb cl
      (s.lock_cursor.entries.length + s.write_cursor.entries.length + 1) s := by
  unfold read_next
  rw [initOnce_of_started s hstart]

/-- Every read_next call leaves the scanner started. -/
theorem read_next_is_started (rsb sb : Nat) (cl : LockRecord → Ts → CheckLockResult)
    (s : BackwardScanner) : (read_next rsb sb cl s).2.is_started = true := by
  unfold read_next
  dsimp only
  rw [(read_next_loop_shape ..).is_started]
  exact initOnce_is_started s

/-- When lock handling already produced an error, the write step propagates
it and only skips the remaining versions of the current user key. -/
theorem writeStep_error (rsb sb : Nat) (s : BackwardScanner) (e0 : ScanError) (gts : Ts)
    (cur : UserKey) (hw : Bool) :
    writeStep rsb sb s (.error e0) gts cur hw
      = (.error e0,
         if hw then s.move_write_cursor_to_prev_user_key cur sb else s) := by
  rcases hw with _ | _ <;> rfl

/-- C3: under SI, when the external lock check for the current user key
returns Locked e, read_next returns exactly that error for the key; the write
side read is suppressed (reverse_get is never run: the processed, seek and
next counters of the write CF are unchanged); both cursors are advanced past
the user key, ending invalid or on strictly smaller user keys; and whatever
pair the next read_next call returns carries a strictly smaller user key. -/
theorem read_next_locked_si (rsb sb : Nat) (cl : LockRecord → Ts → CheckLockResult)
    (s : BackwardScanner) (e : Nat) (cur : UserKey)
    (hrsb : 1 ≤ rsb) (hstart : s.is_started = true)
    (hsw : WriteSorted s.write_cursor.entries) (hsl : LockSorted s.lock_cursor.entries)
    (hww : s.write_cursor.WFpos) (hwl : s.lock_cursor.WFpos)
    (hiso : s.isolation_level = .SI)
    (hlk : s.lock_cursor.valid = true) (hlkk : s.lock_cursor.currentKey = cur)
    (hwk : s.write_cursor.valid = true → keyLt cur s.write_cursor.currentKey.1 = false)
    (hlock : cl s.lock_cursor.currentValue s.ts = .Locked e) :
    (read_next rsb sb cl s).1 = .error (.KeyIsLocked e) ∧
    ((read_next rsb sb cl s).2.statistics.write.processed
        = s.statistics.write.processed ∧
     (read_next rsb sb cl s).2.statistics.write.seek = s.statistics.write.seek ∧
     (read_next rsb sb cl s).2.statistics.write.next = s.statistics.write.next) ∧
    ((read_next rsb sb cl s).2.lock_cursor.valid = true →
      keyLt (read_next rsb sb cl s).2.lock_cursor.currentKey cur = true) ∧
    ((read_next rsb sb cl s).2.write_cursor.valid = true →
      keyLt (read_next rsb sb cl s).2.write_cursor.currentKey.1 cur = true) ∧
    (∀ k v s2,
      read_next rsb sb cl (read_next rsb sb cl s).2 = (.ok (some (k, v)), s2) →
      keyLt k cur = true) := by
  obtain ⟨hw1, hinfo⟩ : ∃ hwFlag : Bool, s.currentKeyInfo = some (cur, hwFlag, true) := by
    rcases hinfo0 : s.currentKeyInfo with _ | p
    · exfalso
      have h0 := (currentKeyInfo_eq_none_iff s).1 hinfo0
      rw [h0.2] at hlk
      cases hlk
    · rcases p with ⟨cur1, hw1, hl1⟩
      have hfacts := currentKeyInfo_facts s cur1 hw1 hl1 hinfo0
      rcases hl1 with _ | _
      · exfalso
        rcases hfacts.2.2.2.2 rfl with hcon | ⟨_, hlt1⟩
        · rw [hcon] at hlk
          cases hlk
        · rcases hfacts.1 with hwT | hlT
          · rcases hfacts.2.1 hwT with ⟨hv, hkk⟩
            have h1 : keyLt cur cur1 = true := by
              rw [← hlkk]
              exact hlt1
            have h2 : keyLt cur cur1 = false := by
              rw [← hkk]
              exact hwk hv
            rw [h1] at h2
            cases h2
          · cases hlT
      · rcases hfacts.2.2.2.1 rfl with ⟨_, hkk⟩
        refine ⟨hw1, ?_⟩
        rw [show cur1 = cur from hkk.symm.trans hlkk]
  have hres1 := lockStep_locked_result cl s e hiso hlock
  have hcall := read_next_eq_of_started rsb sb cl s hstart
  have hiter : read_next_loop rsb sb cl
      (s.lock_cursor.entries.length + s.write_cursor.entries.length + 1) s
      = (.error (.KeyIsLocked e),
         (writeStep rsb sb (lockStep cl s true).2.2 (lockStep cl s true).1
           (lockStep cl s true).2.1 cur hw1).2) := by
    rw [read_next_loop, hinfo]
    dsimp only
    have ht2 : (writeStep rsb sb (lockStep cl s true).2.2 (lockStep cl s true).1
        (lockStep cl s true).2.1 cur hw1).1 = .error (.KeyIsLocked e) := by
      rw [hres1.1, writeStep_error]
    rw [ht2]
  have hstate : (read_next rsb sb cl s).2
      = (writeStep rsb sb (lockStep cl s true).2.2 (lockStep cl s true).1
          (lockStep cl s true).2.1 cur hw1).2 := by
    rw [hcall, hiter]
  have hresult : (read_next rsb sb cl s).1 = .error (.KeyIsLocked e) := by
    rw [hcall, hiter]
  have hit := iteration_below rsb sb cl hrsb s cur hw1 true hsw hsl hww hwl hinfo
  have hstats : (writeStep rsb sb (lockStep cl s true).2.2 (lockStep cl s true).1
      (lockStep cl s true).2.1 cur hw1).2.statistics.write.processed
        = s.statistics.write.processed ∧
      (writeStep rsb sb (lockStep cl s true).2.2 (lockStep cl s true).1
        (lockStep cl s true).2.1 cur hw1).2.statistics.write.seek
        = s.statistics.write.seek ∧
      (writeStep rsb sb (lockStep cl s true).2.2 (lockStep cl s true).1
        (lockStep cl s true).2.1 cur hw1).2.statistics.write.next
        = s.statistics.write.next := by
    rw [hres1.1, lockStep_true_state, writeStep_error]
    rcases hw1 with _ | _
    · rw [if_neg (by simp)]
      exact ⟨rfl, rfl, rfl⟩
    · rw [if_pos rfl]
      have hmv := move_write_cursor_to_prev_user_key_spec cur sb s.lockPrev hsw hww hwk
      have hmisc := move_write_cursor_misc cur sb s.lockPrev
      exact ⟨hmisc.1, hmv.2.2.2.1, hmv.2.2.2.2.1⟩
  refine ⟨hresult, ?_, ?_, ?_, ?_⟩
  · rw [hstate]
    exact hstats
  · intro hv
    rw [hstate] at hv ⊢
    exact hit.2 hv
  · intro hv
    rw [hstate] at hv ⊢
    exact hit.1 hv
  · intro k v s2 hsecond
    have hstart2 : (read_next rsb sb cl s).2.is_started = true :=
      read_next_is_started rsb sb cl s
    have hshape : SameShape s (read_next rsb sb cl s).2 := by
      rw [hstate]
      exact SameShape.trans_shape (lockStep_shape cl s true) (writeStep_shape ..)
    have hkeep : KeepsWF s (read_next rsb sb cl s).2 := by
      rw [hstate]
      exact KeepsWF.trans_wf (lockStep_keeps cl s true) (writeStep_keeps ..)
    rw [read_next_eq_of_started rsb sb cl _ hstart2] at hsecond
    have hb := read_next_loop_bounded rsb sb cl hrsb _ (read_next rsb sb cl s).2 cur
      (by rw [hshape.write_entries]; exact hsw)
      (by rw [hshape.lock_entries]; exact hsl)
      (hkeep.w hww) (hkeep.l hwl)
      (by rw [hstate]; exact hit.1)
      (by rw [hstate]; exact hit.2)
      (.ok (some (k, v))) s2 hsecond
    exact hb.1 k v rfl

/-- Closed instance of the C3 theorem: on the store whose only lock guards
user key 107 while the Put of the same key is committed, the SI read at
timestamp 10 is answered with exactly the lock error. -/
theorem read_next_locked_si_witness :
    (LockSorted c3Scanner.lock_cursor.entries ∧
     c3Scanner.lock_cursor.valid = true ∧
     lockedCl c3Scanner.lock_cursor.currentValue c3Scanner.ts = .Locked 7) ∧
    (read_next 4 4 lockedCl c3Scanner).1 = .error (.KeyIsLocked 7) := by
  have hsw : WriteSorted c3Scanner.write_cursor.entries := by
    unfold WriteSorted
    exact List.pairwise_singleton _ _
  have hsl : LockSorted c3Scanner.lock_cursor.entries := by
    unfold LockSorted
    exact List.pairwise_singleton _ _
  have hww : c3Scanner.write_cursor.WFpos := by
    intro p hp
    cases hp
    decide
  have hwl : c3Scanner.lock_cursor.WFpos := by
    intro p hp
    cases hp
    decide
  exact ⟨⟨hsl, rfl, rfl⟩,
    (read_next_locked_si 4 4 lockedCl c3Scanner 7 [107] (by decide) rfl hsw hsl hww hwl
      rfl rfl rfl (fun _ => by decide) rfl).1⟩

end BackwardScanner

/-- All keys scanCollect gathers from a started, well formed state whose
cursors are bounded above by B lie strictly below B. -/
theorem scanCollect_below (rsb sb : Nat) (cl : LockRecord → Ts → CheckLockResult)
    (hrsb : 1 ≤ rsb) (fuel : Nat) :
    ∀ (s : BackwardScanner) (B : UserKey),
    s.is_started = true →
    WriteSorted s.write_cursor.entries → LockSorted s.lock_cursor.entries →
    s.write_cursor.WFpos → s.lock_cursor.WFpos →
    (s.write_cursor.valid = true → keyLt s.write_cursor.currentKey.1 B = true) →
    (s.lock_cursor.valid = true → keyLt s.lock_cursor.currentKey B = true) →
    ∀ kv ∈ scanCollect rsb sb cl fuel s, keyLt kv.1 B = true := by
  induction fuel with
  | zero =>
    intro s B _ _ _ _ _ _ _ kv hkv
    rw [scanCollect] at hkv
    cases hkv
  | succ n ih =>
    intro s B hstart hsw hsl hww hwl hbw hbl kv hkv
    rw [scanCollect] at hkv
    rcases hcall : BackwardScanner.read_next rsb sb cl s with ⟨r, s1⟩
    rw [hcall] at hkv
    have hb := BackwardScanner.read_next_loop_bounded rsb sb cl hrsb _ s B hsw hsl hww hwl
      hbw hbl r s1
      (by rw [← BackwardScanner.read_next_eq_of_started rsb sb cl s hstart]; exact hcall)
    have hstart1 : s1.is_started = true := by
      have h0 := BackwardScanner.read_next_is_started rsb sb cl s
      rw [hcall] at h0
      exact h0
    have hpres := read_next_pres rsb sb cl s
    rw [hcall] at hpres
    dsimp only at hpres
    rcases r with e | ov
    · dsimp only at hkv
      exact ih s1 B hstart1 (by rw [hpres.1]; exact hsw) (by rw [hpres.2.1]; exact hsl)
        (hpres.2.2.1 hww) (hpres.2.2.2 hwl) hb.2.1 hb.2.2 kv hkv
    · rcases ov with _ | kv1
      · dsimp only at hkv
        cases hkv
      · dsimp only at hkv
        rcases List.mem_cons.1 hkv with rfl | hkv'
        · exact hb.1 kv.1 kv.2 rfl
        · exact ih s1 B hstart1 (by rw [hpres.1]; exact hsw) (by rw [hpres.2.1]; exact hsl)
            (hpres.2.2.1 hww) (hpres.2.2.2 hwl) hb.2.1 hb.2.2 kv hkv'

/-- The pairs successive read_next calls emit are strictly decreasing in user
key order, from any well formed scanner state. -/
theorem scanCollect_pairwise (rsb sb : Nat) (cl : LockRecord → Ts → CheckLockResult)
    (hrsb : 1 ≤ rsb) (fuel : Nat) :
    ∀ (s : BackwardScanner),
    WriteSorted s.write_cursor.entries → LockSorted s.lock_cursor.entries →
    s.write_cursor.WFpos → s.lock_cursor.WFpos →
    List.Pairwise (fun x y => keyLt y.1 x.1 = true) (scanCollect rsb sb cl fuel s) := by
  induction fuel with
  | zero =>
    intro s _ _ _ _
    rw [scanCollect]
    exact List.Pairwise.nil
  | succ n ih =>
    intro s hsw hsl hww hwl
    rw [scanCollect]
    rcases hcall : BackwardScanner.read_next rsb sb cl s with ⟨r, s1⟩
    have hstart1 : s1.is_started = true := by
      have h0 := BackwardScanner.read_next_is_started rsb sb cl s
      rw [hcall] at h0
      exact h0
    have hpres := read_next_pres rsb sb cl s
    rw [hcall] at hpres
    dsimp only at hpres
    have hsw1 : WriteSorted s1.write_cursor.entries := by
      rw [hpres.1]
      exact hsw
    have hsl1 : LockSorted s1.lock_cursor.entries := by
      rw [hpres.2.1]
      exact hsl
    have hww1 := hpres.2.2.1 hww
    have hwl1 := hpres.2.2.2 hwl
    rcases r with e | ov
    · dsimp only
      exact ih s1 hsw1 hsl1 hww1 hwl1
    · rcases ov with _ | kv1
      · exact List.Pairwise.nil
      · dsimp only
        have hloop : BackwardScanner.read_next_loop rsb sb cl
            (s.initOnce.lock_cursor.entries.length
              + s.initOnce.write_cursor.entries.length + 1) s.initOnce
            = (.ok (some kv1), s1) := by
          rw [← hcall]
          rfl
        have hie := BackwardScanner.initOnce_entries s
        have hik := BackwardScanner.initOnce_keeps s
        have hemit := BackwardScanner.read_next_loop_emit_below rsb sb cl hrsb _
          s.initOnce (by rw [hie.1]; exact hsw) (by rw [hie.2]; exact hsl)
          (hik.w hww) (hik.l hwl) kv1.1 kv1.2 s1 hloop
        refine List.Pairwise.cons ?_ (ih s1 hsw1 hsl1 hww1 hwl1)
        intro kv2 hkv2
        exact scanCollect_below rsb sb cl hrsb n s1 kv1.1 hstart1 hsw1 hsl1 hww1 hwl1
          hemit.1 hemit.2 kv2 hkv2

/-- C2: across the lifetime of one scanner built over a well formed snapshot,
the user keys successive successful read_next calls return are strictly
decreasing in lexicographic byte order, so in particular no user key is ever
returned twice. -/
theorem scan_keys_strict_decreasing (rsb sb : Nat) (cl : LockRecord → Ts → CheckLockResult)
    (fuel : Nat) (b : BackwardScannerBuilder) (hrsb : 1 ≤ rsb)
    (hsw : WriteSorted b.snapshot.write_cf) (hsl : LockSorted b.snapshot.lock_cf) :
    List.Pairwise (fun x y => keyLt y x = true)
      ((scanCollect rsb sb cl fuel b.build).map Prod.fst) ∧
    ((scanCollect rsb sb cl fuel b.build).map Prod.fst).Nodup := by
  have hsw' : WriteSorted b.build.write_cursor.entries := hsw.pairwise_write.filter _
  have hsl' : LockSorted b.build.lock_cursor.entries := hsl.pairwise_lock.filter _
  have hww : b.build.write_cursor.WFpos := by
    intro p hp
    exact Option.noConfusion hp
  have hwl : b.build.lock_cursor.WFpos := by
    intro p hp
    exact Option.noConfusion hp
  have hp := scanCollect_pairwise rsb sb cl hrsb fuel b.build hsw' hsl' hww hwl
  have hmap : List.Pairwise (fun x y => keyLt y x = true)
      ((scanCollect rsb sb cl fuel b.build).map Prod.fst) :=
    List.pairwise_map.2 hp
  refine ⟨hmap, ?_⟩
  exact hmap.imp (fun h heq => by
    rw [heq, keyLt_irrefl] at h
    cases h)

/-- Closed instance of the C2 theorem: scanning a two key store returns the
keys in strictly decreasing order. -/
theorem scan_keys_strict_decreasing_witness :
    (WriteSorted (({ snapshot := ⟨[(([1], 2), ⟨.Put, 2, some [9]⟩),
        (([2], 2), ⟨.Put, 2, some [8]⟩)], [], []⟩, ts := 5 }
        : BackwardScannerBuilder).snapshot.write_cf) ∧
     LockSorted (({ snapshot := ⟨[(([1], 2), ⟨.Put, 2, some [9]⟩),
        (([2], 2), ⟨.Put, 2, some [8]⟩)], [], []⟩, ts := 5 }
        : BackwardScannerBuilder).snapshot.lock_cf)) ∧
    List.Pairwise (fun x y => keyLt y x = true)
      ((scanCollect 4 4 noLockCheck 3 (BackwardScannerBuilder.build
        { snapshot := ⟨[(([1], 2), ⟨.Put, 2, some [9]⟩),
            (([2], 2), ⟨.Put, 2, some [8]⟩)], [], []⟩, ts := 5 })).map Prod.fst) := by
  have hsw : WriteSorted (({ snapshot := ⟨[(([1], 2), ⟨.Put, 2, some [9]⟩),
      (([2], 2), ⟨.Put, 2, some [8]⟩)], [], []⟩, ts := 5 }
      : BackwardScannerBuilder).snapshot.write_cf) := by
    unfold WriteSorted
    refine List.Pairwise.cons ?_ (List.pairwise_singleton _ _)
    intro e he
    rcases List.mem_singleton.1 he with rfl
    decide
  have hsl : LockSorted (({ snapshot := ⟨[(([1], 2), ⟨.Put, 2, some [9]⟩),
      (([2], 2), ⟨.Put, 2, some [8]⟩)], [], []⟩, ts := 5 }
      : BackwardScannerBuilder).snapshot.lock_cf) := List.Pairwise.nil
  exact ⟨⟨hsw, hsl⟩,
    (scan_keys_strict_decreasing 4 4 noLockCheck 3
      { snapshot := ⟨[(([1], 2), ⟨.Put, 2, some [9]⟩),
          (([2], 2), ⟨.Put, 2, some [8]⟩)], [], []⟩, ts := 5 }
      (by decide) hsw hsl).1⟩

theorem find?_filter_of_imp {α : Type} (p q : α → Bool)
    (h : ∀ e, p e = true → q e = true) :
    ∀ l : List α, (l.filter q).find? p = l.find? p := by
  intro l
  induction l with
  | nil => rfl
  | cons x xs ih =>
    rcases hq : q x
    · rw [List.filter_cons_of_neg (by rw [hq]; exact Bool.false_ne_true), ih,
        List.find?_cons_of_neg _ (fun hp => by rw [h x hp] at hq; cases hq)]
    · rw [List.filter_cons_of_pos hq]
      rcases hp : p x
      · rw [List.find?_cons_of_neg _ (by rw [hp]; exact Bool.false_ne_true),
          List.find?_cons_of_neg _ (by rw [hp]; exact Bool.false_ne_true), ih]
      · rw [List.find?_cons_of_pos _ hp, List.find?_cons_of_pos _ hp]

theorem findIdx?_ge_start {α : Type} (p : α → Bool) :
    ∀ (l : List α) (i j : Nat), List.findIdx? p l i = some j → i ≤ j := by
  intro l
  induction l with
  | nil =>
    intro i j h
    rw [List.findIdx?] at h
    cases h
  | cons x xs ih =>
    intro i j h
    rw [List.findIdx?] at h
    split at h
    · cases h
      exact Nat.le_refl i
    · exact Nat.le_trans (Nat.le_succ i) (ih (i + 1) j h)

theorem findIdx?_find?_spec {α : Type} [Inhabited α] (p : α → Bool) :
    ∀ (l : List α) (i : Nat),
      (List.findIdx? p l i = none → l.find? p = none) ∧
      (∀ j, List.findIdx? p l i = some j →
        l.find? p = some (l.getD (j - i) default)) := by
  intro l
  induction l with
  | nil =>
    intro i
    exact ⟨fun _ => rfl, fun j h => by rw [List.findIdx?] at h; cases h⟩
  | cons x xs ih =>
    intro i
    constructor
    · intro h
      rw [List.findIdx?] at h
      split at h
      · cases h
      · rename_i hp
        have hnp : p x = false := by
          rcases hb : p x with _ | _
          · rfl
          · exact absurd hb hp
        rw [List.find?_cons_of_neg _ (by rw [hnp]; exact Bool.false_ne_true)]
        exact (ih (i + 1)).1 h
    · intro j h
      rw [List.findIdx?] at h
      split at h
      · rename_i hp
        cases h
        rw [List.find?_cons_of_pos _ hp, Nat.sub_self]
        rfl
      · rename_i hp
        have hnp : p x = false := by
          rcases hb : p x with _ | _
          · rfl
          · exact absurd hb hp
        rw [List.find?_cons_of_neg _ (by rw [hnp]; exact Bool.false_ne_true)]
        have hr := (ih (i + 1)).2 j h
        have hij : i + 1 ≤ j := findIdx?_ge_start p xs (i + 1) j h
        have hd : (x :: xs).getD (j - i) default = xs.getD (j - i - 1) default := by
          have h1 : j - i = (j - i - 1) + 1 := by omega
          rw [h1]
          rfl
        rw [hr, hd]
        have h2 : j - (i + 1) = j - i - 1 := by omega
        rw [h2]

theorem SameDefault.refl_default (s : BackwardScanner) : SameDefault s s :=
  ⟨rfl, rfl, rfl, rfl⟩

theorem SameDefault.trans_default {a b c : BackwardScanner} (h1 : SameDefault a b)
    (h2 : SameDefault b c) : SameDefault a c :=
  ⟨h2.dc.trans h1.dc, h2.lb.trans h1.lb, h2.ub.trans h1.ub, h2.dcf.trans h1.dcf⟩

theorem DefaultInv.of_sameDefault {dcf : List ((UserKey × Ts) × Value)}
    {lb ub : Option UserKey} {s t : BackwardScanner} (hsd : SameDefault s t)
    (h : DefaultInv dcf lb ub s) : DefaultInv dcf lb ub t := by
  rcases h with ⟨h1, h2 | ⟨c, hc, he⟩⟩
  · exact ⟨hsd.dcf.trans h1,
      Or.inl ⟨hsd.dc.trans h2.1, hsd.lb.trans h2.2.1, hsd.ub.trans h2.2.2⟩⟩
  · exact ⟨hsd.dcf.trans h1, Or.inr ⟨c, hsd.dc.trans hc, he⟩⟩

namespace BackwardScanner

theorem writePrev_sameDefault (s : BackwardScanner) : SameDefault s s.writePrev :=
  ⟨rfl, rfl, rfl, rfl⟩

theorem writeNext_sameDefault (s : BackwardScanner) : SameDefault s s.writeNext :=
  ⟨rfl, rfl, rfl, rfl⟩

theorem lockPrev_sameDefault (s : BackwardScanner) : SameDefault s s.lockPrev :=
  ⟨rfl, rfl, rfl, rfl⟩

theorem incWriteProcessed_sameDefault (s : BackwardScanner) :
    SameDefault s s.incWriteProcessed :=
  ⟨rfl, rfl, rfl, rfl⟩

theorem writeInternalSeek_sameDefault (s : BackwardScanner) (k : UserKey × Ts) :
    SameDefault s (s.writeInternalSeek k) :=
  ⟨rfl, rfl, rfl, rfl⟩

theorem writeInternalSeekForPrev_sameDefault (s : BackwardScanner) (k : UserKey) :
    SameDefault s (s.writeInternalSeekForPrev k) :=
  ⟨rfl, rfl, rfl, rfl⟩

theorem move_write_cursor_loop_sameDefault (k : UserKey) (n : Nat) :
    ∀ s : BackwardScanner, SameDefault s (move_write_cursor_loop k n s) := by
  induction n with
  | zero =>
    intro s
    exact writeInternalSeekForPrev_sameDefault s k
  | succ m ih =>
    intro s
    unfold move_write_cursor_loop
    dsimp only
    split
    · exact writePrev_sameDefault s
    · split
      · exact writePrev_sameDefault s
      · exact SameDefault.trans_default (writePrev_sameDefault s) (ih s.writePrev)

theorem move_write_cursor_sameDefault (k : UserKey) (sb : Nat) (s : BackwardScanner) :
    SameDefault s (move_write_cursor_to_prev_user_key k sb s) := by
  unfold move_write_cursor_to_prev_user_key
  rcases sb with _ | n
  · exact writeInternalSeekForPrev_sameDefault s k
  · dsimp only
    split
    · exact SameDefault.refl_default s
    · split
      · exact SameDefault.refl_default s
      · exact move_write_cursor_loop_sameDefault k n s

theorem phase_a_check_sameDefault_inl (user_key : UserKey) (ts : Ts) (lv : Option Write)
    (s : BackwardScanner) (out : PhaseARes × BackwardScanner)
    (h : phase_a_check user_key ts lv s = .inl out) : SameDefault s out.2 := by
  rcases phase_a_check_inl_cases _ _ _ _ _ h with ⟨ho, _⟩ | ⟨ho, _, _⟩ <;> rw [ho] <;>
    exact SameDefault.refl_default s

theorem phase_a_check_sameDefault_inr (user_key : UserKey) (ts : Ts) (lv : Option Write)
    (s : BackwardScanner) (lv1 : Option Write) (lc1 : Ts) (s2 : BackwardScanner)
    (h : phase_a_check user_key ts lv s = .inr (lv1, lc1, s2)) : SameDefault s s2 := by
  rcases phase_a_check_inr_cases _ _ _ _ _ _ _ h with ⟨hs2, _, _, _⟩
  rw [hs2]
  exact incWriteProcessed_sameDefault s

theorem reverse_get_phase_a_loop_sameDefault (user_key : UserKey) (ts : Ts) (n : Nat) :
    ∀ (lv : Option Write) (lc : Ts) (s : BackwardScanner),
    SameDefault s (reverse_get_phase_a_loop user_key ts n lv lc s).2 := by
  induction n with
  | zero =>
    intro lv lc s
    exact SameDefault.refl_default s
  | succ m ih =>
    intro lv lc s
    unfold reverse_get_phase_a_loop
    dsimp only
    split
    · exact writePrev_sameDefault s
    · split
      · rename_i out heq
        exact SameDefault.trans_default (writePrev_sameDefault s)
          (phase_a_check_sameDefault_inl _ _ _ _ _ heq)
      · rename_i lv1 lc1 s2 heq
        exact SameDefault.trans_default
          (SameDefault.trans_default (writePrev_sameDefault s)
            (phase_a_check_sameDefault_inr _ _ _ _ _ _ _ heq))
          (ih lv1 lc1 s2)

theorem reverse_get_phase_a_sameDefault (user_key : UserKey) (ts : Ts) (rsb : Nat)
    (s : BackwardScanner) : SameDefault s (reverse_get_phase_a user_key ts rsb s).2 := by
  unfold reverse_get_phase_a
  rcases rsb with _ | n
  · exact SameDefault.refl_default s
  · dsimp only
    split
    · rename_i out heq
      exact phase_a_check_sameDefault_inl _ _ _ _ _ heq
    · rename_i lv1 lc1 s2 heq
      exact SameDefault.trans_default (phase_a_check_sameDefault_inr _ _ _ _ _ _ _ heq)
        (reverse_get_phase_a_loop_sameDefault user_key ts n lv1 lc1 s2)

theorem lockStep_sameDefault (cl : LockRecord → Ts → CheckLockResult)
    (s : BackwardScanner) (hl : Bool) : SameDefault s (lockStep cl s hl).2.2 := by
  rcases hl with _ | _
  · exact SameDefault.refl_default s
  · exact lockPrev_sameDefault s

theorem initOnce_sameDefault (s : BackwardScanner) : SameDefault s s.initOnce := by
  unfold initOnce
  split
  · exact SameDefault.refl_default s
  · split <;> exact ⟨rfl, rfl, rfl, rfl⟩

/-- ensure_default_cursor establishes or preserves the default CF
invariant. -/
theorem ensure_default_cursor_inv (dcf : List ((UserKey × Ts) × Value))
    (lb ub : Option UserKey) (s : BackwardScanner) (h : DefaultInv dcf lb ub s) :
    DefaultInv dcf lb ub s.ensure_default_cursor := by
  rcases h with ⟨h1, ⟨hdc, hlb, hub⟩ | ⟨c, hc, he⟩⟩
  · have heq : s.ensure_default_cursor.default_cursor
        = some { entries := dcf.filter (fun e => inRangeUser lb ub e.1.1), pos := none } ∧
        s.ensure_default_cursor.default_cf = dcf := by
      unfold ensure_default_cursor
      rw [hdc]
      dsimp only
      rw [h1, hlb, hub]
      exact ⟨rfl, rfl⟩
    exact ⟨heq.2, Or.inr ⟨_, heq.1, rfl⟩⟩
  · have heq : s.ensure_default_cursor = s := by
      unfold ensure_default_cursor
      rw [hc]
    rw [heq]
    exact ⟨h1, Or.inr ⟨c, hc, he⟩⟩

/-- Result and state of reverse_load_data_by_write with values not omitted,
under the default CF invariant with the probed user key in range: the result
is exactly the spec side value of the Put (ValueNotFound when it is absent),
and the invariant is preserved. -/
theorem reverse_load_value (dcf : List ((UserKey × Ts) × Value))
    (lb ub : Option UserKey) (s : BackwardScanner) (w : Write) (k : UserKey)
    (hinv : DefaultInv dcf lb ub s) (homit : s.omit_value = false)
    (hrange : inRangeUser lb ub k = true) :
    (s.reverse_load_data_by_write w k).1
      = (match specValue dcf k w with
         | some v => .ok v
         | none => .error .ValueNotFound) ∧
    DefaultInv dcf lb ub (s.reverse_load_data_by_write w k).2 := by
  unfold reverse_load_data_by_write
  rw [homit, if_neg Bool.false_ne_true]
  rcases hsv : w.short_value with _ | v
  · simp only [hsv]
    have hens := ensure_default_cursor_inv dcf lb ub s hinv
    rcases hens with ⟨h1, hnone | ⟨c, hc, he⟩⟩
    · exfalso
      obtain ⟨hn1, -, -⟩ := hnone
      rcases hdc0 : s.default_cursor with _ | c0
      · have hsome : ∃ c1, s.ensure_default_cursor.default_cursor = some c1 := by
          unfold ensure_default_cursor
          rw [hdc0]
          exact ⟨_, rfl⟩
        obtain ⟨c1, hsome⟩ := hsome
        rw [hsome] at hn1
        cases hn1
      · have hsame : s.ensure_default_cursor = s := by
          unfold ensure_default_cursor
          rw [hdc0]
        rw [hsame, hdc0] at hn1
        cases hn1
    · rw [hc]
      dsimp only
      have hfidx := findIdx?_find?_spec (fun e => e.1 == (k, w.start_ts)) c.entries 0
      have hfilter : c.entries.find? (fun e => e.1 == (k, w.start_ts))
          = dcf.find? (fun e => e.1 == (k, w.start_ts)) := by
        rw [he]
        exact find?_filter_of_imp _ _ (fun e hp => by
          have hek : e.1 = (k, w.start_ts) := by
            exact eq_of_beq hp
          rw [hek]
          exact hrange) dcf
      rcases hidx : c.entries.findIdx? (fun e => e.1 == (k, w.start_ts)) with _ | j
      · have hfind := hfidx.1 hidx
        rw [hfind] at hfilter
        unfold near_reverse_load_data_by_write
        rw [hidx]
        dsimp only
        constructor
        · unfold specValue
          rw [hsv, ← hfilter]
          rfl
        · exact ⟨h1, Or.inr ⟨c, rfl, he⟩⟩
      · have hfind := hfidx.2 j hidx
        rw [Nat.sub_zero] at hfind
        rw [hfind] at hfilter
        unfold near_reverse_load_data_by_write
        rw [hidx]
        dsimp only
        constructor
        · unfold specValue
          rw [hsv, ← hfilter]
          rfl
        · exact ⟨h1, Or.inr ⟨_, rfl, he⟩⟩
  · simp only [hsv]
    constructor
    · unfold specValue
      rw [hsv]
    · exact hinv

/-- handle_last_version preserves the default CF invariant. -/
theorem handle_last_version_inv (dcf : List ((UserKey × Ts) × Value))
    (lb ub : Option UserKey) (s : BackwardScanner) (sw : Option Write) (k : UserKey)
    (hinv : DefaultInv dcf lb ub s) (homit : s.omit_value = false)
    (hrange : inRangeUser lb ub k = true) :
    DefaultInv dcf lb ub (s.handle_last_version sw k).2 := by
  unfold handle_last_version
  rcases sw with _ | w
  · exact hinv
  · rcases w with ⟨wt, sts, sv⟩
    rcases wt <;> dsimp only
    · exact (reverse_load_value dcf lb ub s ⟨.Put, sts, sv⟩ k hinv homit hrange).2
    · exact hinv
    · exact hinv
    · exact hinv

/-- Phase B preserves the default CF invariant. -/
theorem reverse_get_phase_b_inv (dcf : List ((UserKey × Ts) × Value))
    (lb ub : Option UserKey) (user_key : UserKey) (lc : Ts) (lv : Option Write)
    (hrange : inRangeUser lb ub user_key = true) (fuel : Nat) :
    ∀ s : BackwardScanner, DefaultInv dcf lb ub s → s.omit_value = false →
    DefaultInv dcf lb ub (reverse_get_phase_b user_key lc lv fuel s).2 := by
  induction fuel with
  | zero =>
    intro s hinv _
    exact hinv
  | succ n ih =>
    intro s hinv homit
    unfold reverse_get_phase_b
    dsimp only
    split
    · exact hinv
    · split
      · exact handle_last_version_inv dcf lb ub s lv user_key hinv homit hrange
      · split
        · exact (reverse_load_value dcf lb ub s.incWriteProcessed
            s.write_cursor.currentValue user_key
            (hinv.of_sameDefault (incWriteProcessed_sameDefault s)) homit hrange).2
        · exact hinv.of_sameDefault (incWriteProcessed_sameDefault s)
        · split
          · exact hinv.of_sameDefault (SameDefault.trans_default
              (incWriteProcessed_sameDefault s)
              (writeNext_sameDefault s.incWriteProcessed))
          · exact ih _ (hinv.of_sameDefault (SameDefault.trans_default
              (incWriteProcessed_sameDefault s)
              (writeNext_sameDefault s.incWriteProcessed))) homit
        · split
          · exact hinv.of_sameDefault (SameDefault.trans_default
              (incWriteProcessed_sameDefault s)
              (writeNext_sameDefault s.incWriteProcessed))
          · exact ih _ (hinv.of_sameDefault (SameDefault.trans_default
              (incWriteProcessed_sameDefault s)
              (writeNext_sameDefault s.incWriteProcessed))) homit

/-- reverse_get preserves the default CF invariant. -/
theorem reverse_get_inv (dcf : List ((UserKey × Ts) × Value))
    (lb ub : Option UserKey) (s : BackwardScanner) (rsb : Nat) (user_key : UserKey)
    (ts : Ts) (hinv : DefaultInv dcf lb ub s) (homit : s.omit_value = false)
    (hrange : inRangeUser lb ub user_key = true) :
    DefaultInv dcf lb ub (s.reverse_get rsb user_key ts).2.2 := by
  unfold reverse_get
  split
  · exact hinv
  · split
    · rename_i lv met s1 heq
      have h1 : DefaultInv dcf lb ub s1 := by
        have h0 := reverse_get_phase_a_sameDefault user_key ts rsb s
        rw [heq] at h0
        exact hinv.of_sameDefault h0
      have homit1 : s1.omit_value = false := by
        have h0 := reverse_get_phase_a_shape user_key ts rsb s
        rw [heq] at h0
        rw [h0.omit_value]
        exact homit
      exact handle_last_version_inv dcf lb ub s1 lv user_key h1 homit1 hrange
    · rename_i lv lc s1 heq
      have h1 : DefaultInv dcf lb ub s1 := by
        have h0 := reverse_get_phase_a_sameDefault user_key ts rsb s
        rw [heq] at h0
        exact hinv.of_sameDefault h0
      have homit1 : s1.omit_value = false := by
        have h0 := reverse_get_phase_a_shape user_key ts rsb s
        rw [heq] at h0
        rw [h0.omit_value]
        exact homit
      dsimp only
      split
      · exact handle_last_version_inv dcf lb ub s1 lv user_key h1 homit1 hrange
      · split
        · split
          · exact h1.of_sameDefault (writeInternalSeek_sameDefault s1 (user_key, ts))
          · exact reverse_get_phase_b_inv dcf lb ub user_key lc lv hrange _ _
              (h1.of_sameDefault (writeInternalSeek_sameDefault s1 (user_key, ts)))
              homit1
        · exact h1

end BackwardScanner

theorem bool_and_true {a b : Bool} (h : (a && b) = true) : a = true ∧ b = true := by
  rw [Bool.and_eq_true] at h
  exact h

theorem bool_and_intro {a b : Bool} (h1 : a = true) (h2 : b = true) : (a && b) = true := by
  rw [Bool.and_eq_true]
  exact ⟨h1, h2⟩

theorem compositeLt_cases {a b : UserKey × Ts} (h : compositeLt a b = true) :
    keyLt a.1 b.1 = true ∨ (a.1 = b.1 ∧ b.2 < a.2) := by
  unfold compositeLt at h
  rcases Bool.or_eq_true_iff.1 h with h1 | h2
  · exact Or.inl h1
  · rcases bool_and_true h2 with ⟨hk, hts⟩
    exact Or.inr ⟨eq_of_beq hk, of_decide_eq_true hts⟩

theorem keyLt_ne {a b : List Nat} (h : keyLt a b = true) : a ≠ b := by
  intro he
  subst he
  rw [keyLt_irrefl] at h
  cases h

/-- Along the physically sorted write CF, user keys never decrease. -/
theorem WriteSorted.key_le {L : List ((UserKey × Ts) × Write)} (hs : WriteSorted L)
    {i j : Nat} (hij : i ≤ j) (hj : j < L.length) :
    keyLt (L.get ⟨j, hj⟩).1.1 (L.get ⟨i, Nat.lt_of_le_of_lt hij hj⟩).1.1 = false := by
  rcases Nat.lt_or_ge i j with hlt | hge
  · exact compositeLt_userKey_not_lt (BackwardScanner.WriteSorted.get_lt hs hlt hj)
  · have heq : i = j := Nat.le_antisymm hij hge
    subst heq
    exact keyLt_irrefl _

/-- Two entries of the same user key in the sorted write CF have strictly
descending commit timestamps along physical order. -/
theorem WriteSorted.commit_lt {L : List ((UserKey × Ts) × Write)} (hs : WriteSorted L)
    {i j : Nat} (hij : i < j) (hj : j < L.length)
    (hk : (L.get ⟨i, Nat.lt_trans hij hj⟩).1.1 = (L.get ⟨j, hj⟩).1.1) :
    (L.get ⟨j, hj⟩).1.2 < (L.get ⟨i, Nat.lt_trans hij hj⟩).1.2 := by
  have h := BackwardScanner.WriteSorted.get_lt hs hij hj
  rcases compositeLt_cases h with h1 | h2
  · rw [hk, keyLt_irrefl] at h1
    cases h1
  · exact h2.2

/-- An entry whose user key is strictly below another entry's user key comes
strictly earlier in the sorted write CF. -/
theorem WriteSorted.index_lt {L : List ((UserKey × Ts) × Write)} (hs : WriteSorted L)
    {i j : Nat} (hi : i < L.length) (hj : j < L.length)
    (h : keyLt (L.get ⟨i, hi⟩).1.1 (L.get ⟨j, hj⟩).1.1 = true) : i < j := by
  by_contra hcon
  push_neg at hcon
  have h2 : keyLt (L.get ⟨i, hi⟩).1.1 (L.get ⟨j, hj⟩).1.1 = false :=
    WriteSorted.key_le hs hcon hi
  rw [h] at h2
  cases h2

theorem LockSorted.key_lt {L : List (UserKey × LockRecord)} (hs : LockSorted L)
    {i j : Nat} (hij : i < j) (hj : j < L.length) :
    keyLt (L.get ⟨i, Nat.lt_trans hij hj⟩).1 (L.get ⟨j, hj⟩).1 = true :=
  List.pairwise_iff_get.1 hs.pairwise_lock ⟨i, Nat.lt_trans hij hj⟩ ⟨j, hj⟩ hij

/-- The lock CF holds at most one record per user key. -/
theorem LockSorted.value_unique {L : List (UserKey × LockRecord)} (hs : LockSorted L)
    {k : UserKey} {l l' : LockRecord} (h : (k, l) ∈ L) (h' : (k, l') ∈ L) : l = l' := by
  obtain ⟨i, hget⟩ := List.mem_iff_get.1 h
  obtain ⟨j, hget'⟩ := List.mem_iff_get.1 h'
  rcases Nat.lt_trichotomy i.1 j.1 with hlt | heq | hgt
  · exfalso
    have hp := List.pairwise_iff_get.1 hs.pairwise_lock i j hlt
    rw [hget, hget'] at hp
    rw [keyLt_irrefl] at hp
    cases hp
  · have hij : i = j := Fin.ext heq
    subst hij
    have := hget.symm.trans hget'
    exact (Prod.mk.injEq _ _ _ _ ▸ this).2
  · exfalso
    have hp := List.pairwise_iff_get.1 hs.pairwise_lock j i hgt
    rw [hget, hget'] at hp
    rw [keyLt_irrefl] at hp
    cases hp

theorem find?_drop_of_prefix_false {α : Type} (p : α → Bool) :
    ∀ (l : List α) (j : Nat),
    (∀ i, ∀ hi : i < l.length, i < j → p (l.get ⟨i, hi⟩) = false) →
    l.find? p = (l.drop j).find? p := by
  intro l
  induction l with
  | nil =>
    intro j _
    rw [List.drop_nil]
  | cons x xs ih =>
    intro j h
    rcases j with _ | m
    · rfl
    · have hx : p x = false := h 0 (Nat.succ_pos _) (Nat.succ_pos m)
      rw [List.find?_cons_of_neg _ (by rw [hx]; exact Bool.false_ne_true)]
      show xs.find? p = (xs.drop m).find? p
      exact ih m (fun i hi him => h (i + 1) (Nat.succ_lt_succ hi) (Nat.succ_lt_succ him))

theorem find?_eq_none_of_all_false {α : Type} (p : α → Bool) (l : List α)
    (h : ∀ i, ∀ hi : i < l.length, p (l.get ⟨i, hi⟩) = false) : l.find? p = none := by
  rw [List.find?_eq_none]
  intro x hx hp
  obtain ⟨n, hn, he⟩ := List.mem_iff_getElem.1 hx
  have h0 := h n hn
  rw [List.get_eq_getElem] at h0
  rw [he] at h0
  rw [hp] at h0
  cases h0

theorem pdPred_iff (k : UserKey) (ts : Ts) (e : (UserKey × Ts) × Write) :
    pdPred k ts e = true ↔
      e.1.1 = k ∧ e.1.2 ≤ ts ∧
      (e.2.write_type = WriteType.Put ∨ e.2.write_type = WriteType.Delete) := by
  unfold pdPred
  constructor
  · intro h
    rcases bool_and_true h with ⟨h12, h3⟩
    rcases bool_and_true h12 with ⟨h1, h2⟩
    refine ⟨eq_of_beq h1, of_decide_eq_true h2, ?_⟩
    rcases Bool.or_eq_true_iff.1 h3 with h4 | h4
    · exact Or.inl (eq_of_beq h4)
    · exact Or.inr (eq_of_beq h4)
  · rintro ⟨h1, h2, h3⟩
    refine bool_and_intro (bool_and_intro (beq_iff_eq.2 h1) (decide_eq_true h2)) ?_
    rcases h3 with h4 | h4
    · exact Bool.or_eq_true_iff.2 (Or.inl (beq_iff_eq.2 h4))
    · exact Bool.or_eq_true_iff.2 (Or.inr (beq_iff_eq.2 h4))

theorem pdPred_false_of_key_ne {k : UserKey} {ts : Ts} {e : (UserKey × Ts) × Write}
    (h : e.1.1 ≠ k) : pdPred k ts e = false := by
  rcases hb : pdPred k ts e
  · rfl
  · exact absurd ((pdPred_iff k ts e).1 hb).1 h

theorem pdPred_false_of_ts_lt {k : UserKey} {ts : Ts} {e : (UserKey × Ts) × Write}
    (h : ts < e.1.2) : pdPred k ts e = false := by
  rcases hb : pdPred k ts e
  · rfl
  · have h2 := ((pdPred_iff k ts e).1 hb).2.1
    exact absurd h2 (Nat.not_le.mpr h)

theorem pdPred_false_of_not_pd {k : UserKey} {ts : Ts} {e : (UserKey × Ts) × Write}
    (h : ¬ (e.2.write_type = WriteType.Put ∨ e.2.write_type = WriteType.Delete)) :
    pdPred k ts e = false := by
  rcases hb : pdPred k ts e
  · rfl
  · exact absurd ((pdPred_iff k ts e).1 hb).2.2 h

theorem newestPD_eq_drop {L : List ((UserKey × Ts) × Write)} {k : UserKey} {ts : Ts}
    (j : Nat)
    (h : ∀ i, ∀ hi : i < L.length, i < j → pdPred k ts (L.get ⟨i, hi⟩) = false) :
    newestPD L k ts = ((L.drop j).find? (pdPred k ts)).map (fun e => e.2) := by
  unfold newestPD
  rw [find?_drop_of_prefix_false _ L j h]

theorem newestPD_none_of_no_key {L : List ((UserKey × Ts) × Write)} {k : UserKey}
    {ts : Ts} (h : ∀ e ∈ L, e.1.1 ≠ k) : newestPD L k ts = none := by
  unfold newestPD
  rw [List.find?_eq_none.2 (fun e he hp => (h e he) (((pdPred_iff k ts e).1 hp).1))]
  rfl

theorem newestPD_mem {L : List ((UserKey × Ts) × Write)} {k : UserKey} {ts : Ts}
    {w : Write} (h : newestPD L k ts = some w) :
    ∃ e ∈ L, e.2 = w ∧ e.1.1 = k ∧ e.1.2 ≤ ts ∧
      (w.write_type = WriteType.Put ∨ w.write_type = WriteType.Delete) := by
  unfold newestPD at h
  rcases hf : L.find? (pdPred k ts) with _ | e
  · rw [hf] at h
    cases h
  · rw [hf] at h
    have he : e.2 = w := Option.some.inj h
    have hmem := List.mem_of_find?_eq_some hf
    have hp := List.find?_some hf
    rcases (pdPred_iff k ts e).1 hp with ⟨h1, h2, h3⟩
    exact ⟨e, hmem, he, h1, h2, he ▸ h3⟩

theorem goodLV_find (L : List ((UserKey × Ts) × Write)) (k : UserKey) (ts : Ts) :
    GoodLV ((L.find? (pdPred k ts)).map (fun e => e.2)) := by
  rcases hf : L.find? (pdPred k ts) with _ | e
  · exact trivial
  · have hp := List.find?_some hf
    exact ((pdPred_iff k ts e).1 hp).2.2

theorem specAnswer_ok_some_iff (dcf : List ((UserKey × Ts) × Value)) (k : UserKey)
    (L : List ((UserKey × Ts) × Write)) (ts : Ts) (v : Value) :
    specAnswer dcf k L ts = .ok (some v) ↔
      ∃ w, newestPD L k ts = some w ∧ w.write_type = WriteType.Put ∧
        specValue dcf k w = some v := by
  unfold specAnswer
  rcases hn : newestPD L k ts with _ | w
  · constructor
    · intro h
      simp at h
    · rintro ⟨w, hw, _⟩
      cases hw
  · dsimp only
    rcases hput : (w.write_type == WriteType.Put) with _ | _
    · rw [if_neg Bool.false_ne_true]
      constructor
      · intro h
        simp at h
      · rintro ⟨w', hw', hput', _⟩
        have hww' : w = w' := Option.some.inj hw'
        rw [← hww'] at hput'
        rw [hput'] at hput
        simp at hput
    · rw [if_pos rfl]
      rcases hv : specValue dcf k w with _ | v0
      · constructor
        · intro h
          simp at h
        · rintro ⟨w', hw', _, hv'⟩
          have hww' : w = w' := Option.some.inj hw'
          rw [← hww', hv] at hv'
          cases hv'
      · constructor
        · intro h
          have hvv : v0 = v := by simpa using h
          exact ⟨w, rfl, eq_of_beq hput, hvv ▸ hv⟩
        · rintro ⟨w', hw', _, hv'⟩
          have hww' : w = w' := Option.some.inj hw'
          rw [← hww', hv] at hv'
          rw [Option.some.inj hv']

theorem LockClear_filter_iff (cl : LockRecord → Ts → CheckLockResult)
    (lb ub : Option UserKey) (locks : List (UserKey × LockRecord)) (k : UserKey)
    (ts : Ts) (hk : inRangeUser lb ub k = true) :
    LockClear cl (locks.filter (fun e => inRangeUser lb ub e.1)) k ts ↔
      LockClear cl locks k ts := by
  unfold LockClear
  constructor
  · intro h l hm
    exact h l (List.mem_filter.2 ⟨hm, hk⟩)
  · intro h l hm
    exact h l (List.mem_filter.1 hm).1

theorem newestPD_filter (lb ub : Option UserKey) (L : List ((UserKey × Ts) × Write))
    (k : UserKey) (ts : Ts) (hk : inRangeUser lb ub k = true) :
    newestPD (L.filter (fun e => inRangeUser lb ub e.1.1)) k ts = newestPD L k ts := by
  unfold newestPD
  rw [find?_filter_of_imp _ _
    (fun e hp => by rw [((pdPred_iff k ts e).1 hp).1]; exact hk) L]

theorem inRangeUser_upper {lb : Option UserKey} {u k : UserKey}
    (h : inRangeUser lb (some u) k = true) : keyLt k u = true := by
  unfold inRangeUser at h
  exact (bool_and_true h).2

theorem inRangeUser_lower {ub : Option UserKey} {l0 k : UserKey}
    (h : inRangeUser (some l0) ub k = true) : keyLt k l0 = false := by
  unfold inRangeUser at h
  have h1 := (bool_and_true h).1
  have h2 : (!keyLt k l0) = true := h1
  rcases hb : keyLt k l0
  · rfl
  · rw [hb] at h2
    cases h2

theorem scanMeasure_le (s : BackwardScanner) (hww : s.write_cursor.WFpos)
    (hwl : s.lock_cursor.WFpos) :
    scanMeasure s ≤ s.lock_cursor.entries.length + s.write_cursor.entries.length := by
  unfold scanMeasure Cursor.cursorMeasure
  rcases hw : s.write_cursor.pos with _ | p <;> rcases hl : s.lock_cursor.pos with _ | q <;>
    dsimp only
  · omega
  · have := hwl q hl
    omega
  · have := hww p hw
    omega
  · have h1 := hww p hw
    have h2 := hwl q hl
    omega

theorem keyLt_probe_dc {u : UserKey} {a b : (UserKey × Ts) × Write}
    (hr : compositeLt a.1 b.1 = true) (hp : keyLt b.1.1 u = true) :
    keyLt a.1.1 u = true := by
  rcases compositeLt_cases hr with h1 | h2
  · exact keyLt_trans h1 hp
  · rw [h2.1]
    exact hp

theorem get_of_eq {α : Type} {L1 L2 : List α} (h : L1 = L2) {n : Nat}
    (h1 : n < L1.length) (h2 : n < L2.length) : L1.get ⟨n, h1⟩ = L2.get ⟨n, h2⟩ := by
  subst h
  rfl

theorem get_drop {α : Type} (L : List α) (n i : Nat) (hi : i < (L.drop n).length)
    (hni : n + i < L.length) : (L.drop n).get ⟨i, hi⟩ = L.get ⟨n + i, hni⟩ := by
  rw [List.get_eq_getElem, List.get_eq_getElem]
  exact (List.getElem_drop' L hni).symm

theorem drop_eq_get_cons {α : Type} {n : Nat} {L : List α} (h : n < L.length) :
    L.drop n = L.get ⟨n, h⟩ :: L.drop (n + 1) := by
  rw [List.drop_eq_getElem_cons h, List.get_eq_getElem]

namespace Cursor

theorem currentValue_eq_get {κ α : Type} [Inhabited κ] [Inhabited α] (c : Cursor κ α)
    {p : Nat} (hp : c.pos = some p) (hlt : p < c.entries.length) :
    c.currentValue = (c.entries.get ⟨p, hlt⟩).2 := by
  unfold currentValue
  rw [current_eq_get c hp hlt]

end Cursor

/-- Past the last entry of the block of user key K, no entry carries K
again: the block ends for good at its last version. -/
theorem beyond_block_key_ne {L : List ((UserKey × Ts) × Write)} {K : UserKey}
    (hsort : WriteSorted L) {p : Nat} (hp : p < L.length)
    (hpK : (L.get ⟨p, hp⟩).1.1 = K)
    (hbe : ∀ hq : p + 1 < L.length, (L.get ⟨p + 1, hq⟩).1.1 ≠ K) :
    ∀ i, ∀ hi : i < L.length, p < i → (L.get ⟨i, hi⟩).1.1 ≠ K := by
  intro i hi hpi
  have hp1 : p + 1 < L.length := Nat.lt_of_le_of_lt hpi hi
  have hne1 : (L.get ⟨p + 1, hp1⟩).1.1 ≠ K := hbe hp1
  have h1 : keyLt (L.get ⟨p + 1, hp1⟩).1.1 K = false := by
    have hc := BackwardScanner.WriteSorted.get_lt hsort (Nat.lt_succ_self p) hp1
    have h0 := compositeLt_userKey_not_lt hc
    rw [hpK] at h0
    exact h0
  have h2 : keyLt K (L.get ⟨p + 1, hp1⟩).1.1 = true :=
    keyLt_of_ne_of_not_lt (Ne.symm hne1) h1
  rcases Nat.lt_or_ge (p + 1) i with hlt | hge
  · intro hiK
    have hc := BackwardScanner.WriteSorted.get_lt hsort hlt hi
    have h3 := compositeLt_userKey_not_lt hc
    rw [hiK] at h3
    rw [h2] at h3
    cases h3
  · have hieq : i = p + 1 := by omega
    subst hieq
    exact hne1

namespace BackwardScanner

/-- The last_version recorded by the continue case of the phase A iteration
body. -/
theorem phase_a_check_inr_lv (user_key : UserKey) (ts : Ts) (lv : Option Write)
    (s : BackwardScanner) (lv1 : Option Write) (lc1 : Ts) (s2 : BackwardScanner)
    (h : phase_a_check user_key ts lv s = .inr (lv1, lc1, s2)) :
    lv1 = match s.write_cursor.currentValue.write_type with
          | .Put => some s.write_cursor.currentValue
          | .Delete => some s.write_cursor.currentValue
          | .Lock => lv
          | .Rollback => lv := by
  unfold phase_a_check at h
  dsimp only at h
  split at h
  · cases h
  · split at h
    · cases h
    · cases h
      rfl

/-- The result of handle_last_version on a Put or Delete accumulator, read
against the spec side value function. -/
theorem handle_last_version_value (dcf : List ((UserKey × Ts) × Value))
    (lb ub : Option UserKey) (s : BackwardScanner) (k : UserKey) (lv : Option Write)
    (hinv : DefaultInv dcf lb ub s) (homit : s.omit_value = false)
    (hrange : inRangeUser lb ub k = true) (hgood : GoodLV lv) :
    (s.handle_last_version lv k).1
      = match lv with
        | none => .ok none
        | some w =>
          if w.write_type == WriteType.Put then
            match specValue dcf k w with
            | some v => .ok (some v)
            | none => .error .ValueNotFound
          else .ok none := by
  unfold handle_last_version
  rcases lv with _ | w
  · rfl
  · rcases w with ⟨wt, sts, sv⟩
    rcases wt <;> dsimp only
    · have hr := (reverse_load_value dcf lb ub s ⟨.Put, sts, sv⟩ k hinv homit hrange).1
      rw [hr]
      rcases hv : specValue dcf k ⟨WriteType.Put, sts, sv⟩ with _ | v0 <;> rfl
    · rfl
    · rcases hgood with h | h <;> cases h
    · rcases hgood with h | h <;> cases h

/-- Value analysis of the stepping iterations of phase A, entered at index j
of the sorted write CF with the entry at j a processed version of the current
user key (commit timestamp at most ts, recorded as last_checked_commit_ts),
and the accumulated last_version equal to the first record from index j on
that satisfies the newestPD search predicate.  Early returns determine
newestPD exactly and place the cursor as described; fall through
re-establishes the invariant at the index the budget ran out at. -/
theorem phase_a_loop_value (K : UserKey) (ts : Ts) (L : List ((UserKey × Ts) × Write))
    (hsort : WriteSorted L) (n : Nat) :
    ∀ (lv : Option Write) (lc : Ts) (s : BackwardScanner) (j : Nat) (hj : j < L.length),
    s.write_cursor.entries = L → s.write_cursor.pos = some j →
    (L.get ⟨j, hj⟩).1.1 = K → (L.get ⟨j, hj⟩).1.2 ≤ ts → (L.get ⟨j, hj⟩).1.2 = lc →
    lv = ((L.drop j).find? (pdPred K ts)).map (fun e => e.2) →
    (∀ lv2 met s2, reverse_get_phase_a_loop K ts n lv lc s = (.Ret lv2 met, s2) →
       newestPD L K ts = lv2 ∧
       (met = true → ∃ j2, ∃ hj2 : j2 + 1 < L.length, s2.write_cursor.pos = some j2 ∧
          (L.get ⟨j2, Nat.lt_of_succ_lt hj2⟩).1.1 ≠ K ∧ (L.get ⟨j2 + 1, hj2⟩).1.1 = K) ∧
       (met = false →
          (s2.write_cursor.pos = none ∧ ∃ h0 : 0 < L.length, (L.get ⟨0, h0⟩).1.1 = K) ∨
          ∃ j2, ∃ hj2 : j2 < L.length, s2.write_cursor.pos = some j2 ∧
            (L.get ⟨j2, hj2⟩).1.1 = K)) ∧
    (∀ lv2 lc2 s2, reverse_get_phase_a_loop K ts n lv lc s = (.Cont lv2 lc2, s2) →
       ∃ j2, ∃ hj2 : j2 < L.length, s2.write_cursor.pos = some j2 ∧
         (L.get ⟨j2, hj2⟩).1.1 = K ∧ (L.get ⟨j2, hj2⟩).1.2 ≤ ts ∧
         (L.get ⟨j2, hj2⟩).1.2 = lc2 ∧
         lv2 = ((L.drop j2).find? (pdPred K ts)).map (fun e => e.2)) := by
  induction n with
  | zero =>
    intro lv lc s j hj hent hpos hkey hts hlc hlv
    constructor
    · intro lv2 met s2 h
      unfold reverse_get_phase_a_loop at h
      have hfst := congrArg Prod.fst h
      simp at hfst
    · intro lv2 lc2 s2 h
      unfold reverse_get_phase_a_loop at h
      have hfst := congrArg Prod.fst h
      have hsnd := congrArg Prod.snd h
      simp at hfst
      dsimp only at hsnd
      rcases hfst with ⟨h1, h2⟩
      subst hsnd
      exact ⟨j, hj, hpos, hkey, hts, h2 ▸ hlc, h1 ▸ hlv⟩
  | succ m ih =>
    intro lv lc s j hj hent hpos hkey hts hlc hlv
    have hstep : reverse_get_phase_a_loop K ts (m + 1) lv lc s
        = (if (!s.writePrev.write_cursor.valid) = true
           then (PhaseARes.Ret lv false, s.writePrev)
           else match phase_a_check K ts lv s.writePrev with
             | Sum.inl out => out
             | Sum.inr (a, b, c) => reverse_get_phase_a_loop K ts m a b c) := rfl
    have hent1 : s.writePrev.write_cursor.entries = L := by
      rw [(writePrev_shape s).write_entries]
      exact hent
    rcases j with _ | q
    · have hnone := writePrev_pos_zero s hpos
      have hval : s.writePrev.write_cursor.valid = false := by
        simp [Cursor.valid, hnone]
      have heq : reverse_get_phase_a_loop K ts (m + 1) lv lc s
          = (.Ret lv false, s.writePrev) := by
        rw [hstep, if_pos (by simp [hval])]
      constructor
      · intro lv2 met s2 h
        rw [heq] at h
        have hfst := congrArg Prod.fst h
        have hsnd := congrArg Prod.snd h
        simp at hfst
        dsimp only at hsnd
        rcases hfst with ⟨h1, h2⟩
        subst hsnd
        refine ⟨?_, ?_, ?_⟩
        · rw [← h1, hlv]
          unfold newestPD
          rw [List.drop_zero]
        · intro hmet
          rw [hmet] at h2
          cases h2
        · intro _
          exact Or.inl ⟨hnone, hj, hkey⟩
      · intro lv2 lc2 s2 h
        rw [heq] at h
        have hfst := congrArg Prod.fst h
        simp at hfst
    · have hq : q < L.length := Nat.lt_of_succ_lt hj
      have hposq := writePrev_pos_succ s q hpos
      have hval : s.writePrev.write_cursor.valid = true := by
        simp [Cursor.valid, hposq]
      have hq' : q < s.writePrev.write_cursor.entries.length := by
        rw [hent1]
        exact hq
      have hckey : s.writePrev.write_cursor.currentKey = (L.get ⟨q, hq⟩).1 := by
        rw [Cursor.currentKey_eq_get s.writePrev.write_cursor hposq hq']
        exact congrArg Prod.fst (get_of_eq hent1 hq' hq)
      have hcval : s.writePrev.write_cursor.currentValue = (L.get ⟨q, hq⟩).2 := by
        rw [Cursor.currentValue_eq_get s.writePrev.write_cursor hposq hq']
        exact congrArg Prod.snd (get_of_eq hent1 hq' hq)
      have hcomp := WriteSorted.get_lt hsort (Nat.lt_succ_self q) hj
      rcases hchk : phase_a_check K ts lv s.writePrev with out | ⟨lv1, lc1, s2'⟩
      · rcases phase_a_check_inl_cases K ts lv s.writePrev out hchk with
          ⟨hout, hne⟩ | ⟨hout, hKp, htsp⟩
        · subst hout
          have heq : reverse_get_phase_a_loop K ts (m + 1) lv lc s
              = (.Ret lv true, s.writePrev) := by
            rw [hstep, if_neg (by simp [hval]), hchk]
          have hneq : (L.get ⟨q, hq⟩).1.1 ≠ K := by
            rw [congrArg Prod.fst hckey] at hne
            exact hne
          have hprefix : ∀ i, ∀ hi : i < L.length, i < q + 1 →
              pdPred K ts (L.get ⟨i, hi⟩) = false := by
            intro i hi hiq
            apply pdPred_false_of_key_ne
            rcases Nat.lt_or_ge i q with hiq2 | hge
            · intro hiK
              have hci := WriteSorted.get_lt hsort hiq2 hq
              have h3 := compositeLt_userKey_not_lt hci
              rw [hiK] at h3
              have h4 := compositeLt_userKey_not_lt hcomp
              rw [hkey] at h4
              have h5 := keyLt_of_ne_of_not_lt hneq h4
              rw [h5] at h3
              cases h3
            · have hiq3 : i = q := by omega
              subst hiq3
              exact hneq
          constructor
          · intro lv2 met s2 h
            rw [heq] at h
            have hfst := congrArg Prod.fst h
            have hsnd := congrArg Prod.snd h
            simp at hfst
            dsimp only at hsnd
            rcases hfst with ⟨h1, h2⟩
            subst hsnd
            refine ⟨?_, ?_, ?_⟩
            · rw [← h1, hlv]
              exact newestPD_eq_drop (q + 1) hprefix
            · intro _
              exact ⟨q, hj, hposq, hneq, hkey⟩
            · intro hmet
              rw [hmet] at h2
              cases h2
          · intro lv2 lc2 s2 h
            rw [heq] at h
            have hfst := congrArg Prod.fst h
            simp at hfst
        · subst hout
          have heq : reverse_get_phase_a_loop K ts (m + 1) lv lc s
              = (.Ret lv false, s.writePrev) := by
            rw [hstep, if_neg (by simp [hval]), hchk]
          have hKq : (L.get ⟨q, hq⟩).1.1 = K := (congrArg Prod.fst hckey).symm.trans hKp
          have htsq : ts < (L.get ⟨q, hq⟩).1.2 := by
            rw [← congrArg Prod.snd hckey]
            exact htsp
          have hprefix : ∀ i, ∀ hi : i < L.length, i < q + 1 →
              pdPred K ts (L.get ⟨i, hi⟩) = false := by
            intro i hi hiq
            rcases Nat.lt_or_ge i q with hiq2 | hge
            · by_cases hiK : (L.get ⟨i, hi⟩).1.1 = K
              · exact pdPred_false_of_ts_lt
                  (Nat.lt_trans htsq (WriteSorted.commit_lt hsort hiq2 hq
                    (by rw [hiK, hKq])))
              · exact pdPred_false_of_key_ne hiK
            · have hiq3 : i = q := by omega
              subst hiq3
              exact pdPred_false_of_ts_lt htsq
          constructor
          · intro lv2 met s2 h
            rw [heq] at h
            have hfst := congrArg Prod.fst h
            have hsnd := congrArg Prod.snd h
            simp at hfst
            dsimp only at hsnd
            rcases hfst with ⟨h1, h2⟩
            subst hsnd
            refine ⟨?_, ?_, ?_⟩
            · rw [← h1, hlv]
              exact newestPD_eq_drop (q + 1) hprefix
            · intro hmet
              rw [hmet] at h2
              cases h2
            · intro _
              exact Or.inr ⟨q, hq, hposq, hKq⟩
          · intro lv2 lc2 s2 h
            rw [heq] at h
            have hfst := congrArg Prod.fst h
            simp at hfst
      · rcases phase_a_check_inr_cases K ts lv s.writePrev lv1 lc1 s2' hchk with
          ⟨hs2, hlc1, hKp, hts1⟩
        subst hs2
        have heq : reverse_get_phase_a_loop K ts (m + 1) lv lc s
            = reverse_get_phase_a_loop K ts m lv1 lc1 s.writePrev.incWriteProcessed := by
          rw [hstep, if_neg (by simp [hval]), hchk]
        have hKq : (L.get ⟨q, hq⟩).1.1 = K := (congrArg Prod.fst hckey).symm.trans hKp
        have hlcq : (L.get ⟨q, hq⟩).1.2 = lc1 :=
          (congrArg Prod.snd hckey).symm.trans hlc1.symm
        have htsq : (L.get ⟨q, hq⟩).1.2 ≤ ts := by
          rw [hlcq]
          exact Nat.le_of_not_lt hts1
        have hlvst := phase_a_check_inr_lv K ts lv s.writePrev lv1 lc1 _ hchk
        rw [hcval] at hlvst
        have hdropq : L.drop q = L.get ⟨q, hq⟩ :: L.drop (q + 1) := drop_eq_get_cons hq
        have hlv1 : lv1 = ((L.drop q).find? (pdPred K ts)).map (fun e => e.2) := by
          rcases hwt : (L.get ⟨q, hq⟩).2.write_type
          · rw [hwt] at hlvst
            dsimp only at hlvst
            have hpd : pdPred K ts (L.get ⟨q, hq⟩) = true :=
              (pdPred_iff K ts _).2 ⟨hKq, htsq, Or.inl hwt⟩
            rw [hdropq, List.find?_cons_of_pos _ hpd]
            exact hlvst
          · rw [hwt] at hlvst
            dsimp only at hlvst
            have hpd : pdPred K ts (L.get ⟨q, hq⟩) = true :=
              (pdPred_iff K ts _).2 ⟨hKq, htsq, Or.inr hwt⟩
            rw [hdropq, List.find?_cons_of_pos _ hpd]
            exact hlvst
          · rw [hwt] at hlvst
            dsimp only at hlvst
            have hpd : pdPred K ts (L.get ⟨q, hq⟩) = false :=
              pdPred_false_of_not_pd (by rw [hwt]; rintro (h | h) <;> cases h)
            rw [hlvst, hdropq,
              List.find?_cons_of_neg _ (by rw [hpd]; exact Bool.false_ne_true)]
            exact hlv
          · rw [hwt] at hlvst
            dsimp only at hlvst
            have hpd : pdPred K ts (L.get ⟨q, hq⟩) = false :=
              pdPred_false_of_not_pd (by rw [hwt]; rintro (h | h) <;> cases h)
            rw [hlvst, hdropq,
              List.find?_cons_of_neg _ (by rw [hpd]; exact Bool.false_ne_true)]
            exact hlv
        have hrec := ih lv1 lc1 s.writePrev.incWriteProcessed q hq
          (by rw [incWriteProcessed_write_cursor]; exact hent1)
          (by rw [incWriteProcessed_write_cursor]; exact hposq)
          hKq htsq hlcq hlv1
        constructor
        · intro lv2 met s2 h
          rw [heq] at h
          exact hrec.1 lv2 met s2 h
        · intro lv2 lc2 s2 h
          rw [heq] at h
          exact hrec.2 lv2 lc2 s2 h

/-- Value analysis of phase A as a whole, entered with the write cursor on
the last entry of the block of the current user key (the version with the
smallest commit timestamp) and a positive step budget. -/
theorem phase_a_value (K : UserKey) (ts : Ts) (L : List ((UserKey × Ts) × Write))
    (hsort : WriteSorted L) (rsb : Nat) (hrsb : 1 ≤ rsb) (s : BackwardScanner)
    (p : Nat) (hp : p < L.length)
    (hent : s.write_cursor.entries = L) (hpos : s.write_cursor.pos = some p)
    (hpK : (L.get ⟨p, hp⟩).1.1 = K)
    (hbe : ∀ hq : p + 1 < L.length, (L.get ⟨p + 1, hq⟩).1.1 ≠ K) :
    (∀ lv2 met s2, reverse_get_phase_a K ts rsb s = (.Ret lv2 met, s2) →
       newestPD L K ts = lv2 ∧
       (met = true → ∃ j2, ∃ hj2 : j2 + 1 < L.length, s2.write_cursor.pos = some j2 ∧
          (L.get ⟨j2, Nat.lt_of_succ_lt hj2⟩).1.1 ≠ K ∧ (L.get ⟨j2 + 1, hj2⟩).1.1 = K) ∧
       (met = false →
          (s2.write_cursor.pos = none ∧ ∃ h0 : 0 < L.length, (L.get ⟨0, h0⟩).1.1 = K) ∨
          ∃ j2, ∃ hj2 : j2 < L.length, s2.write_cursor.pos = some j2 ∧
            (L.get ⟨j2, hj2⟩).1.1 = K)) ∧
    (∀ lv2 lc2 s2, reverse_get_phase_a K ts rsb s = (.Cont lv2 lc2, s2) →
       ∃ j2, ∃ hj2 : j2 < L.length, s2.write_cursor.pos = some j2 ∧
         (L.get ⟨j2, hj2⟩).1.1 = K ∧ (L.get ⟨j2, hj2⟩).1.2 ≤ ts ∧
         (L.get ⟨j2, hj2⟩).1.2 = lc2 ∧
         lv2 = ((L.drop j2).find? (pdPred K ts)).map (fun e => e.2)) := by
  rcases rsb with _ | m
  · exact absurd hrsb (by omega)
  · have hp' : p < s.write_cursor.entries.length := by
      rw [hent]
      exact hp
    have hckey : s.write_cursor.currentKey = (L.get ⟨p, hp⟩).1 := by
      rw [Cursor.currentKey_eq_get s.write_cursor hpos hp']
      exact congrArg Prod.fst (get_of_eq hent hp' hp)
    have hcval : s.write_cursor.currentValue = (L.get ⟨p, hp⟩).2 := by
      rw [Cursor.currentValue_eq_get s.write_cursor hpos hp']
      exact congrArg Prod.snd (get_of_eq hent hp' hp)
    have hbeyond := beyond_block_key_ne hsort hp hpK hbe
    rcases hchk : phase_a_check K ts none s with out | ⟨lv1, lc1, s2'⟩
    · rcases phase_a_check_inl_cases K ts none s out hchk with
        ⟨hout, hne⟩ | ⟨hout, hKp, htsp⟩
      · exfalso
        apply hne
        rw [congrArg Prod.fst hckey]
        exact hpK
      · subst hout
        have heq : reverse_get_phase_a K ts (m + 1) s = (.Ret none false, s) := by
          unfold reverse_get_phase_a
          rw [hchk]
        have htp : ts < (L.get ⟨p, hp⟩).1.2 := by
          rw [← congrArg Prod.snd hckey]
          exact htsp
        have hall : ∀ i, ∀ hi : i < L.length, pdPred K ts (L.get ⟨i, hi⟩) = false := by
          intro i hi
          rcases Nat.lt_trichotomy i p with hlt | heqi | hgt
          · by_cases hiK : (L.get ⟨i, hi⟩).1.1 = K
            · exact pdPred_false_of_ts_lt
                (Nat.lt_trans htp (WriteSorted.commit_lt hsort hlt hp (by rw [hiK, hpK])))
            · exact pdPred_false_of_key_ne hiK
          · subst heqi
            exact pdPred_false_of_ts_lt htp
          · exact pdPred_false_of_key_ne (hbeyond i hi hgt)
        constructor
        · intro lv2 met s2 h
          rw [heq] at h
          have hfst := congrArg Prod.fst h
          have hsnd := congrArg Prod.snd h
          simp at hfst
          dsimp only at hsnd
          rcases hfst with ⟨h1, h2⟩
          subst hsnd
          refine ⟨?_, ?_, ?_⟩
          · rw [← h1]
            unfold newestPD
            rw [find?_eq_none_of_all_false _ _ hall]
            rfl
          · intro hmet
            rw [hmet] at h2
            cases h2
          · intro _
            exact Or.inr ⟨p, hp, hpos, hpK⟩
        · intro lv2 lc2 s2 h
          rw [heq] at h
          have hfst := congrArg Prod.fst h
          simp at hfst
    · rcases phase_a_check_inr_cases K ts none s lv1 lc1 s2' hchk with
        ⟨hs2, hlc1, hKp, hts1⟩
      subst hs2
      have heq : reverse_get_phase_a K ts (m + 1) s
          = reverse_get_phase_a_loop K ts m lv1 lc1 s.incWriteProcessed := by
        unfold reverse_get_phase_a
        rw [hchk]
      have hlcp : (L.get ⟨p, hp⟩).1.2 = lc1 :=
        (congrArg Prod.snd hckey).symm.trans hlc1.symm
      have htsp2 : (L.get ⟨p, hp⟩).1.2 ≤ ts := by
        rw [hlcp]
        exact Nat.le_of_not_lt hts1
      have hlvst := phase_a_check_inr_lv K ts none s lv1 lc1 _ hchk
      rw [hcval] at hlvst
      have hdropp : L.drop p = L.get ⟨p, hp⟩ :: L.drop (p + 1) := drop_eq_get_cons hp
      have hsfx : (L.drop (p + 1)).find? (pdPred K ts) = none := by
        apply find?_eq_none_of_all_false
        intro i hi
        have hni : p + 1 + i < L.length := by
          have := List.length_drop (p + 1) L
          omega
        rw [get_drop L (p + 1) i hi hni]
        exact pdPred_false_of_key_ne (hbeyond (p + 1 + i) hni (by omega))
      have hlv1 : lv1 = ((L.drop p).find? (pdPred K ts)).map (fun e => e.2) := by
        rcases hwt : (L.get ⟨p, hp⟩).2.write_type
        · rw [hwt] at hlvst
          dsimp only at hlvst
          have hpd : pdPred K ts (L.get ⟨p, hp⟩) = true :=
            (pdPred_iff K ts _).2 ⟨hpK, htsp2, Or.inl hwt⟩
          rw [hdropp, List.find?_cons_of_pos _ hpd]
          exact hlvst
        · rw [hwt] at hlvst
          dsimp only at hlvst
          have hpd : pdPred K ts (L.get ⟨p, hp⟩) = true :=
            (pdPred_iff K ts _).2 ⟨hpK, htsp2, Or.inr hwt⟩
          rw [hdropp, List.find?_cons_of_pos _ hpd]
          exact hlvst
        · rw [hwt] at hlvst
          dsimp only at hlvst
          have hpd : pdPred K ts (L.get ⟨p, hp⟩) = false :=
            pdPred_false_of_not_pd (by rw [hwt]; rintro (h | h) <;> cases h)
          rw [hlvst, hdropp,
            List.find?_cons_of_neg _ (by rw [hpd]; exact Bool.false_ne_true), hsfx]
          rfl
        · rw [hwt] at hlvst
          dsimp only at hlvst
          have hpd : pdPred K ts (L.get ⟨p, hp⟩) = false :=
            pdPred_false_of_not_pd (by rw [hwt]; rintro (h | h) <;> cases h)
          rw [hlvst, hdropp,
            List.find?_cons_of_neg _ (by rw [hpd]; exact Bool.false_ne_true), hsfx]
          rfl
      have hrec := phase_a_loop_value K ts L hsort m lv1 lc1 s.incWriteProcessed p hp
        (by rw [incWriteProcessed_write_cursor]; exact hent)
        (by rw [incWriteProcessed_write_cursor]; exact hpos)
        hpK htsp2 hlcp hlv1
      constructor
      · intro lv2 met s2 h
        rw [heq] at h
        exact hrec.1 lv2 met s2 h
      · intro lv2 lc2 s2 h
        rw [heq] at h
        exact hrec.2 lv2 lc2 s2 h

/-- Value analysis of phase B: entered at an index i at or below the index jK
that phase A stopped at (whose entry carries the current user key and the
recorded last_checked_commit_ts), over a region [i, jK] of versions of the
current user key with commit timestamps at most ts, the walk computes exactly
the spec side answer determined by the first newestPD match from index i
on. -/
theorem phase_b_value (dcf : List ((UserKey × Ts) × Value)) (lb ub : Option UserKey)
    (K : UserKey) (ts lc : Ts) (lv : Option Write) (L : List ((UserKey × Ts) × Write))
    (hsort : WriteSorted L) (jK : Nat) (hjK : jK < L.length)
    (hKj : (L.get ⟨jK, hjK⟩).1.1 = K) (hlcj : (L.get ⟨jK, hjK⟩).1.2 = lc)
    (hlv : lv = ((L.drop jK).find? (pdPred K ts)).map (fun e => e.2))
    (hrange : inRangeUser lb ub K = true) :
    ∀ (fuel : Nat) (s : BackwardScanner) (i : Nat) (hi : i < L.length),
    s.write_cursor.entries = L → s.write_cursor.pos = some i → i ≤ jK →
    (∀ m, ∀ hm : m < L.length, i ≤ m → m ≤ jK →
      (L.get ⟨m, hm⟩).1.1 = K ∧ (L.get ⟨m, hm⟩).1.2 ≤ ts) →
    DefaultInv dcf lb ub s → s.omit_value = false →
    jK - i < fuel →
    (reverse_get_phase_b K lc lv fuel s).1
      = match ((L.drop i).find? (pdPred K ts)).map (fun e => e.2) with
        | none => Except.ok none
        | some w =>
          if w.write_type == WriteType.Put then
            match specValue dcf K w with
            | some v => .ok (some v)
            | none => .error .ValueNotFound
          else .ok none := by
  intro fuel
  induction fuel with
  | zero =>
    intro s i hi _ _ _ _ _ _ hf
    exact absurd hf (by omega)
  | succ f ih =>
    intro s i hi hent hpos hile hreg hinv homit hfuel
    have hi' : i < s.write_cursor.entries.length := by
      rw [hent]
      exact hi
    have hckey : s.write_cursor.currentKey = (L.get ⟨i, hi⟩).1 := by
      rw [Cursor.currentKey_eq_get s.write_cursor hpos hi']
      exact congrArg Prod.fst (get_of_eq hent hi' hi)
    have hcval : s.write_cursor.currentValue = (L.get ⟨i, hi⟩).2 := by
      rw [Cursor.currentValue_eq_get s.write_cursor hpos hi']
      exact congrArg Prod.snd (get_of_eq hent hi' hi)
    have hKi : (L.get ⟨i, hi⟩).1.1 = K := (hreg i hi (Nat.le_refl i) hile).1
    have htsi : (L.get ⟨i, hi⟩).1.2 ≤ ts := (hreg i hi (Nat.le_refl i) hile).2
    have hkp : s.write_cursor.currentKey.1 = K := (congrArg Prod.fst hckey).trans hKi
    have hstep : reverse_get_phase_b K lc lv (f + 1) s
        = (if s.write_cursor.currentKey.1 ≠ K then (.error .AssertionFailed, s)
           else if s.write_cursor.currentKey.2 ≤ lc then s.handle_last_version lv K
           else match s.write_cursor.currentValue.write_type with
             | .Put =>
               let r := s.incWriteProcessed.reverse_load_data_by_write
                 s.write_cursor.currentValue K
               (r.1.map some, r.2)
             | .Delete => (.ok none, s.incWriteProcessed)
             | .Lock =>
               if (!s.incWriteProcessed.writeNext.write_cursor.valid) = true
               then (.error .AssertionFailed, s.incWriteProcessed.writeNext)
               else reverse_get_phase_b K lc lv f s.incWriteProcessed.writeNext
             | .Rollback =>
               if (!s.incWriteProcessed.writeNext.write_cursor.valid) = true
               then (.error .AssertionFailed, s.incWriteProcessed.writeNext)
               else reverse_get_phase_b K lc lv f s.incWriteProcessed.writeNext) := rfl
    rw [hstep, if_neg (fun hc => hc hkp)]
    by_cases hts2 : s.write_cursor.currentKey.2 ≤ lc
    · rw [if_pos hts2]
      have hieq : i = jK := by
        rcases Nat.lt_or_ge i jK with hlt | hge
        · exfalso
          have hc : lc < (L.get ⟨i, hi⟩).1.2 := by
            have h0 := WriteSorted.commit_lt hsort hlt hjK (hKi.trans hKj.symm)
            rw [hlcj] at h0
            exact h0
          have h2 : (L.get ⟨i, hi⟩).1.2 ≤ lc := by
            rw [← congrArg Prod.snd hckey]
            exact hts2
          exact absurd h2 (Nat.not_le.mpr hc)
        · omega
      subst hieq
      have hgood : GoodLV lv := hlv ▸ goodLV_find (L.drop i) K ts
      rw [handle_last_version_value dcf lb ub s K lv hinv homit hrange hgood]
      rw [← hlv]
      rcases lv with _ | w
      · rfl
      · rfl
    · rw [if_neg hts2]
      have hilt : i < jK := by
        rcases Nat.lt_or_ge i jK with hlt | hge
        · exact hlt
        · exfalso
          have hieq : i = jK := by omega
          subst hieq
          apply hts2
          rw [congrArg Prod.snd hckey]
          exact Nat.le_of_eq hlcj
      have hdropi : L.drop i = L.get ⟨i, hi⟩ :: L.drop (i + 1) := drop_eq_get_cons hi
      rcases hwt : s.write_cursor.currentValue.write_type
      · dsimp only
        rw [hcval] at hwt
        have hpd : pdPred K ts (L.get ⟨i, hi⟩) = true :=
          (pdPred_iff K ts _).2 ⟨hKi, htsi, Or.inl hwt⟩
        have hrhs : ((L.drop i).find? (pdPred K ts)).map (fun e => e.2)
            = some (L.get ⟨i, hi⟩).2 := by
          rw [hdropi, List.find?_cons_of_pos _ hpd]
          rfl
        rw [hrhs]
        dsimp only
        rw [hwt, if_pos (by decide)]
        have hinv1 : DefaultInv dcf lb ub s.incWriteProcessed :=
          hinv.of_sameDefault (incWriteProcessed_sameDefault s)
        have homit1 : s.incWriteProcessed.omit_value = false := by
          rw [(incWriteProcessed_shape s).omit_value]
          exact homit
        have hr := (reverse_load_value dcf lb ub s.incWriteProcessed
          s.write_cursor.currentValue K hinv1 homit1 hrange).1
        rw [hr, hcval]
        rcases hsv : specValue dcf K (L.get ⟨i, hi⟩).2 with _ | v0
        · rfl
        · rfl
      · dsimp only
        rw [hcval] at hwt
        have hpd : pdPred K ts (L.get ⟨i, hi⟩) = true :=
          (pdPred_iff K ts _).2 ⟨hKi, htsi, Or.inr hwt⟩
        have hrhs : ((L.drop i).find? (pdPred K ts)).map (fun e => e.2)
            = some (L.get ⟨i, hi⟩).2 := by
          rw [hdropi, List.find?_cons_of_pos _ hpd]
          rfl
        rw [hrhs]
        dsimp only
        rw [hwt, if_neg (by decide)]
      · dsimp only
        rw [hcval] at hwt
        have hpd : pdPred K ts (L.get ⟨i, hi⟩) = false :=
          pdPred_false_of_not_pd (by rw [hwt]; rintro (h | h) <;> cases h)
        rw [hdropi, List.find?_cons_of_neg _ (by rw [hpd]; exact Bool.false_ne_true)]
        have hq1len : i + 1 < s.write_cursor.entries.length := by
          rw [hent]
          omega
        have hnext : s.incWriteProcessed.writeNext.write_cursor.pos = some (i + 1) :=
          writeNext_pos_succ s.incWriteProcessed i hpos hq1len
        have hv2 : s.incWriteProcessed.writeNext.write_cursor.valid = true := by
          simp [Cursor.valid, hnext]
        rw [if_neg (by simp [hv2])]
        have hent1 : s.incWriteProcessed.writeNext.write_cursor.entries = L := by
          rw [(writeNext_shape s.incWriteProcessed).write_entries,
            (incWriteProcessed_shape s).write_entries, hent]
        have hinv1 : DefaultInv dcf lb ub s.incWriteProcessed.writeNext :=
          hinv.of_sameDefault (SameDefault.trans_default (incWriteProcessed_sameDefault s)
            (writeNext_sameDefault s.incWriteProcessed))
        have homit1 : s.incWriteProcessed.writeNext.omit_value = false := by
          rw [(writeNext_shape s.incWriteProcessed).omit_value,
            (incWriteProcessed_shape s).omit_value]
          exact homit
        exact ih s.incWriteProcessed.writeNext (i + 1) (by omega) hent1 hnext (by omega)
          (fun m hm h1 h2 => hreg m hm (by omega) h2) hinv1 homit1 (by omega)
      · dsimp only
        rw [hcval] at hwt
        have hpd : pdPred K ts (L.get ⟨i, hi⟩) = false :=
          pdPred_false_of_not_pd (by rw [hwt]; rintro (h | h) <;> cases h)
        rw [hdropi, List.find?_cons_of_neg _ (by rw [hpd]; exact Bool.false_ne_true)]
        have hq1len : i + 1 < s.write_cursor.entries.length := by
          rw [hent]
          omega
        have hnext : s.incWriteProcessed.writeNext.write_cursor.pos = some (i + 1) :=
          writeNext_pos_succ s.incWriteProcessed i hpos hq1len
        have hv2 : s.incWriteProcessed.writeNext.write_cursor.valid = true := by
          simp [Cursor.valid, hnext]
        rw [if_neg (by simp [hv2])]
        have hent1 : s.incWriteProcessed.writeNext.write_cursor.entries = L := by
          rw [(writeNext_shape s.incWriteProcessed).write_entries,
            (incWriteProcessed_shape s).write_entries, hent]
        have hinv1 : DefaultInv dcf lb ub s.incWriteProcessed.writeNext :=
          hinv.of_sameDefault (SameDefault.trans_default (incWriteProcessed_sameDefault s)
            (writeNext_sameDefault s.incWriteProcessed))
        have homit1 : s.incWriteProcessed.writeNext.omit_value = false := by
          rw [(writeNext_shape s.incWriteProcessed).omit_value,
            (incWriteProcessed_shape s).omit_value]
          exact homit
        exact ih s.incWriteProcessed.writeNext (i + 1) (by omega) hent1 hnext (by omega)
          (fun m hm h1 h2 => hreg m hm (by omega) h2) hinv1 homit1 (by omega)

/-- Value and exit position analysis of reverse_get, called with the write
cursor on the last entry of the block of the current user key: the result is
exactly the spec side answer over the cursor's entry list, and the write
cursor ends directly below the block when met_prev_user_key is reported,
otherwise invalid with the block starting the key space, or still on a
version of the current user key. -/
theorem reverse_get_full (dcf : List ((UserKey × Ts) × Value)) (lb ub : Option UserKey)
    (s : BackwardScanner) (rsb : Nat) (K : UserKey) (ts : Ts) (p : Nat)
    (hrsb : 1 ≤ rsb) (hsort : WriteSorted s.write_cursor.entries)
    (hwf : s.write_cursor.WFpos)
    (hdinv : DefaultInv dcf lb ub s) (homit : s.omit_value = false)
    (hrange : inRangeUser lb ub K = true)
    (hp : p < s.write_cursor.entries.length)
    (hpos : s.write_cursor.pos = some p)
    (hpK : (s.write_cursor.entries.get ⟨p, hp⟩).1.1 = K)
    (hbe : ∀ hq : p + 1 < s.write_cursor.entries.length,
      (s.write_cursor.entries.get ⟨p + 1, hq⟩).1.1 ≠ K) :
    (s.reverse_get rsb K ts).1 = specAnswer dcf K s.write_cursor.entries ts ∧
    ((s.reverse_get rsb K ts).2.1 = true →
       ∃ j2, ∃ hj2 : j2 + 1 < s.write_cursor.entries.length,
         (s.reverse_get rsb K ts).2.2.write_cursor.pos = some j2 ∧
         (s.write_cursor.entries.get ⟨j2, Nat.lt_of_succ_lt hj2⟩).1.1 ≠ K ∧
         (s.write_cursor.entries.get ⟨j2 + 1, hj2⟩).1.1 = K) ∧
    ((s.reverse_get rsb K ts).2.1 = false →
       ((s.reverse_get rsb K ts).2.2.write_cursor.pos = none ∧
         ∃ h0 : 0 < s.write_cursor.entries.length,
           (s.write_cursor.entries.get ⟨0, h0⟩).1.1 = K) ∨
       ∃ j2, ∃ hj2 : j2 < s.write_cursor.entries.length,
         (s.reverse_get rsb K ts).2.2.write_cursor.pos = some j2 ∧
         (s.write_cursor.entries.get ⟨j2, hj2⟩).1.1 = K) := by
  have hvalid : s.write_cursor.valid = true := by
    simp [Cursor.valid, hpos]
  have hA := phase_a_value K ts s.write_cursor.entries hsort rsb hrsb s p hp rfl hpos
    hpK hbe
  rcases hpa : reverse_get_phase_a K ts rsb s with ⟨res, s1⟩
  have hsd1 : SameDefault s s1 := by
    have h0 := reverse_get_phase_a_sameDefault K ts rsb s
    rw [hpa] at h0
    exact h0
  have hsh1 : SameShape s s1 := by
    have h0 := reverse_get_phase_a_shape K ts rsb s
    rw [hpa] at h0
    exact h0
  have hwf1 : s1.write_cursor.WFpos := by
    have h0 := reverse_get_phase_a_keeps K ts rsb s
    rw [hpa] at h0
    exact h0.w hwf
  have hinv1 : DefaultInv dcf lb ub s1 := hdinv.of_sameDefault hsd1
  have homit1 : s1.omit_value = false := by
    rw [hsh1.omit_value]
    exact homit
  rcases res with ⟨lv, met⟩ | ⟨lv, lc⟩
  · -- phase A returned early
    have hr := hA.1 lv met s1 hpa
    have heq : s.reverse_get rsb K ts
        = ((s1.handle_last_version lv K).1, met, (s1.handle_last_version lv K).2) := by
      unfold reverse_get
      rw [if_neg (by simp [hvalid]), hpa]
    rw [heq]
    have hcur := (handle_last_version_cursors s1 lv K).1
    have hgoodN : GoodLV (newestPD s.write_cursor.entries K ts) :=
      goodLV_find s.write_cursor.entries K ts
    have hgood : GoodLV lv := hr.1 ▸ hgoodN
    refine ⟨?_, ?_, ?_⟩
    · rw [handle_last_version_value dcf lb ub s1 K lv hinv1 homit1 hrange hgood]
      unfold specAnswer
      rw [hr.1]
      rcases lv with _ | w
      · rfl
      · rfl
    · intro hmet
      obtain ⟨j2, hj2, hp2, hne2, hk2⟩ := hr.2.1 hmet
      refine ⟨j2, hj2, ?_, hne2, hk2⟩
      dsimp only
      rw [hcur]
      exact hp2
    · intro hmet
      rcases hr.2.2 hmet with ⟨hnone, h0⟩ | ⟨j2, hj2, hp2, hk2⟩
      · left
        refine ⟨?_, h0⟩
        dsimp only
        rw [hcur]
        exact hnone
      · right
        refine ⟨j2, hj2, ?_, hk2⟩
        dsimp only
        rw [hcur]
        exact hp2
  · -- phase A fell through
    obtain ⟨j2, hj2, hpos2, hK2, hts2, hlc2, hlv2⟩ := hA.2 lv lc s1 hpa
    have hlcts : lc ≤ ts := hlc2 ▸ hts2
    by_cases hlceq : lc = ts
    · have heq : s.reverse_get rsb K ts
          = ((s1.handle_last_version lv K).1, false, (s1.handle_last_version lv K).2) := by
        unfold reverse_get
        rw [if_neg (by simp [hvalid]), hpa]
        dsimp only
        rw [if_pos hlceq]
      rw [heq]
      have hcur := (handle_last_version_cursors s1 lv K).1
      have hprefix : ∀ i, ∀ hi : i < s.write_cursor.entries.length, i < j2 →
          pdPred K ts (s.write_cursor.entries.get ⟨i, hi⟩) = false := by
        intro i hi hij
        by_cases hiK : (s.write_cursor.entries.get ⟨i, hi⟩).1.1 = K
        · apply pdPred_false_of_ts_lt
          have hcl : ts < (s.write_cursor.entries.get ⟨i, hi⟩).1.2 := by
            have h0 := WriteSorted.commit_lt hsort hij hj2 (hiK.trans hK2.symm)
            rw [hlc2, hlceq] at h0
            exact h0
          exact hcl
        · exact pdPred_false_of_key_ne hiK
      have hnpd : newestPD s.write_cursor.entries K ts = lv := by
        rw [newestPD_eq_drop j2 hprefix]
        exact hlv2.symm
      have hgood : GoodLV lv := hnpd ▸ goodLV_find s.write_cursor.entries K ts
      refine ⟨?_, ?_, ?_⟩
      · rw [handle_last_version_value dcf lb ub s1 K lv hinv1 homit1 hrange hgood]
        unfold specAnswer
        rw [hnpd]
        rcases lv with _ | w
        · rfl
        · rfl
      · intro hmet
        dsimp only at hmet
        cases hmet
      · intro _
        right
        refine ⟨j2, hj2, ?_, hK2⟩
        dsimp only
        rw [hcur]
        exact hpos2
    · have hlt : lc < ts := Nat.lt_of_le_of_ne hlcts hlceq
      have hent1 : s1.write_cursor.entries = s.write_cursor.entries := hsh1.write_entries
      have hsort1 : WriteSorted s1.write_cursor.entries := by
        rw [hent1]
        exact hsort
      have hj2' : j2 < s1.write_cursor.entries.length := by
        rw [hent1]
        exact hj2
      have hgeti : (s1.write_cursor.entries.get ⟨j2, hj2'⟩).1 = (K, lc) := by
        rw [get_of_eq hent1 hj2' hj2, Prod.ext_iff]
        exact ⟨hK2, hlc2⟩
      have hdc : ∀ a b : (UserKey × Ts) × Write, compositeLt a.1 b.1 = true →
          compositeLt b.1 (K, ts) = true → compositeLt a.1 (K, ts) = true :=
        fun a b h1 h2 => compositeLt_trans h1 h2
      have hageti : compositeLt (s1.write_cursor.entries.get ⟨j2, hj2'⟩).1 (K, ts)
          = false := by
        rw [hgeti]
        show (keyLt K K || (K == K && decide (ts < lc))) = false
        rw [keyLt_irrefl, decide_eq_false (Nat.lt_asymm hlt), Bool.false_or,
          Bool.and_false]
      have hrankle : s1.write_cursor.entries.countP (fun e => compositeLt e.1 (K, ts))
          ≤ j2 := by
        by_contra hcon
        push_neg at hcon
        have h0 := (sorted_get_iff_lt_countP
          (R := fun a b => compositeLt a.1 b.1 = true)
          (p := fun e => compositeLt e.1 (K, ts)) hdc s1.write_cursor.entries
          hsort1.pairwise_write j2 hj2').2 hcon
        rw [h0] at hageti
        cases hageti
      have hranklen : s1.write_cursor.entries.countP (fun e => compositeLt e.1 (K, ts))
          < s1.write_cursor.entries.length := Nat.lt_of_le_of_lt hrankle hj2'
      have hspos := writeInternalSeek_pos_of_lt s1 (K, ts) (by omega)
      have hvalseek : (s1.writeInternalSeek (K, ts)).write_cursor.valid = true := by
        simp [Cursor.valid, hspos]
      have heq : s.reverse_get rsb K ts
          = ((reverse_get_phase_b K lc lv
              ((s1.writeInternalSeek (K, ts)).write_cursor.entries.length + 1)
              (s1.writeInternalSeek (K, ts))).1, false,
             (reverse_get_phase_b K lc lv
              ((s1.writeInternalSeek (K, ts)).write_cursor.entries.length + 1)
              (s1.writeInternalSeek (K, ts))).2) := by
        unfold reverse_get
        rw [if_neg (by simp [hvalid]), hpa]
        dsimp only
        rw [if_neg hlceq, if_pos hlt, if_neg (by simp [hvalseek])]
      have hent2 : (s1.writeInternalSeek (K, ts)).write_cursor.entries
          = s.write_cursor.entries :=
        (writeInternalSeek_shape s1 (K, ts)).write_entries.trans hent1
      -- notation for the landing rank, over the outer entry list
      have hrankeq : s1.write_cursor.entries.countP (fun e => compositeLt e.1 (K, ts))
          = s.write_cursor.entries.countP (fun e => compositeLt e.1 (K, ts)) := by
        rw [hent1]
      have hrlen : s.write_cursor.entries.countP (fun e => compositeLt e.1 (K, ts))
          < s.write_cursor.entries.length := by
        rw [← hrankeq, ← hent1]
        exact hranklen
      have hrle : s.write_cursor.entries.countP (fun e => compositeLt e.1 (K, ts))
          ≤ j2 := by
        rw [← hrankeq]
        exact hrankle
      have hspos2 : (s1.writeInternalSeek (K, ts)).write_cursor.pos
          = some (s.write_cursor.entries.countP (fun e => compositeLt e.1 (K, ts))) := by
        rw [hspos, hrankeq]
      -- entries at or above the rank and at most j2 are versions of K below ts
      have hpredfalse : ∀ m, ∀ hm : m < s.write_cursor.entries.length,
          s.write_cursor.entries.countP (fun e => compositeLt e.1 (K, ts)) ≤ m →
          compositeLt (s.write_cursor.entries.get ⟨m, hm⟩).1 (K, ts) = false := by
        intro m hm hge
        rcases hb : compositeLt (s.write_cursor.entries.get ⟨m, hm⟩).1 (K, ts)
        · rfl
        · have h0 := (sorted_get_iff_lt_countP
            (R := fun a b => compositeLt a.1 b.1 = true)
            (p := fun e => compositeLt e.1 (K, ts)) hdc s.write_cursor.entries
            hsort.pairwise_write m hm).1 hb
          omega
      have hreg : ∀ m, ∀ hm : m < s.write_cursor.entries.length,
          s.write_cursor.entries.countP (fun e => compositeLt e.1 (K, ts)) ≤ m →
          m ≤ j2 →
          (s.write_cursor.entries.get ⟨m, hm⟩).1.1 = K ∧
          (s.write_cursor.entries.get ⟨m, hm⟩).1.2 ≤ ts := by
        intro m hm hge hle
        have hpf := hpredfalse m hm hge
        have hor := Bool.or_eq_false_iff.1 hpf
        have hnotlt : keyLt (s.write_cursor.entries.get ⟨m, hm⟩).1.1 K = false := hor.1
        have hmK : (s.write_cursor.entries.get ⟨m, hm⟩).1.1 = K := by
          rcases Nat.lt_or_ge m j2 with hmlt | hmge
          · have hc := WriteSorted.get_lt hsort hmlt hj2
            have h1 := compositeLt_userKey_not_lt hc
            rw [hK2] at h1
            exact keyLt_antisymm hnotlt h1
          · have hmeq : m = j2 := by omega
            subst hmeq
            exact hK2
        refine ⟨hmK, ?_⟩
        have h2 := hor.2
        have h3 : ((s.write_cursor.entries.get ⟨m, hm⟩).1.1 == K) = true :=
          beq_iff_eq.2 hmK
        rw [h3, Bool.true_and] at h2
        exact Nat.le_of_not_lt (of_decide_eq_false h2)
      have hprefix2 : ∀ i, ∀ hi : i < s.write_cursor.entries.length,
          i < s.write_cursor.entries.countP (fun e => compositeLt e.1 (K, ts)) →
          pdPred K ts (s.write_cursor.entries.get ⟨i, hi⟩) = false := by
        intro i hi hilt2
        have hb := (sorted_get_iff_lt_countP
          (R := fun a b => compositeLt a.1 b.1 = true)
          (p := fun e => compositeLt e.1 (K, ts)) hdc s.write_cursor.entries
          hsort.pairwise_write i hi).2 hilt2
        rcases Bool.or_eq_true_iff.1 hb with h1 | h1
        · apply pdPred_false_of_key_ne
          exact keyLt_ne h1
        · rcases bool_and_true h1 with ⟨h2, h3⟩
          exact pdPred_false_of_ts_lt (of_decide_eq_true h3)
      have hinv2 : DefaultInv dcf lb ub (s1.writeInternalSeek (K, ts)) :=
        hinv1.of_sameDefault (writeInternalSeek_sameDefault s1 (K, ts))
      have homit2 : (s1.writeInternalSeek (K, ts)).omit_value = false := by
        rw [(writeInternalSeek_shape s1 (K, ts)).omit_value]
        exact homit1
      have hfuel2 : j2 - s.write_cursor.entries.countP (fun e => compositeLt e.1 (K, ts))
          < (s1.writeInternalSeek (K, ts)).write_cursor.entries.length + 1 := by
        rw [hent2]
        omega
      have hval := phase_b_value dcf lb ub K ts lc lv s.write_cursor.entries hsort
        j2 hj2 hK2 hlc2 hlv2 hrange
        ((s1.writeInternalSeek (K, ts)).write_cursor.entries.length + 1)
        (s1.writeInternalSeek (K, ts))
        (s.write_cursor.entries.countP (fun e => compositeLt e.1 (K, ts)))
        hrlen hent2 hspos2 hrle hreg hinv2 homit2 hfuel2
      have hBr := phase_b_spec K lc lv s.write_cursor.entries hsort j2 hj2 hK2
        (Nat.le_of_eq hlc2) (hlv2 ▸ goodLV_find (s.write_cursor.entries.drop j2) K ts)
        ((s1.writeInternalSeek (K, ts)).write_cursor.entries.length + 1)
        (s1.writeInternalSeek (K, ts))
        (s.write_cursor.entries.countP (fun e => compositeLt e.1 (K, ts)))
        hent2 hspos2 hrle (fun hpp => (hreg _ hpp (Nat.le_refl _) hrle).1) (by omega)
      rw [heq]
      refine ⟨?_, ?_, ?_⟩
      · rw [hval]
        unfold specAnswer
        rw [newestPD_eq_drop
          (s.write_cursor.entries.countP (fun e => compositeLt e.1 (K, ts))) hprefix2]
      · intro hmet
        dsimp only at hmet
        cases hmet
      · intro _
        right
        have hkeep2 : (reverse_get_phase_b K lc lv
            ((s1.writeInternalSeek (K, ts)).write_cursor.entries.length + 1)
            (s1.writeInternalSeek (K, ts))).2.write_cursor.WFpos := by
          have hwfseek : (s1.writeInternalSeek (K, ts)).write_cursor.WFpos :=
            (writeInternalSeek_keeps s1 (K, ts)).w hwf1
          exact (reverse_get_phase_b_keeps K lc lv _ _).w hwfseek
        have hshb : (reverse_get_phase_b K lc lv
            ((s1.writeInternalSeek (K, ts)).write_cursor.entries.length + 1)
            (s1.writeInternalSeek (K, ts))).2.write_cursor.entries
            = s.write_cursor.entries := by
          rw [(reverse_get_phase_b_shape K lc lv _ _).write_entries]
          exact hent2
        obtain ⟨j3, hp3⟩ := (Cursor.valid_iff_pos_some _).1 hBr.2.1
        have hj3 : j3 < (reverse_get_phase_b K lc lv
            ((s1.writeInternalSeek (K, ts)).write_cursor.entries.length + 1)
            (s1.writeInternalSeek (K, ts))).2.write_cursor.entries.length :=
          hkeep2 j3 hp3
        have hj3' : j3 < s.write_cursor.entries.length := by
          rw [← hshb]
          exact hj3
        refine ⟨j3, hj3', ?_, ?_⟩
        · exact hp3
        · have hck3 := Cursor.currentKey_eq_get _ hp3 hj3
          have hkk := hBr.2.2
          rw [hck3] at hkk
          rw [← get_of_eq hshb hj3 hj3']
          exact hkk

end BackwardScanner

namespace Cursor

theorem reverse_seek_pos {κ α : Type} (c : Cursor κ α) (ltP : κ → Bool)
    (st : CfStatistics) :
    (c.reverse_seek ltP st).1.pos
      = if c.entries.countP (fun e => ltP e.1) = 0 then none
        else some (c.entries.countP (fun e => ltP e.1) - 1) := by
  unfold reverse_seek rankOf
  dsimp only
  split <;> rfl

theorem seek_to_last_pos {κ α : Type} (c : Cursor κ α) (st : CfStatistics) :
    (c.seek_to_last st).1.pos
      = if c.entries.isEmpty then none else some (c.entries.length - 1) := by
  unfold seek_to_last
  dsimp only
  split <;> rfl

end Cursor

namespace BackwardScanner

/-- The prev walk of move_write_cursor, entered on a version of the current
user key over a sorted write CF that holds entries strictly below it, ends on
the last entry strictly below the current user key — the prev stepping and
the seek fallback land at the same index. -/
theorem move_write_cursor_loop_pos_exact (K : UserKey) (n : Nat) :
    ∀ (s : BackwardScanner) (m : Nat),
    WriteSorted s.write_cursor.entries →
    0 < s.write_cursor.entries.countP (fun e => keyLt e.1.1 K) →
    ∀ hm : m < s.write_cursor.entries.length,
    s.write_cursor.pos = some m →
    (s.write_cursor.entries.get ⟨m, hm⟩).1.1 = K →
    (move_write_cursor_loop K n s).write_cursor.pos
      = some (s.write_cursor.entries.countP (fun e => keyLt e.1.1 K) - 1) := by
  induction n with
  | zero =>
    intro s m hsort hcnt hm hpos hkey
    show (s.writeInternalSeekForPrev K).write_cursor.pos = _
    unfold writeInternalSeekForPrev Cursor.internal_seek_for_prev
    dsimp only
    rw [if_neg (by omega)]
  | succ t ih =>
    intro s m hsort hcnt hm hpos hkey
    have hdc : ∀ a b : (UserKey × Ts) × Write, compositeLt a.1 b.1 = true →
        (fun e => keyLt e.1.1 K) b = true → (fun e => keyLt e.1.1 K) a = true :=
      fun a b hr hp => keyLt_probe_dc hr hp
    have hchar := sorted_get_iff_lt_countP hdc s.write_cursor.entries hsort.pairwise_write
    have hmge : s.write_cursor.entries.countP (fun e => keyLt e.1.1 K) ≤ m := by
      by_contra hcon
      push_neg at hcon
      have h0 := (hchar m hm).2 hcon
      rw [hkey, keyLt_irrefl] at h0
      cases h0
    obtain ⟨m0, rfl⟩ : ∃ m0, m = m0 + 1 := ⟨m - 1, by omega⟩
    have hposq := writePrev_pos_succ s m0 hpos
    have hval : s.writePrev.write_cursor.valid = true := by
      simp [Cursor.valid, hposq]
    have hent1 : s.writePrev.write_cursor.entries = s.write_cursor.entries :=
      (writePrev_shape s).write_entries
    have hm0 : m0 < s.write_cursor.entries.length := by omega
    have hm0' : m0 < s.writePrev.write_cursor.entries.length := by
      rw [hent1]
      omega
    have hckey : s.writePrev.write_cursor.currentKey
        = (s.write_cursor.entries.get ⟨m0, hm0⟩).1 := by
      rw [Cursor.currentKey_eq_get s.writePrev.write_cursor hposq hm0']
      exact congrArg Prod.fst (get_of_eq hent1 hm0' hm0)
    have hstep : move_write_cursor_loop K (t + 1) s
        = (if (!s.writePrev.write_cursor.valid) = true then s.writePrev
           else if s.writePrev.write_cursor.currentKey.1 ≠ K then s.writePrev
           else move_write_cursor_loop K t s.writePrev) := rfl
    rw [hstep, if_neg (by simp [hval])]
    rcases Nat.lt_or_ge m0 (s.write_cursor.entries.countP (fun e => keyLt e.1.1 K)) with
      hlt | hge
    · have hm0eq : m0 = s.write_cursor.entries.countP (fun e => keyLt e.1.1 K) - 1 := by
        omega
      have hkm0 : keyLt (s.write_cursor.entries.get ⟨m0, hm0⟩).1.1 K = true :=
        (hchar m0 hm0).2 hlt
      have hne : s.writePrev.write_cursor.currentKey.1 ≠ K := by
        rw [congrArg Prod.fst hckey]
        exact keyLt_ne hkm0
      rw [if_pos hne]
      rw [hposq, hm0eq]
    · have hkeyLtF : keyLt (s.write_cursor.entries.get ⟨m0, hm0⟩).1.1 K = false := by
        rcases hb : keyLt (s.write_cursor.entries.get ⟨m0, hm0⟩).1.1 K
        · rfl
        · have := (hchar m0 hm0).1 hb
          omega
      have hkm0K : (s.write_cursor.entries.get ⟨m0, hm0⟩).1.1 = K := by
        have hc := WriteSorted.get_lt hsort (Nat.lt_succ_self m0) hm
        have h1 := compositeLt_userKey_not_lt hc
        rw [hkey] at h1
        exact keyLt_antisymm hkeyLtF h1
      have hnotne : ¬ s.writePrev.write_cursor.currentKey.1 ≠ K := by
        rw [congrArg Prod.fst hckey]
        intro hx
        exact hx hkm0K
      rw [if_neg hnotne]
      have hrec := ih s.writePrev m0 (by rw [hent1]; exact hsort)
        (by rw [hent1]; exact hcnt) hm0' hposq
        (by rw [get_of_eq hent1 hm0' hm0]; exact hkm0K)
      rw [hrec, hent1]

/-- move_write_cursor_to_prev_user_key, entered on a version of the current
user key over a sorted write CF holding entries strictly below it, lands
exactly on the last entry strictly below the current user key. -/
theorem move_pos_exact (K : UserKey) (sb : Nat) (s : BackwardScanner) (m : Nat)
    (hsort : WriteSorted s.write_cursor.entries)
    (hcnt : 0 < s.write_cursor.entries.countP (fun e => keyLt e.1.1 K))
    (hm : m < s.write_cursor.entries.length)
    (hpos : s.write_cursor.pos = some m)
    (hkey : (s.write_cursor.entries.get ⟨m, hm⟩).1.1 = K) :
    (move_write_cursor_to_prev_user_key K sb s).write_cursor.pos
      = some (s.write_cursor.entries.countP (fun e => keyLt e.1.1 K) - 1) := by
  unfold move_write_cursor_to_prev_user_key
  rcases sb with _ | n
  · unfold writeInternalSeekForPrev Cursor.internal_seek_for_prev
    dsimp only
    rw [if_neg (by omega)]
  · dsimp only
    have hval : s.write_cursor.valid = true := by
      simp [Cursor.valid, hpos]
    rw [if_neg (by simp [hval])]
    have hck : s.write_cursor.currentKey = (s.write_cursor.entries.get ⟨m, hm⟩).1 :=
      Cursor.currentKey_eq_get s.write_cursor hpos hm
    rw [if_neg (by rw [congrArg Prod.fst hck]; intro hx; exact hx hkey)]
    exact move_write_cursor_loop_pos_exact K n s m hsort hcnt hm hpos hkey

theorem initOnce_write_cursor_ub (s : BackwardScanner) (u : UserKey)
    (hns : s.is_started = false) (hub : s.upper_bound = some u) :
    s.initOnce.write_cursor
      = (s.write_cursor.reverse_seek (fun ck => keyLt ck.1 u) s.statistics.write).1 := by
  unfold initOnce
  rw [hns, if_neg Bool.false_ne_true, hub]

theorem initOnce_lock_cursor_ub (s : BackwardScanner) (u : UserKey)
    (hns : s.is_started = false) (hub : s.upper_bound = some u) :
    s.initOnce.lock_cursor
      = (s.lock_cursor.reverse_seek (fun kk => keyLt kk u) s.statistics.lock).1 := by
  unfold initOnce
  rw [hns, if_neg Bool.false_ne_true, hub]

theorem initOnce_write_cursor_last (s : BackwardScanner)
    (hns : s.is_started = false) (hub : s.upper_bound = none) :
    s.initOnce.write_cursor
      = (s.write_cursor.seek_to_last s.statistics.write).1 := by
  unfold initOnce
  rw [hns, if_neg Bool.false_ne_true, hub]

theorem initOnce_lock_cursor_last (s : BackwardScanner)
    (hns : s.is_started = false) (hub : s.upper_bound = none) :
    s.initOnce.lock_cursor
      = (s.lock_cursor.seek_to_last s.statistics.lock).1 := by
  unfold initOnce
  rw [hns, if_neg Bool.false_ne_true, hub]

/-- The write handling of an iteration preserves the default CF invariant,
whatever the lock handling produced. -/
theorem writeStep_inv (dcf : List ((UserKey × Ts) × Value)) (lb ub : Option UserKey)
    (rsb sb : Nat) (s : BackwardScanner) (result1 : Except ScanError (Option Value))
    (gts : Ts) (cur : UserKey) (hw : Bool)
    (hinv : DefaultInv dcf lb ub s) (homit : s.omit_value = false)
    (hrange : inRangeUser lb ub cur = true) :
    DefaultInv dcf lb ub (writeStep rsb sb s result1 gts cur hw).2 := by
  rcases hw with _ | _
  · exact hinv
  · rcases result1 with e | v0
    · have heq : (writeStep rsb sb s (.error e) gts cur true)
          = (.error e, s.move_write_cursor_to_prev_user_key cur sb) := rfl
      rw [heq]
      exact hinv.of_sameDefault (move_write_cursor_sameDefault cur sb s)
    · have heq : (writeStep rsb sb s (.ok v0) gts cur true)
          = (if !(s.reverse_get rsb cur gts).2.1
             then ((s.reverse_get rsb cur gts).1,
               ((s.reverse_get rsb cur gts).2.2).move_write_cursor_to_prev_user_key cur sb)
             else ((s.reverse_get rsb cur gts).1, (s.reverse_get rsb cur gts).2.2)) := rfl
      rw [heq]
      have hrg := reverse_get_inv dcf lb ub s rsb cur gts hinv homit hrange
      split
      · exact hrg.of_sameDefault (move_write_cursor_sameDefault cur sb _)
      · exact hrg

theorem lockPrev_measure (s : BackwardScanner) (hv : s.lock_cursor.valid = true) :
    s.lockPrev.lock_cursor.cursorMeasure < s.lock_cursor.cursorMeasure := by
  obtain ⟨q, hq⟩ := (Cursor.valid_iff_pos_some _).1 hv
  rcases q with _ | q0
  · have h0 : s.lockPrev.lock_cursor.pos = none := by
      unfold lockPrev Cursor.prev
      rw [hq]
    unfold Cursor.cursorMeasure
    rw [h0, hq]
    dsimp only
    omega
  · have h0 : s.lockPrev.lock_cursor.pos = some q0 := by
      unfold lockPrev Cursor.prev
      rw [hq]
    unfold Cursor.cursorMeasure
    rw [h0, hq]
    dsimp only
    omega

/-- The write handling of an iteration on its own user key strictly decreases
the write cursor measure. -/
theorem writeStep_measure_lt (rsb sb : Nat) (s : BackwardScanner)
    (result1 : Except ScanError (Option Value)) (gts : Ts) (cur : UserKey)
    (hrsb : 1 ≤ rsb) (hsort : WriteSorted s.write_cursor.entries)
    (hwf : s.write_cursor.WFpos)
    (hv : s.write_cursor.valid = true) (hk : s.write_cursor.currentKey.1 = cur) :
    (writeStep rsb sb s result1 gts cur true).2.write_cursor.cursorMeasure
      < s.write_cursor.cursorMeasure := by
  have hbel := writeStep_below rsb sb s result1 gts cur true hrsb hsort hwf
    (fun _ => ⟨hv, hk⟩) (fun hcon => by cases hcon)
  obtain ⟨p, hp⟩ := (Cursor.valid_iff_pos_some _).1 hv
  have hplen := hwf p hp
  have hshape : SameShape s (writeStep rsb sb s result1 gts cur true).2 :=
    writeStep_shape ..
  have hkeep : KeepsWF s (writeStep rsb sb s result1 gts cur true).2 :=
    writeStep_keeps ..
  rcases hbel with hinvd | ⟨hv2, hk2⟩
  · have h0 : (writeStep rsb sb s result1 gts cur true).2.write_cursor.pos = none := by
      rcases hb : (writeStep rsb sb s result1 gts cur true).2.write_cursor.pos with _ | x
      · rfl
      · exfalso
        have hvx : (writeStep rsb sb s result1 gts cur true).2.write_cursor.valid
            = true := by
          simp [Cursor.valid, hb]
        rw [hvx] at hinvd
        cases hinvd
    unfold Cursor.cursorMeasure
    rw [h0, hp]
    dsimp only
    omega
  · obtain ⟨p2, hp2⟩ := (Cursor.valid_iff_pos_some _).1 hv2
    have hp2len : p2 < (writeStep rsb sb s result1 gts cur true).2.write_cursor.entries.length :=
      hkeep.w hwf p2 hp2
    have hp2len' : p2 < s.write_cursor.entries.length := by
      rw [← hshape.write_entries]
      exact hp2len
    have hck2 := Cursor.currentKey_eq_get
      (writeStep rsb sb s result1 gts cur true).2.write_cursor hp2 hp2len
    rw [hck2] at hk2
    have hck := Cursor.currentKey_eq_get s.write_cursor hp hplen
    rw [hck] at hk
    rw [get_of_eq hshape.write_entries hp2len hp2len'] at hk2
    rw [← hk] at hk2
    have hlt := WriteSorted.index_lt hsort hp2len' hplen hk2
    unfold Cursor.cursorMeasure
    rw [hp2, hp]
    dsimp only
    omega

/-- Every full iteration of the main loop strictly decreases the scan
measure. -/
theorem iteration_measure (rsb sb : Nat) (cl : LockRecord → Ts → CheckLockResult)
    (hrsb : 1 ≤ rsb) (s : BackwardScanner) (cur : UserKey) (hw hl : Bool)
    (hsw : WriteSorted s.write_cursor.entries) (hww : s.write_cursor.WFpos)
    (heq : s.currentKeyInfo = some (cur, hw, hl)) :
    scanMeasure (writeStep rsb sb (lockStep cl s hl).2.2 (lockStep cl s hl).1
      (lockStep cl s hl).2.1 cur hw).2 < scanMeasure s := by
  have hfacts := currentKeyInfo_facts s cur hw hl heq
  have hlw : (lockStep cl s hl).2.2.write_cursor = s.write_cursor :=
    lockStep_write_cursor ..
  have hwl2 : (writeStep rsb sb (lockStep cl s hl).2.2 (lockStep cl s hl).1
      (lockStep cl s hl).2.1 cur hw).2.lock_cursor
      = (lockStep cl s hl).2.2.lock_cursor := writeStep_lock_cursor ..
  unfold scanMeasure
  rw [hwl2]
  rcases hl with _ | _ <;> rcases hw with _ | _
  · rcases hfacts.1 with h | h <;> cases h
  · have hws := writeStep_measure_lt rsb sb (lockStep cl s false).2.2
      (lockStep cl s false).1 (lockStep cl s false).2.1 cur hrsb
      (by rw [hlw]; exact hsw) (by rw [hlw]; exact hww)
      (by rw [hlw]; exact (hfacts.2.1 rfl).1) (by rw [hlw]; exact (hfacts.2.1 rfl).2)
    rw [lockStep_false_state] at hws ⊢
    omega
  · have hlkm : (lockStep cl s true).2.2.lock_cursor.cursorMeasure
        < s.lock_cursor.cursorMeasure := by
      rw [lockStep_true_state]
      exact lockPrev_measure s (hfacts.2.2.2.1 rfl).1
    have hwm : (writeStep rsb sb (lockStep cl s true).2.2 (lockStep cl s true).1
        (lockStep cl s true).2.1 cur false).2.write_cursor
        = s.write_cursor := by
      have h0 : (writeStep rsb sb (lockStep cl s true).2.2 (lockStep cl s true).1
          (lockStep cl s true).2.1 cur false)
          = ((lockStep cl s true).1, (lockStep cl s true).2.2) := rfl
      rw [h0]
      exact hlw
    rw [hwm]
    omega
  · have hlkm : (lockStep cl s true).2.2.lock_cursor.cursorMeasure
        < s.lock_cursor.cursorMeasure := by
      rw [lockStep_true_state]
      exact lockPrev_measure s (hfacts.2.2.2.1 rfl).1
    have hws := writeStep_measure_lt rsb sb (lockStep cl s true).2.2
      (lockStep cl s true).1 (lockStep cl s true).2.1 cur hrsb
      (by rw [hlw]; exact hsw) (by rw [hlw]; exact hww)
      (by rw [hlw]; exact (hfacts.2.1 rfl).1) (by rw [hlw]; exact (hfacts.2.1 rfl).2)
    rw [hlw] at hws
    omega

end BackwardScanner

theorem WriteAbove_of_cursor_eq {k : UserKey} {s t : BackwardScanner}
    (h : t.write_cursor = s.write_cursor) (hs : WriteAbove k s) : WriteAbove k t := by
  unfold WriteAbove at hs ⊢
  rw [h]
  exact hs

theorem LockAbove_of_cursor_eq {k : UserKey} {s t : BackwardScanner}
    (h : t.lock_cursor = s.lock_cursor) (hs : LockAbove k s) : LockAbove k t := by
  unfold LockAbove at hs ⊢
  rw [h]
  exact hs

/-- Build the write side scan invariant for a cursor landed on the last entry
strictly below the processed user key. -/
theorem writeAbove_build (k cur : UserKey) (t : BackwardScanner)
    (hsort : WriteSorted t.write_cursor.entries)
    (hkcur : keyLt k cur = true)
    (hpos : t.write_cursor.pos
      = some (t.write_cursor.entries.countP (fun e => keyLt e.1.1 cur) - 1)) :
    WriteAbove k t := by
  intro hkex
  obtain ⟨e, he, hek⟩ := hkex
  obtain ⟨⟨i, hi⟩, hgi⟩ := List.mem_iff_get.1 he
  have hik : (t.write_cursor.entries.get ⟨i, hi⟩).1.1 = k := by
    rw [hgi]
    exact hek
  have hdc : ∀ a b : (UserKey × Ts) × Write, compositeLt a.1 b.1 = true →
      (fun e => keyLt e.1.1 cur) b = true → (fun e => keyLt e.1.1 cur) a = true :=
    fun a b hr hp => keyLt_probe_dc hr hp
  have hchar := sorted_get_iff_lt_countP hdc t.write_cursor.entries hsort.pairwise_write
  have hicnt : i < t.write_cursor.entries.countP (fun e => keyLt e.1.1 cur) :=
    (hchar i hi).1 (by rw [hik]; exact hkcur)
  have hcle : t.write_cursor.entries.countP (fun e => keyLt e.1.1 cur)
      ≤ t.write_cursor.entries.length := List.countP_le_length _
  have hplen : t.write_cursor.entries.countP (fun e => keyLt e.1.1 cur) - 1
      < t.write_cursor.entries.length := by omega
  refine ⟨_, hplen, hpos, ?_, ?_⟩
  · have hkle : keyLt (t.write_cursor.entries.get
        ⟨t.write_cursor.entries.countP (fun e => keyLt e.1.1 cur) - 1, hplen⟩).1.1
        (t.write_cursor.entries.get ⟨i, hi⟩).1.1 = false :=
      WriteSorted.key_le hsort (by omega) hplen
    rw [hik] at hkle
    exact hkle
  · intro hq
    have hceq : t.write_cursor.entries.countP (fun e => keyLt e.1.1 cur) - 1 + 1
        = t.write_cursor.entries.countP (fun e => keyLt e.1.1 cur) := by omega
    have hq2 : t.write_cursor.entries.countP (fun e => keyLt e.1.1 cur)
        < t.write_cursor.entries.length := by omega
    have hfin : (⟨t.write_cursor.entries.countP (fun e => keyLt e.1.1 cur) - 1 + 1, hq⟩
        : Fin t.write_cursor.entries.length)
        = ⟨t.write_cursor.entries.countP (fun e => keyLt e.1.1 cur), hq2⟩ :=
      Fin.mk_eq_mk.mpr hceq
    rw [hfin]
    have h1 : keyLt (t.write_cursor.entries.get
        ⟨t.write_cursor.entries.countP (fun e => keyLt e.1.1 cur) - 1, hplen⟩).1.1 cur
        = true := (hchar _ hplen).2 (by omega)
    have h2 : keyLt (t.write_cursor.entries.get
        ⟨t.write_cursor.entries.countP (fun e => keyLt e.1.1 cur), hq2⟩).1.1 cur
        = false := by
      rcases hb : keyLt (t.write_cursor.entries.get
          ⟨t.write_cursor.entries.countP (fun e => keyLt e.1.1 cur), hq2⟩).1.1 cur
      · exact hb
      · have := (hchar _ hq2).1 hb
        omega
    intro hcon
    rw [hcon, h1] at h2
    cases h2

/-- Build the write side scan invariant for the cursor left directly below
the block of the processed user key by a met_prev_user_key early return. -/
theorem writeAbove_build_met (k cur : UserKey) (t : BackwardScanner)
    (hsort : WriteSorted t.write_cursor.entries)
    (hkcur : keyLt k cur = true)
    (j2 : Nat) (hj2 : j2 + 1 < t.write_cursor.entries.length)
    (hpos : t.write_cursor.pos = some j2)
    (hne : (t.write_cursor.entries.get ⟨j2, Nat.lt_of_succ_lt hj2⟩).1.1 ≠ cur)
    (hk1 : (t.write_cursor.entries.get ⟨j2 + 1, hj2⟩).1.1 = cur) :
    WriteAbove k t := by
  intro hkex
  obtain ⟨e, he, hek⟩ := hkex
  obtain ⟨⟨i, hi⟩, hgi⟩ := List.mem_iff_get.1 he
  have hik : (t.write_cursor.entries.get ⟨i, hi⟩).1.1 = k := by
    rw [hgi]
    exact hek
  have hilt : i < j2 + 1 := by
    apply WriteSorted.index_lt hsort hi hj2
    rw [hik, hk1]
    exact hkcur
  refine ⟨j2, Nat.lt_of_succ_lt hj2, hpos, ?_, ?_⟩
  · have hkle : keyLt (t.write_cursor.entries.get ⟨j2, Nat.lt_of_succ_lt hj2⟩).1.1
        (t.write_cursor.entries.get ⟨i, hi⟩).1.1 = false :=
      WriteSorted.key_le hsort (by omega) (Nat.lt_of_succ_lt hj2)
    rw [hik] at hkle
    exact hkle
  · intro hq he2
    exact hne (he2 ▸ hk1)

/-- A write entry of user key k strictly below cur forces a positive count of
entries strictly below cur. -/
theorem countP_pos_of_key_entry (cur k : UserKey) (L : List ((UserKey × Ts) × Write))
    (hsort : WriteSorted L) (hkcur : keyLt k cur = true)
    (hkex : ∃ e ∈ L, e.1.1 = k) :
    0 < L.countP (fun e => keyLt e.1.1 cur) := by
  obtain ⟨e, he, hek⟩ := hkex
  obtain ⟨⟨i, hi⟩, hgi⟩ := List.mem_iff_get.1 he
  have hdc : ∀ a b : (UserKey × Ts) × Write, compositeLt a.1 b.1 = true →
      (fun e => keyLt e.1.1 cur) b = true → (fun e => keyLt e.1.1 cur) a = true :=
    fun a b hr hp => keyLt_probe_dc hr hp
  have hchar := sorted_get_iff_lt_countP hdc L hsort.pairwise_write
  have h1 := (hchar i hi).1 (by
    show keyLt (L.get ⟨i, hi⟩).1.1 cur = true
    rw [hgi, hek]
    exact hkcur)
  omega

/-- The value the claim grants to a user key is unique. -/
theorem ClaimYield_unique {cl : LockRecord → Ts → CheckLockResult}
    {dcf : List ((UserKey × Ts) × Value)} {LW : List ((UserKey × Ts) × Write)}
    {LL : List (UserKey × LockRecord)} {k : UserKey} {ts : Ts} {u u' : Value}
    (h : ClaimYield cl dcf LW LL k ts u) (h' : ClaimYield cl dcf LW LL k ts u') :
    u = u' := by
  obtain ⟨_, w, hw, _, hv⟩ := h
  obtain ⟨_, w', hw', _, hv'⟩ := h'
  rw [hw] at hw'
  have hww : w = w' := Option.some.inj hw'
  rw [← hww] at hv'
  rw [hv] at hv'
  exact Option.some.inj hv'

/-- A granted value requires a write entry of the user key. -/
theorem ClaimYield_entry {cl : LockRecord → Ts → CheckLockResult}
    {dcf : List ((UserKey × Ts) × Value)} {LW : List ((UserKey × Ts) × Write)}
    {LL : List (UserKey × LockRecord)} {k : UserKey} {ts : Ts} {u : Value}
    (h : ClaimYield cl dcf LW LL k ts u) : ∃ e ∈ LW, e.1.1 = k := by
  obtain ⟨_, w, hw, _, _⟩ := h
  obtain ⟨e, hmem, _, hek, _⟩ := newestPD_mem hw
  exact ⟨e, hmem, hek⟩

namespace BackwardScanner

/-- The write handling of an iteration on a user key strictly above the
awaited key k reestablishes the write side scan invariant for k. -/
theorem writeStep_writeAbove (dcf : List ((UserKey × Ts) × Value))
    (lb ub : Option UserKey) (rsb sb : Nat) (s : BackwardScanner)
    (r1 : Except ScanError (Option Value)) (gts : Ts) (k cur : UserKey) (hw : Bool)
    (hrsb : 1 ≤ rsb) (hsort : WriteSorted s.write_cursor.entries)
    (hwf : s.write_cursor.WFpos) (hdinv : DefaultInv dcf lb ub s)
    (homit : s.omit_value = false) (hrange : inRangeUser lb ub cur = true)
    (hkcur : keyLt k cur = true)
    (hft : hw = true → s.write_cursor.valid = true ∧ s.write_cursor.currentKey.1 = cur)
    (hWA : WriteAbove k s) :
    WriteAbove k (writeStep rsb sb s r1 gts cur hw).2 := by
  rcases hw with _ | _
  · exact WriteAbove_of_cursor_eq rfl hWA
  · intro hkex
    have hsh : SameShape s (writeStep rsb sb s r1 gts cur true).2 := writeStep_shape ..
    have hkexs : ∃ e ∈ s.write_cursor.entries, e.1.1 = k := by
      obtain ⟨e, he, hek⟩ := hkex
      refine ⟨e, ?_, hek⟩
      rw [← hsh.write_entries]
      exact he
    obtain ⟨p, hplen, hp, hge0, hbe0⟩ := hWA hkexs
    have hv := (hft rfl).1
    have hkcur2 := (hft rfl).2
    have hpK : (s.write_cursor.entries.get ⟨p, hplen⟩).1.1 = cur := by
      have hck := Cursor.currentKey_eq_get s.write_cursor hp hplen
      rw [hck] at hkcur2
      exact hkcur2
    have hbe : ∀ hq : p + 1 < s.write_cursor.entries.length,
        (s.write_cursor.entries.get ⟨p + 1, hq⟩).1.1 ≠ cur := by
      intro hq hcon
      exact hbe0 hq (hcon.trans hpK.symm)
    have hcnt : 0 < s.write_cursor.entries.countP (fun e => keyLt e.1.1 cur) :=
      countP_pos_of_key_entry cur k s.write_cursor.entries hsort hkcur hkexs
    rcases r1 with e0 | v0
    · have ht2 : (writeStep rsb sb s (.error e0) gts cur true).2.write_cursor
          = (s.move_write_cursor_to_prev_user_key cur sb).write_cursor := rfl
      have hmv := move_pos_exact cur sb s p hsort hcnt hplen hp hpK
      have hentmv : (s.move_write_cursor_to_prev_user_key cur sb).write_cursor.entries
          = s.write_cursor.entries :=
        (move_write_cursor_to_prev_user_key_shape cur sb s).write_entries
      refine writeAbove_build k cur _ ?_ hkcur ?_ hkex
      · rw [ht2, hentmv]
        exact hsort
      · rw [ht2, hentmv]
        exact hmv
    · have hfull := reverse_get_full dcf lb ub s rsb cur gts p hrsb hsort hwf hdinv
        homit hrange hplen hp hpK hbe
      have hsh_rg : SameShape s (s.reverse_get rsb cur gts).2.2 :=
        reverse_get_shape s rsb cur gts
      have hent_rg : (s.reverse_get rsb cur gts).2.2.write_cursor.entries
          = s.write_cursor.entries := hsh_rg.write_entries
      rcases hmet : (s.reverse_get rsb cur gts).2.1 with _ | _
      · have ht2 : (writeStep rsb sb s (.ok v0) gts cur true).2.write_cursor
            = (((s.reverse_get rsb cur gts).2.2).move_write_cursor_to_prev_user_key
                cur sb).write_cursor := by
          have h0 : (writeStep rsb sb s (.ok v0) gts cur true)
              = (if !(s.reverse_get rsb cur gts).2.1
                 then ((s.reverse_get rsb cur gts).1,
                   ((s.reverse_get rsb cur gts).2.2).move_write_cursor_to_prev_user_key
                     cur sb)
                 else ((s.reverse_get rsb cur gts).1,
                   (s.reverse_get rsb cur gts).2.2)) := rfl
          rw [h0, hmet]
          rfl
        rcases hfull.2.2 hmet with ⟨hposn, h0len, hkey0⟩ | ⟨j2, hj2len, hposj2, hkeyj2⟩
        · exfalso
          obtain ⟨e, he, hek⟩ := hkexs
          obtain ⟨⟨i, hi⟩, hgi⟩ := List.mem_iff_get.1 he
          have hle : keyLt (s.write_cursor.entries.get ⟨i, hi⟩).1.1
              (s.write_cursor.entries.get
                ⟨0, Nat.lt_of_le_of_lt (Nat.zero_le i) hi⟩).1.1 = false :=
            WriteSorted.key_le hsort (Nat.zero_le i) hi
          rw [hgi, hek] at hle
          have hkey0' : (s.write_cursor.entries.get
              ⟨0, Nat.lt_of_le_of_lt (Nat.zero_le i) hi⟩).1.1 = cur := hkey0
          rw [hkey0', hkcur] at hle
          cases hle
        · have hj2len' : j2 < (s.reverse_get rsb cur gts).2.2.write_cursor.entries.length := by
            rw [hent_rg]
            exact hj2len
          have hkeyj2' : ((s.reverse_get rsb cur gts).2.2.write_cursor.entries.get
              ⟨j2, hj2len'⟩).1.1 = cur := by
            rw [get_of_eq hent_rg hj2len' hj2len]
            exact hkeyj2
          have hmv := move_pos_exact cur sb (s.reverse_get rsb cur gts).2.2 j2
            (by rw [hent_rg]; exact hsort) (by rw [hent_rg]; exact hcnt)
            hj2len' hposj2 hkeyj2'
          have hentmv : (((s.reverse_get rsb cur gts).2.2).move_write_cursor_to_prev_user_key
              cur sb).write_cursor.entries = s.write_cursor.entries := by
            rw [(move_write_cursor_to_prev_user_key_shape cur sb
              ((s.reverse_get rsb cur gts).2.2)).write_entries]
            exact hent_rg
          refine writeAbove_build k cur _ ?_ hkcur ?_ hkex
          · rw [ht2, hentmv]
            exact hsort
          · rw [ht2, hentmv, hmv, hent_rg]
      · obtain ⟨j2, hj2, hpos2, hne2, hk12⟩ := hfull.2.1 hmet
        have ht2 : (writeStep rsb sb s (.ok v0) gts cur true).2.write_cursor
            = (s.reverse_get rsb cur gts).2.2.write_cursor := by
          have h0 : (writeStep rsb sb s (.ok v0) gts cur true)
              = (if !(s.reverse_get rsb cur gts).2.1
                 then ((s.reverse_get rsb cur gts).1,
                   ((s.reverse_get rsb cur gts).2.2).move_write_cursor_to_prev_user_key
                     cur sb)
                 else ((s.reverse_get rsb cur gts).1,
                   (s.reverse_get rsb cur gts).2.2)) := rfl
          rw [h0, hmet]
          rfl
        have htent : (writeStep rsb sb s (.ok v0) gts cur true).2.write_cursor.entries
            = s.write_cursor.entries := by
          rw [ht2, hent_rg]
        have hj2' : j2 + 1
            < (writeStep rsb sb s (.ok v0) gts cur true).2.write_cursor.entries.length := by
          rw [htent]
          exact hj2
        refine writeAbove_build_met k cur _ ?_ hkcur j2 hj2' ?_ ?_ ?_ hkex
        · rw [htent]
          exact hsort
        · rw [ht2]
          exact hpos2
        · rw [get_of_eq htent (Nat.lt_of_succ_lt hj2') (Nat.lt_of_succ_lt hj2)]
          exact hne2
        · rw [get_of_eq htent hj2' hj2]
          exact hk12

/-- The lock handling of an iteration on a user key strictly above the awaited
key k preserves the lock side scan invariant for k. -/
theorem lockStep_lockAbove (cl : LockRecord → Ts → CheckLockResult)
    (s : BackwardScanner) (hl : Bool) (k cur : UserKey)
    (hwfL : s.lock_cursor.WFpos) (hkcur : keyLt k cur = true)
    (hlt : hl = true → s.lock_cursor.valid = true ∧ s.lock_cursor.currentKey = cur)
    (hLA : LockAbove k s) :
    LockAbove k (lockStep cl s hl).2.2 := by
  rcases hl with _ | _
  · exact LockAbove_of_cursor_eq rfl hLA
  · have hlv := (hlt rfl).1
    have hlcur := (hlt rfl).2
    obtain ⟨q, hq⟩ := (Cursor.valid_iff_pos_some _).1 hlv
    have hqlen := hwfL q hq
    have hkq : (s.lock_cursor.entries.get ⟨q, hqlen⟩).1 = cur := by
      rw [← Cursor.currentKey_eq_get s.lock_cursor hq hqlen]
      exact hlcur
    intro i hi hik
    have hent : (lockStep cl s true).2.2.lock_cursor.entries = s.lock_cursor.entries := by
      rw [lockStep_true_state]
      exact (lockPrev_shape s).lock_entries
    have hi' : i < s.lock_cursor.entries.length := by
      rw [← hent]
      exact hi
    have hik' : (s.lock_cursor.entries.get ⟨i, hi'⟩).1 = k := by
      rw [← get_of_eq hent hi hi']
      exact hik
    obtain ⟨q2, hq2, hiq2⟩ := hLA i hi' hik'
    have hq2q : q2 = q := by
      rw [hq] at hq2
      exact (Option.some.inj hq2).symm
    have hiqq : i ≤ q := hq2q ▸ hiq2
    have hne : i ≠ q := by
      intro he
      subst he
      have hx : (s.lock_cursor.entries.get ⟨i, hqlen⟩).1 = k := hik'
      rw [hx] at hkq
      exact keyLt_ne hkcur hkq
    have hiq : i < q := by omega
    rcases q with _ | q1
    · omega
    · have hprevpos : s.lockPrev.lock_cursor.pos = some q1 := by
        unfold lockPrev Cursor.prev
        rw [hq]
      refine ⟨q1, ?_, by omega⟩
      rw [lockStep_true_state]
      exact hprevpos

/-- A full main loop iteration on a user key strictly above the awaited key k
keeps the scan invariant for k and strictly decreases the scan measure. -/
theorem iteration_preserves_c1 (dcf : List ((UserKey × Ts) × Value))
    (lb ub : Option UserKey) (LW : List ((UserKey × Ts) × Write))
    (LL : List (UserKey × LockRecord)) (k : UserKey) (ts : Ts)
    (cl : LockRecord → Ts → CheckLockResult) (rsb sb : Nat) (hrsb : 1 ≤ rsb)
    (hsw : WriteSorted LW)
    (hallW : ∀ e ∈ LW, inRangeUser lb ub e.1.1 = true)
    (hallL : ∀ e ∈ LL, inRangeUser lb ub e.1 = true)
    (s : BackwardScanner) (cur : UserKey) (hw hl : Bool)
    (hC : ScanReady dcf lb ub LW LL k ts s)
    (hinfo : s.currentKeyInfo = some (cur, hw, hl))
    (hkcur : keyLt k cur = true) :
    ScanReady dcf lb ub LW LL k ts
      (writeStep rsb sb (lockStep cl s hl).2.2 (lockStep cl s hl).1
        (lockStep cl s hl).2.1 cur hw).2 ∧
    scanMeasure (writeStep rsb sb (lockStep cl s hl).2.2 (lockStep cl s hl).1
      (lockStep cl s hl).2.1 cur hw).2 < scanMeasure s := by
  have hfacts := currentKeyInfo_facts s cur hw hl hinfo
  have hsw' : WriteSorted s.write_cursor.entries := by
    rw [hC.wents]
    exact hsw
  have hlw : (lockStep cl s hl).2.2.write_cursor = s.write_cursor :=
    lockStep_write_cursor cl s hl
  have hwl2 : (writeStep rsb sb (lockStep cl s hl).2.2 (lockStep cl s hl).1
      (lockStep cl s hl).2.1 cur hw).2.lock_cursor
      = (lockStep cl s hl).2.2.lock_cursor :=
    writeStep_lock_cursor rsb sb (lockStep cl s hl).2.2 (lockStep cl s hl).1
      (lockStep cl s hl).2.1 cur hw
  have hrangecur : inRangeUser lb ub cur = true := by
    rcases currentKeyInfo_mem s cur hw hl hC.wfW hC.wfL hinfo with
      ⟨e, he, hek⟩ | ⟨e, he, hek⟩
    · rw [← hek]
      exact hallW e (hC.wents ▸ he)
    · rw [← hek]
      exact hallL e (hC.lents ▸ he)
  have hlshape : SameShape s (lockStep cl s hl).2.2 := lockStep_shape cl s hl
  have hshape : SameShape s (writeStep rsb sb (lockStep cl s hl).2.2
      (lockStep cl s hl).1 (lockStep cl s hl).2.1 cur hw).2 :=
    SameShape.trans_shape hlshape (writeStep_shape ..)
  have hkeep : KeepsWF s (writeStep rsb sb (lockStep cl s hl).2.2
      (lockStep cl s hl).1 (lockStep cl s hl).2.1 cur hw).2 :=
    KeepsWF.trans_wf (lockStep_keeps cl s hl) (writeStep_keeps ..)
  have hinvmid : DefaultInv dcf lb ub (lockStep cl s hl).2.2 :=
    hC.dinv.of_sameDefault (lockStep_sameDefault cl s hl)
  have homitmid : (lockStep cl s hl).2.2.omit_value = false := by
    rw [hlshape.omit_value]
    exact hC.omitv
  refine ⟨?_, iteration_measure rsb sb cl hrsb s cur hw hl hsw' hC.wfW hinfo⟩
  refine ⟨?_, ?_, ?_, ?_, ?_, ?_, ?_, ?_, ?_, ?_⟩
  · rw [hshape.write_entries]
    exact hC.wents
  · rw [hshape.lock_entries]
    exact hC.lents
  · exact hkeep.w hC.wfW
  · exact hkeep.l hC.wfL
  · exact writeStep_inv dcf lb ub rsb sb (lockStep cl s hl).2.2 (lockStep cl s hl).1
      (lockStep cl s hl).2.1 cur hw hinvmid homitmid hrangecur
  · rw [hshape.omit_value]
    exact hC.omitv
  · rw [hshape.isolation_level]
    exact hC.iso
  · rw [hshape.ts]
    exact hC.tsf
  · refine writeStep_writeAbove dcf lb ub rsb sb (lockStep cl s hl).2.2
      (lockStep cl s hl).1 (lockStep cl s hl).2.1 k cur hw hrsb
      (by rw [hlw]; exact hsw') (by rw [hlw]; exact hC.wfW) hinvmid homitmid
      hrangecur hkcur ?_ (WriteAbove_of_cursor_eq hlw hC.wk)
    intro hhw
    refine ⟨?_, ?_⟩
    · rw [hlw]
      exact (hfacts.2.1 hhw).1
    · rw [hlw]
      exact (hfacts.2.1 hhw).2
  · exact LockAbove_of_cursor_eq hwl2 (lockStep_lockAbove cl s hl k cur hC.wfL hkcur
      (fun hhl => hfacts.2.2.2.1 hhl) hC.lk)

/-- The main loop iteration that processes the awaited user key k itself
yields .ok (some u) exactly when the spec side claim grants u to k: no
blocking lock and a deciding Put whose value is u. -/
theorem k_iteration_c1 (dcf : List ((UserKey × Ts) × Value))
    (lb ub : Option UserKey) (LW : List ((UserKey × Ts) × Write))
    (LL : List (UserKey × LockRecord)) (k : UserKey) (ts : Ts)
    (cl : LockRecord → Ts → CheckLockResult) (rsb sb : Nat) (hrsb : 1 ≤ rsb)
    (hsw : WriteSorted LW) (hsl : LockSorted LL)
    (hrangek : inRangeUser lb ub k = true)
    (hcl : ∀ l, (k, l) ∈ LL → cl l ts = .NotLocked ∨ ∃ e, cl l ts = .Locked e)
    (s : BackwardScanner) (hw hl : Bool)
    (hC : ScanReady dcf lb ub LW LL k ts s)
    (hinfo : s.currentKeyInfo = some (k, hw, hl)) (u : Value) :
    (writeStep rsb sb (lockStep cl s hl).2.2 (lockStep cl s hl).1
        (lockStep cl s hl).2.1 k hw).1 = .ok (some u)
      ↔ ClaimYield cl dcf LW LL k ts u := by
  have hfacts := currentKeyInfo_facts s k hw hl hinfo
  have hsw' : WriteSorted s.write_cursor.entries := by
    rw [hC.wents]
    exact hsw
  have hsl' : LockSorted s.lock_cursor.entries := by
    rw [hC.lents]
    exact hsl
  have hlw : (lockStep cl s hl).2.2.write_cursor = s.write_cursor :=
    lockStep_write_cursor cl s hl
  have hval : ∀ (v0 : Option Value) (gts : Ts),
      s.write_cursor.valid = true → s.write_cursor.currentKey.1 = k →
      (writeStep rsb sb (lockStep cl s hl).2.2 (.ok v0) gts k true).1
        = specAnswer dcf k LW gts := by
    intro v0 gts hv hkk
    obtain ⟨p, hp⟩ := (Cursor.valid_iff_pos_some _).1 hv
    have hplen := hC.wfW p hp
    have hpK : (s.write_cursor.entries.get ⟨p, hplen⟩).1.1 = k := by
      have hck := Cursor.currentKey_eq_get s.write_cursor hp hplen
      rw [hck] at hkk
      exact hkk
    have hkex : ∃ e ∈ s.write_cursor.entries, e.1.1 = k :=
      ⟨s.write_cursor.entries.get ⟨p, hplen⟩, List.get_mem _ _ _, hpK⟩
    obtain ⟨p0, hp0len, hpos0, hge0, hbe0⟩ := hC.wk hkex
    have hp0K : (s.write_cursor.entries.get ⟨p0, hp0len⟩).1.1 = k := by
      have hp0p : p0 = p := by
        rw [hpos0] at hp
        exact Option.some.inj hp
      have hfin : (⟨p0, hp0len⟩ : Fin s.write_cursor.entries.length) = ⟨p, hplen⟩ :=
        Fin.mk_eq_mk.mpr hp0p
      rw [hfin]
      exact hpK
    have hbe : ∀ hq : p0 + 1 < s.write_cursor.entries.length,
        (s.write_cursor.entries.get ⟨p0 + 1, hq⟩).1.1 ≠ k := by
      intro hq hcon
      exact hbe0 hq (hcon.trans hp0K.symm)
    have hentmid : (lockStep cl s hl).2.2.write_cursor.entries
        = s.write_cursor.entries := by
      rw [hlw]
    have hp0len' : p0 < (lockStep cl s hl).2.2.write_cursor.entries.length := by
      rw [hentmid]
      exact hp0len
    have hp0K' : ((lockStep cl s hl).2.2.write_cursor.entries.get
        ⟨p0, hp0len'⟩).1.1 = k := by
      rw [get_of_eq hentmid hp0len' hp0len]
      exact hp0K
    have hbe' : ∀ hq : p0 + 1 < (lockStep cl s hl).2.2.write_cursor.entries.length,
        ((lockStep cl s hl).2.2.write_cursor.entries.get ⟨p0 + 1, hq⟩).1.1 ≠ k := by
      intro hq
      have hq2 : p0 + 1 < s.write_cursor.entries.length := by
        rw [← hentmid]
        exact hq
      rw [get_of_eq hentmid hq hq2]
      exact hbe hq2
    have hfull := reverse_get_full dcf lb ub (lockStep cl s hl).2.2 rsb k gts p0 hrsb
      (by rw [hentmid]; exact hsw') (by rw [hlw]; exact hC.wfW)
      (hC.dinv.of_sameDefault (lockStep_sameDefault cl s hl))
      (by rw [(lockStep_shape cl s hl).omit_value]; exact hC.omitv) hrangek
      hp0len' (by rw [hlw]; exact hpos0) hp0K' hbe'
    have h0 : (writeStep rsb sb (lockStep cl s hl).2.2 (.ok v0) gts k true)
        = (if !((lockStep cl s hl).2.2.reverse_get rsb k gts).2.1
           then (((lockStep cl s hl).2.2.reverse_get rsb k gts).1,
             (((lockStep cl s hl).2.2.reverse_get rsb k gts).2.2).move_write_cursor_to_prev_user_key
               k sb)
           else (((lockStep cl s hl).2.2.reverse_get rsb k gts).1,
             ((lockStep cl s hl).2.2.reverse_get rsb k gts).2.2)) := rfl
    have hfst : (writeStep rsb sb (lockStep cl s hl).2.2 (.ok v0) gts k true).1
        = ((lockStep cl s hl).2.2.reverse_get rsb k gts).1 := by
      rw [h0]
      split <;> rfl
    rw [hfst, hfull.1, hlw, hC.wents]
  rcases hl with _ | _
  · have hnolock : ∀ l, (k, l) ∈ LL → False := by
      intro l hmem
      have hi0 := List.mem_iff_get.1 hmem
      obtain ⟨⟨i, hi⟩, hgi⟩ := hi0
      have hi' : i < s.lock_cursor.entries.length := by
        rw [hC.lents]
        exact hi
      have hik : (s.lock_cursor.entries.get ⟨i, hi'⟩).1 = k := by
        rw [get_of_eq hC.lents hi' hi, hgi]
      obtain ⟨q, hq, hiq⟩ := hC.lk i hi' hik
      have hqlen := hC.wfL q hq
      have hvq : s.lock_cursor.valid = true := by
        simp [Cursor.valid, hq]
      rcases hfacts.2.2.2.2 rfl with hinvd | ⟨hv2, hklt⟩
      · rw [hvq] at hinvd
        cases hinvd
      · have hkq : s.lock_cursor.currentKey
            = (s.lock_cursor.entries.get ⟨q, hqlen⟩).1 :=
          Cursor.currentKey_eq_get s.lock_cursor hq hqlen
        rw [hkq] at hklt
        rcases Nat.eq_or_lt_of_le hiq with heq | hlt
        · subst heq
          have hx : (s.lock_cursor.entries.get ⟨i, hqlen⟩).1 = k := hik
          rw [hx] at hklt
          rw [keyLt_irrefl] at hklt
          cases hklt
        · have hkiq := LockSorted.key_lt hsl' hlt hqlen
          have hx : (s.lock_cursor.entries.get
              ⟨i, Nat.lt_trans hlt hqlen⟩).1 = k := hik
          rw [hx] at hkiq
          have htr := keyLt_trans hkiq hklt
          rw [keyLt_irrefl] at htr
          cases htr
    rcases hw with _ | _
    · rcases hfacts.1 with h | h <;> cases h
    · have h1 : (lockStep cl s false).1 = .ok none := rfl
      have hgts : (lockStep cl s false).2.1 = s.ts := rfl
      rw [h1, hval none ((lockStep cl s false).2.1) (hfacts.2.1 rfl).1
        (hfacts.2.1 rfl).2, hgts, hC.tsf, specAnswer_ok_some_iff]
      constructor
      · intro h
        exact ⟨fun l hmem => (hnolock l hmem).elim, h⟩
      · intro h
        exact h.2
  · have hlv := (hfacts.2.2.2.1 rfl).1
    have hlcur := (hfacts.2.2.2.1 rfl).2
    obtain ⟨q, hq⟩ := (Cursor.valid_iff_pos_some _).1 hlv
    have hqlen := hC.wfL q hq
    have hcurk : (s.lock_cursor.entries.get ⟨q, hqlen⟩).1 = k := by
      rw [← Cursor.currentKey_eq_get s.lock_cursor hq hqlen]
      exact hlcur
    have hcurv : s.lock_cursor.currentValue
        = (s.lock_cursor.entries.get ⟨q, hqlen⟩).2 :=
      Cursor.currentValue_eq_get s.lock_cursor hq hqlen
    have hmemk : (k, s.lock_cursor.currentValue) ∈ LL := by
      rw [hcurv, ← hcurk, Prod.mk.eta, ← hC.lents]
      exact List.get_mem _ _ _
    have huniq : ∀ l, (k, l) ∈ LL → l = s.lock_cursor.currentValue := by
      intro l hmem
      exact LockSorted.value_unique hsl hmem hmemk
    rcases hcl s.lock_cursor.currentValue hmemk with hnl | ⟨e, hle⟩
    · have hnl' : cl s.lock_cursor.currentValue s.ts = .NotLocked := by
        rw [hC.tsf]
        exact hnl
      have hls : lockStep cl s true = (.ok none, s.ts, s.lockPrev) := by
        unfold lockStep
        rw [if_pos rfl, hC.iso]
        dsimp only
        rw [hnl']
      rcases hw with _ | _
      · have hres : (writeStep rsb sb (lockStep cl s true).2.2 (lockStep cl s true).1
            (lockStep cl s true).2.1 k false).1 = .ok none := by
          have h0 : (writeStep rsb sb (lockStep cl s true).2.2 (lockStep cl s true).1
              (lockStep cl s true).2.1 k false)
              = ((lockStep cl s true).1, (lockStep cl s true).2.2) := rfl
          rw [h0]
          dsimp only
          rw [hls]
        rw [hres]
        constructor
        · intro hcon
          simp at hcon
        · rintro ⟨hclear, w, hnw, hput, hsv⟩
          exfalso
          obtain ⟨e2, hmem, hew, hek, hets, hpd⟩ := newestPD_mem hnw
          have hkex : ∃ e3 ∈ s.write_cursor.entries, e3.1.1 = k := by
            refine ⟨e2, ?_, hek⟩
            rw [hC.wents]
            exact hmem
          obtain ⟨p0, hp0len, hpos0, hge0, hbe0⟩ := hC.wk hkex
          rcases hfacts.2.2.1 rfl with hinvd | ⟨hv2, hklt⟩
          · have hvx : s.write_cursor.valid = true := by
              simp [Cursor.valid, hpos0]
            rw [hvx] at hinvd
            cases hinvd
          · have hck : s.write_cursor.currentKey
                = (s.write_cursor.entries.get ⟨p0, hp0len⟩).1 :=
              Cursor.currentKey_eq_get s.write_cursor hpos0 hp0len
            rw [hck] at hklt
            rw [hge0] at hklt
            cases hklt
      · have h1 : (lockStep cl s true).1 = .ok none := by
          rw [hls]
        have hgts : (lockStep cl s true).2.1 = s.ts := by
          rw [hls]
        rw [h1, hval none ((lockStep cl s true).2.1) (hfacts.2.1 rfl).1
          (hfacts.2.1 rfl).2, hgts, hC.tsf, specAnswer_ok_some_iff]
        constructor
        · intro h
          refine ⟨fun l hmem => ?_, h⟩
          rw [huniq l hmem]
          exact hnl
        · intro h
          exact h.2
    · have hle' : cl s.lock_cursor.currentValue s.ts = .Locked e := by
        rw [hC.tsf]
        exact hle
      have hls : lockStep cl s true = (.error (.KeyIsLocked e), s.ts, s.lockPrev) := by
        unfold lockStep
        rw [if_pos rfl, hC.iso]
        dsimp only
        rw [hle']
      have hres : (writeStep rsb sb (lockStep cl s true).2.2 (lockStep cl s true).1
          (lockStep cl s true).2.1 k hw).1 = .error (.KeyIsLocked e) := by
        rcases hw with _ | _
        · have h0 : (writeStep rsb sb (lockStep cl s true).2.2 (lockStep cl s true).1
              (lockStep cl s true).2.1 k false)
              = ((lockStep cl s true).1, (lockStep cl s true).2.2) := rfl
          rw [h0]
          dsimp only
          rw [hls]
        · have h1 : (lockStep cl s true).1 = .error (.KeyIsLocked e) := by
            rw [hls]
          rw [h1, writeStep_error]
      rw [hres]
      constructor
      · intro hcon
        cases hcon
      · rintro ⟨hclear, _⟩
        exfalso
        have hx := hclear s.lock_cursor.currentValue hmemk
        rw [hle] at hx
        cases hx

theorem currentKeyInfo_none (s : BackwardScanner) (h : s.currentKeyInfo = none) :
    s.write_cursor.valid = false ∧ s.lock_cursor.valid = false := by
  unfold currentKeyInfo at h
  rcases hwv : s.write_cursor.valid <;> rcases hlv : s.lock_cursor.valid <;>
    simp only [hwv, hlv, if_true, if_false, Bool.false_eq_true, Bool.true_eq_false] at h
  · exact ⟨rfl, rfl⟩
  · cases h
  · cases h
  · rcases hcmp : compareKeys s.write_cursor.currentKey.1 s.lock_cursor.currentKey with
      _ | _ | _ <;> rw [hcmp] at h <;> cases h

/-- Classification of one main loop run relative to the awaited user key k,
from a state carrying the scan invariant for k: a yielded pair at k always
matches the spec side claim; and either the run stopped above k with the
invariant intact and strict progress, or k's fate is settled — every granted
value was yielded by this very run and the final state lies strictly below
k. -/
theorem read_next_loop_c1 (dcf : List ((UserKey × Ts) × Value))
    (lb ub : Option UserKey) (LW : List ((UserKey × Ts) × Write))
    (LL : List (UserKey × LockRecord)) (k : UserKey) (ts : Ts)
    (cl : LockRecord → Ts → CheckLockResult) (rsb sb : Nat) (hrsb : 1 ≤ rsb)
    (hsw : WriteSorted LW) (hsl : LockSorted LL)
    (hallW : ∀ e ∈ LW, inRangeUser lb ub e.1.1 = true)
    (hallL : ∀ e ∈ LL, inRangeUser lb ub e.1 = true)
    (hrangek : inRangeUser lb ub k = true)
    (hcl : ∀ l, (k, l) ∈ LL → cl l ts = .NotLocked ∨ ∃ e, cl l ts = .Locked e)
    (fuel : Nat) :
    ∀ s : BackwardScanner, ScanReady dcf lb ub LW LL k ts s →
    scanMeasure s < fuel →
    ∀ r s1, read_next_loop rsb sb cl fuel s = (r, s1) →
      (∀ u, r = .ok (some (k, u)) → ClaimYield cl dcf LW LL k ts u) ∧
      ((ScanReady dcf lb ub LW LL k ts s1 ∧ scanMeasure s1 < scanMeasure s ∧
          r ≠ .ok none) ∨
       ((∀ u, ClaimYield cl dcf LW LL k ts u → r = .ok (some (k, u))) ∧
          BelowKey k s1)) := by
  induction fuel with
  | zero =>
    intro s hC hm
    exact absurd hm (Nat.not_lt_zero _)
  | succ n ih =>
    intro s hC hm r s1 h
    have horig := h
    rw [read_next_loop] at h
    split at h
    · rename_i hnone
      have h1 := congrArg Prod.fst h
      have h2 := congrArg Prod.snd h
      dsimp only at h1 h2
      subst h2
      have hinvd := currentKeyInfo_none s hnone
      constructor
      · intro u hu
        rw [← h1] at hu
        simp at hu
      · refine Or.inr ⟨?_, ?_, ?_⟩
        · intro u hu
          exfalso
          obtain ⟨e, hmem, hek⟩ := ClaimYield_entry hu
          have hkex : ∃ e2 ∈ s.write_cursor.entries, e2.1.1 = k := by
            refine ⟨e, ?_, hek⟩
            rw [hC.wents]
            exact hmem
          obtain ⟨p0, hp0len, hpos0, _, _⟩ := hC.wk hkex
          have hvx : s.write_cursor.valid = true := by
            simp [Cursor.valid, hpos0]
          rw [hinvd.1] at hvx
          cases hvx
        · intro hv
          rw [hinvd.1] at hv
          cases hv
        · intro hv
          rw [hinvd.2] at hv
          cases hv
    · rename_i cur hw2 hl2 heq
      dsimp only at h
      have hsw' : WriteSorted s.write_cursor.entries := by
        rw [hC.wents]
        exact hsw
      have hsl' : LockSorted s.lock_cursor.entries := by
        rw [hC.lents]
        exact hsl
      rcases hcmp : compareKeys k cur with _ | _ | _
      · have hkcur := compareKeys_lt hcmp
        have hpres := iteration_preserves_c1 dcf lb ub LW LL k ts cl rsb sb hrsb hsw
          hallW hallL s cur hw2 hl2 hC heq hkcur
        split at h
        · rename_i e1 hstep
          have h1 := congrArg Prod.fst h
          have h2 := congrArg Prod.snd h
          dsimp only at h1 h2
          subst h2
          constructor
          · intro u hu
            rw [← h1] at hu
            cases hu
          · refine Or.inl ⟨hpres.1, hpres.2, ?_⟩
            rw [← h1]
            intro hcon
            cases hcon
        · rename_i v1 hstep
          have h1 := congrArg Prod.fst h
          have h2 := congrArg Prod.snd h
          dsimp only at h1 h2
          subst h2
          constructor
          · intro u hu
            rw [← h1] at hu
            exfalso
            have hx := hu
            simp at hx
            rw [hx.1] at hkcur
            rw [keyLt_irrefl] at hkcur
            cases hkcur
          · refine Or.inl ⟨hpres.1, hpres.2, ?_⟩
            rw [← h1]
            intro hcon
            cases hcon
        · rename_i hstep
          have hm2 : scanMeasure (writeStep rsb sb (lockStep cl s hl2).2.2
              (lockStep cl s hl2).1 (lockStep cl s hl2).2.1 cur hw2).2 < n := by
            have hx := hpres.2
            omega
          have hres := ih (writeStep rsb sb (lockStep cl s hl2).2.2
            (lockStep cl s hl2).1 (lockStep cl s hl2).2.1 cur hw2).2 hpres.1 hm2 r s1 h
          refine ⟨hres.1, ?_⟩
          rcases hres.2 with ⟨ha, hb, hc⟩ | hok
          · refine Or.inl ⟨ha, ?_, hc⟩
            have hx := hpres.2
            omega
          · exact Or.inr hok
      · have hkeq := compareKeys_eq hcmp
        subst hkeq
        have hiff := k_iteration_c1 dcf lb ub LW LL k ts cl rsb sb hrsb hsw hsl
          hrangek hcl s hw2 hl2 hC heq
        have hbel := iteration_below rsb sb cl hrsb s k hw2 hl2 hsw' hsl' hC.wfW
          hC.wfL heq
        split at h
        · rename_i e1 hstep
          have h1 := congrArg Prod.fst h
          have h2 := congrArg Prod.snd h
          dsimp only at h1 h2
          subst h2
          constructor
          · intro u hu
            rw [← h1] at hu
            cases hu
          · refine Or.inr ⟨?_, hbel.1, hbel.2⟩
            intro u hu
            have hx := (hiff u).2 hu
            rw [hstep] at hx
            cases hx
        · rename_i v1 hstep
          have h1 := congrArg Prod.fst h
          have h2 := congrArg Prod.snd h
          dsimp only at h1 h2
          subst h2
          have hcy : ClaimYield cl dcf LW LL k ts v1 := (hiff v1).1 hstep
          constructor
          · intro u hu
            rw [← h1] at hu
            simp at hu
            exact hu ▸ hcy
          · refine Or.inr ⟨?_, hbel.1, hbel.2⟩
            intro u hu
            have hvu : v1 = u := ClaimYield_unique hcy hu
            rw [← h1, ← hvu]
        · rename_i hstep
          have hnoy : ∀ u, ¬ ClaimYield cl dcf LW LL k ts u := by
            intro u hu
            have hx := (hiff u).2 hu
            rw [hstep] at hx
            simp at hx
          have hshape : SameShape s (writeStep rsb sb (lockStep cl s hl2).2.2
              (lockStep cl s hl2).1 (lockStep cl s hl2).2.1 k hw2).2 :=
            SameShape.trans_shape (lockStep_shape cl s hl2) (writeStep_shape ..)
          have hkeep : KeepsWF s (writeStep rsb sb (lockStep cl s hl2).2.2
              (lockStep cl s hl2).1 (lockStep cl s hl2).2.1 k hw2).2 :=
            KeepsWF.trans_wf (lockStep_keeps cl s hl2) (writeStep_keeps ..)
          have hbd := read_next_loop_bounded rsb sb cl hrsb n (writeStep rsb sb
            (lockStep cl s hl2).2.2 (lockStep cl s hl2).1 (lockStep cl s hl2).2.1
            k hw2).2 k
            (by rw [hshape.write_entries]; exact hsw')
            (by rw [hshape.lock_entries]; exact hsl')
            (hkeep.w hC.wfW) (hkeep.l hC.wfL) hbel.1 hbel.2 r s1 h
          constructor
          · intro u hu
            have hx := hbd.1 k u hu
            rw [keyLt_irrefl] at hx
            cases hx
          · exact Or.inr ⟨fun u hu => (hnoy u hu).elim, hbd.2.1, hbd.2.2⟩
      · have hgt := compareKeys_gt hcmp
        have hfacts := currentKeyInfo_facts s cur hw2 hl2 heq
        have hbelow_s : BelowKey k s := by
          constructor
          · intro hv
            rcases hw2 with _ | _
            · rcases hfacts.2.2.1 rfl with hinvd | ⟨_, hlt⟩
              · rw [hv] at hinvd
                cases hinvd
              · exact keyLt_trans hlt hgt.1
            · rw [(hfacts.2.1 rfl).2]
              exact hgt.1
          · intro hv
            rcases hl2 with _ | _
            · rcases hfacts.2.2.2.2 rfl with hinvd | ⟨_, hlt⟩
              · rw [hv] at hinvd
                cases hinvd
              · exact keyLt_trans hlt hgt.1
            · rw [(hfacts.2.2.2.1 rfl).2]
              exact hgt.1
        have hbd := read_next_loop_bounded rsb sb cl hrsb (n + 1) s k hsw' hsl'
          hC.wfW hC.wfL hbelow_s.1 hbelow_s.2 r s1 horig
        constructor
        · intro u hu
          have hx := hbd.1 k u hu
          rw [keyLt_irrefl] at hx
          cases hx
        · refine Or.inr ⟨?_, hbd.2.1, hbd.2.2⟩
          intro u hu
          exfalso
          obtain ⟨e, hmem, hek⟩ := ClaimYield_entry hu
          have hkex : ∃ e2 ∈ s.write_cursor.entries, e2.1.1 = k := by
            refine ⟨e, ?_, hek⟩
            rw [hC.wents]
            exact hmem
          obtain ⟨p0, hp0len, hpos0, hge0, _⟩ := hC.wk hkex
          have hvx : s.write_cursor.valid = true := by
            simp [Cursor.valid, hpos0]
          have hlt := hbelow_s.1 hvx
          have hck : s.write_cursor.currentKey
              = (s.write_cursor.entries.get ⟨p0, hp0len⟩).1 :=
            Cursor.currentKey_eq_get s.write_cursor hpos0 hp0len
          rw [hck] at hlt
          rw [hge0] at hlt
          cases hlt

theorem initOnce_misc (s : BackwardScanner) :
    s.initOnce.isolation_level = s.isolation_level ∧ s.initOnce.ts = s.ts := by
  unfold initOnce
  split
  · exact ⟨rfl, rfl⟩
  · rcases hub : s.upper_bound with _ | u <;> dsimp only <;> exact ⟨rfl, rfl⟩

theorem read_next_initOnce (rsb sb : Nat) (cl : LockRecord → Ts → CheckLockResult)
    (s : BackwardScanner) :
    read_next rsb sb cl s = read_next rsb sb cl s.initOnce := by
  unfold read_next
  rw [initOnce_of_started s.initOnce (initOnce_is_started s)]

/-- The scan invariant for any in range user key k holds right after the once
only initialization of a freshly built scanner. -/
theorem ScanReady_establish (dcf : List ((UserKey × Ts) × Value))
    (lb ub : Option UserKey) (LW : List ((UserKey × Ts) × Write))
    (LL : List (UserKey × LockRecord)) (k : UserKey) (ts : Ts)
    (s : BackwardScanner)
    (hwents : s.write_cursor.entries = LW)
    (hlents : s.lock_cursor.entries = LL)
    (hwpos : s.write_cursor.pos = none)
    (hlpos : s.lock_cursor.pos = none)
    (hns : s.is_started = false)
    (hdinv : DefaultInv dcf lb ub s)
    (homit : s.omit_value = false)
    (hiso : s.isolation_level = IsolationLevel.SI)
    (hts : s.ts = ts)
    (hub : s.upper_bound = ub)
    (hsw : WriteSorted LW) (hsl : LockSorted LL)
    (hrangek : inRangeUser lb ub k = true) :
    ScanReady dcf lb ub LW LL k ts s.initOnce := by
  have hie := initOnce_entries s
  have hik := initOnce_keeps s
  have hmisc := initOnce_misc s
  refine ⟨?_, ?_, ?_, ?_, ?_, ?_, ?_, ?_, ?_, ?_⟩
  · rw [hie.1, hwents]
  · rw [hie.2, hlents]
  · refine hik.w ?_
    intro p hp
    rw [hwpos] at hp
    cases hp
  · refine hik.l ?_
    intro p hp
    rw [hlpos] at hp
    cases hp
  · exact hdinv.of_sameDefault (initOnce_sameDefault s)
  · rw [initOnce_omit_value]
    exact homit
  · rw [hmisc.1]
    exact hiso
  · rw [hmisc.2]
    exact hts
  · intro hkex
    have hents0 : s.initOnce.write_cursor.entries = LW := by
      rw [hie.1, hwents]
    have hkexLW : ∃ e ∈ LW, e.1.1 = k := by
      obtain ⟨e, he, hek⟩ := hkex
      refine ⟨e, ?_, hek⟩
      rw [← hents0]
      exact he
    have hsort0 : WriteSorted s.initOnce.write_cursor.entries := by
      rw [hents0]
      exact hsw
    rcases ub with _ | u
    · have hcur := initOnce_write_cursor_last s hns hub
      obtain ⟨e, heLW, hek⟩ := hkexLW
      obtain ⟨⟨i, hi⟩, hgi⟩ := List.mem_iff_get.1 heLW
      have hlenLW : 0 < LW.length := by omega
      have hne : s.write_cursor.entries.isEmpty = false := by
        rcases hempty : s.write_cursor.entries.isEmpty
        · rfl
        · exfalso
          rw [List.isEmpty_iff] at hempty
          rw [hwents] at hempty
          rw [hempty] at hlenLW
          simp at hlenLW
      have hpos0 : s.initOnce.write_cursor.pos
          = some (s.write_cursor.entries.length - 1) := by
        rw [hcur, Cursor.seek_to_last_pos,
          if_neg (by rw [hne]; exact Bool.false_ne_true)]
      have hplenLW : LW.length - 1 < LW.length := by omega
      have hplen0 : LW.length - 1 < s.initOnce.write_cursor.entries.length := by
        rw [hents0]
        exact hplenLW
      have hpos0' : s.initOnce.write_cursor.pos = some (LW.length - 1) := by
        rw [hpos0, hwents]
      refine ⟨LW.length - 1, hplen0, hpos0', ?_, ?_⟩
      · rw [get_of_eq hents0 hplen0 hplenLW]
        have hile : i ≤ LW.length - 1 := by omega
        have hkle := WriteSorted.key_le hsw hile hplenLW
        have hgi2 : LW.get ⟨i, Nat.lt_of_le_of_lt hile hplenLW⟩ = e := hgi
        rw [hgi2, hek] at hkle
        exact hkle
      · intro hq
        exfalso
        rw [hents0] at hq
        omega
    · have hcur := initOnce_write_cursor_ub s u hns hub
      have hkltu : keyLt k u = true := inRangeUser_upper hrangek
      have hcnt : 0 < LW.countP (fun e => keyLt e.1.1 u) :=
        countP_pos_of_key_entry u k LW hsw hkltu hkexLW
      have hpos0 : s.initOnce.write_cursor.pos
          = some (s.write_cursor.entries.countP (fun e => keyLt e.1.1 u) - 1) := by
        rw [hcur, Cursor.reverse_seek_pos]
        rw [if_neg (by
          show ¬ (s.write_cursor.entries.countP (fun e => keyLt e.1.1 u) = 0)
          rw [hwents]
          omega)]
      have hpos0' : s.initOnce.write_cursor.pos
          = some (s.initOnce.write_cursor.entries.countP
              (fun e => keyLt e.1.1 u) - 1) := by
        rw [hpos0, hie.1]
      exact writeAbove_build k u s.initOnce hsort0 hkltu hpos0' hkex
  · intro i hi hik2
    have hents0 : s.initOnce.lock_cursor.entries = LL := by
      rw [hie.2, hlents]
    have hiLL : i < LL.length := by
      rw [← hents0]
      exact hi
    have hikLL : (LL.get ⟨i, hiLL⟩).1 = k := by
      rw [← get_of_eq hents0 hi hiLL]
      exact hik2
    rcases ub with _ | u
    · have hcur := initOnce_lock_cursor_last s hns hub
      have hne : s.lock_cursor.entries.isEmpty = false := by
        rcases hempty : s.lock_cursor.entries.isEmpty
        · rfl
        · exfalso
          rw [List.isEmpty_iff] at hempty
          rw [hlents] at hempty
          rw [hempty] at hiLL
          simp at hiLL
      have hpos0 : s.initOnce.lock_cursor.pos
          = some (s.lock_cursor.entries.length - 1) := by
        rw [hcur, Cursor.seek_to_last_pos,
          if_neg (by rw [hne]; exact Bool.false_ne_true)]
      refine ⟨s.lock_cursor.entries.length - 1, hpos0, ?_⟩
      rw [hlents]
      omega
    · have hcur := initOnce_lock_cursor_ub s u hns hub
      have hkltu : keyLt k u = true := inRangeUser_upper hrangek
      have hdc : ∀ a b : UserKey × LockRecord, keyLt a.1 b.1 = true →
          (fun e => keyLt e.1 u) b = true → (fun e => keyLt e.1 u) a = true :=
        fun a b hr hp => keyLt_trans hr hp
      have hchar := sorted_get_iff_lt_countP hdc LL hsl.pairwise_lock
      have hicnt : i < LL.countP (fun e => keyLt e.1 u) :=
        (hchar i hiLL).1 (by
          show keyLt (LL.get ⟨i, hiLL⟩).1 u = true
          rw [hikLL]
          exact hkltu)
      have hpos0 : s.initOnce.lock_cursor.pos
          = some (s.lock_cursor.entries.countP (fun e => keyLt e.1 u) - 1) := by
        rw [hcur, Cursor.reverse_seek_pos]
        rw [if_neg (by
          show ¬ (s.lock_cursor.entries.countP (fun e => keyLt e.1 u) = 0)
          rw [hlents]
          omega)]
      refine ⟨s.lock_cursor.entries.countP (fun e => keyLt e.1 u) - 1, hpos0, ?_⟩
      rw [hlents]
      omega

end BackwardScanner

/-- Over repeated read_next calls from a ready, already started state with
enough call budget, the awaited key k is emitted with value v exactly when
the spec side claim grants v to k. -/
theorem scanCollect_c1 (dcf : List ((UserKey × Ts) × Value))
    (lb ub : Option UserKey) (LW : List ((UserKey × Ts) × Write))
    (LL : List (UserKey × LockRecord)) (k : UserKey) (ts : Ts)
    (cl : LockRecord → Ts → CheckLockResult) (rsb sb : Nat) (hrsb : 1 ≤ rsb)
    (hsw : WriteSorted LW) (hsl : LockSorted LL)
    (hallW : ∀ e ∈ LW, inRangeUser lb ub e.1.1 = true)
    (hallL : ∀ e ∈ LL, inRangeUser lb ub e.1 = true)
    (hrangek : inRangeUser lb ub k = true)
    (hcl : ∀ l, (k, l) ∈ LL → cl l ts = .NotLocked ∨ ∃ e, cl l ts = .Locked e)
    (calls : Nat) :
    ∀ s : BackwardScanner, s.is_started = true →
    ScanReady dcf lb ub LW LL k ts s →
    scanMeasure s < calls →
    ∀ v, (k, v) ∈ scanCollect rsb sb cl calls s
      ↔ ClaimYield cl dcf LW LL k ts v := by
  induction calls with
  | zero =>
    intro s _ _ hm
    exact absurd hm (Nat.not_lt_zero _)
  | succ n ih =>
    intro s hstart hC hm v
    rcases hcall : BackwardScanner.read_next rsb sb cl s with ⟨r, s1⟩
    have hloop : BackwardScanner.read_next_loop rsb sb cl
        (s.lock_cursor.entries.length + s.write_cursor.entries.length + 1) s
        = (r, s1) := by
      rw [← BackwardScanner.read_next_eq_of_started rsb sb cl s hstart]
      exact hcall
    have hfuel : scanMeasure s
        < s.lock_cursor.entries.length + s.write_cursor.entries.length + 1 := by
      have hx := scanMeasure_le s hC.wfW hC.wfL
      omega
    have hcls := BackwardScanner.read_next_loop_c1 dcf lb ub LW LL k ts cl rsb sb
      hrsb hsw hsl hallW hallL hrangek hcl
      (s.lock_cursor.entries.length + s.write_cursor.entries.length + 1) s hC hfuel
      r s1 hloop
    have hstart1 : s1.is_started = true := by
      have h0 := BackwardScanner.read_next_is_started rsb sb cl s
      rw [hcall] at h0
      exact h0
    have hpres := read_next_pres rsb sb cl s
    rw [hcall] at hpres
    dsimp only at hpres
    have hsw1 : WriteSorted s1.write_cursor.entries := by
      rw [hpres.1, hC.wents]
      exact hsw
    have hsl1 : LockSorted s1.lock_cursor.entries := by
      rw [hpres.2.1, hC.lents]
      exact hsl
    rw [scanCollect, hcall]
    rcases r with e | ov
    · dsimp only
      rcases hcls.2 with ⟨hC1, hm1, _⟩ | ⟨hpend, hbelow⟩
      · exact ih s1 hstart1 hC1 (by omega) v
      · constructor
        · intro hmem
          exfalso
          have hx := scanCollect_below rsb sb cl hrsb n s1 k hstart1 hsw1 hsl1
            (hpres.2.2.1 hC.wfW) (hpres.2.2.2 hC.wfL) hbelow.1 hbelow.2 (k, v) hmem
          dsimp only at hx
          rw [keyLt_irrefl] at hx
          cases hx
        · intro hy
          have hx := hpend v hy
          cases hx
    · rcases ov with _ | kv1
      · dsimp only
        constructor
        · intro hmem
          cases hmem
        · intro hy
          rcases hcls.2 with ⟨_, _, hne⟩ | ⟨hpend, _⟩
          · exact absurd rfl hne
          · have hx := hpend v hy
            simp at hx
      · dsimp only
        constructor
        · intro hmem
          rcases List.mem_cons.1 hmem with heq2 | hmem2
          · exact hcls.1 v (by rw [← heq2])
          · rcases hcls.2 with ⟨hC1, hm1, _⟩ | ⟨hpend, hbelow⟩
            · exact (ih s1 hstart1 hC1 (by omega) v).1 hmem2
            · exfalso
              have hx := scanCollect_below rsb sb cl hrsb n s1 k hstart1 hsw1 hsl1
                (hpres.2.2.1 hC.wfW) (hpres.2.2.2 hC.wfL) hbelow.1 hbelow.2
                (k, v) hmem2
              dsimp only at hx
              rw [keyLt_irrefl] at hx
              cases hx
        · intro hy
          rcases hcls.2 with ⟨hC1, hm1, _⟩ | ⟨hpend, hbelow⟩
          · exact List.mem_cons_of_mem _ ((ih s1 hstart1 hC1 (by omega) v).2 hy)
          · have hx := hpend v hy
            have hkv : kv1 = (k, v) := Option.some.inj (Except.ok.inj hx)
            rw [hkv]
            exact List.mem_cons_self _ _

theorem scanCollect_initOnce (rsb sb : Nat) (cl : LockRecord → Ts → CheckLockResult)
    (n : Nat) (s : BackwardScanner) :
    scanCollect rsb sb cl (n + 1) s = scanCollect rsb sb cl (n + 1) s.initOnce := by
  rw [scanCollect, scanCollect, BackwardScanner.read_next_initOnce]

/-- The default CF completeness invariant guarantees that the deciding Put of
any readable user key has a value: its short value, or its default CF
entry. -/
theorem specValue_some_of_complete (snap : Snapshot) (k : UserKey) (ts : Ts)
    (w : Write) (hdcp : DefaultComplete snap)
    (hw : newestPD snap.write_cf k ts = some w)
    (hput : w.write_type = WriteType.Put) :
    ∃ v, specValue snap.default_cf k w = some v := by
  obtain ⟨e, hmem, hew, hek, hets, _⟩ := newestPD_mem hw
  unfold specValue
  rcases hsv : w.short_value with _ | v
  · dsimp only
    have hsv_e : e.2.short_value = none := by
      rw [hew]
      exact hsv
    have hput_e : e.2.write_type = WriteType.Put := by
      rw [hew]
      exact hput
    obtain ⟨v, hv⟩ := hdcp e hmem hput_e hsv_e
    rw [hek, hew] at hv
    rcases hf : snap.default_cf.find? (fun e2 => e2.1 == (k, w.start_ts)) with _ | e2
    · exfalso
      have hall := List.find?_eq_none.1 hf ((k, w.start_ts), v) hv
      apply hall
      show ((((k, w.start_ts), v) : (UserKey × Ts) × Value).1 == (k, w.start_ts)) = true
      simp
    · refine ⟨e2.2, ?_⟩
      rw [hf]
      rfl
  · exact ⟨v, rfl⟩

/-- Transfer of the granted value predicate between the range filtered entry
lists the scanner holds and the raw snapshot of the claim. -/
theorem ClaimYield_iff_spec (snap : Snapshot) (lb ub : Option UserKey)
    (cl : LockRecord → Ts → CheckLockResult) (k : UserKey) (ts : Ts) (v : Value)
    (hrangek : inRangeUser lb ub k = true) :
    ClaimYield cl snap.default_cf
      (snap.write_cf.filter (fun e => inRangeUser lb ub e.1.1))
      (snap.lock_cf.filter (fun e => inRangeUser lb ub e.1)) k ts v
    ↔ (LockClear cl snap.lock_cf k ts ∧
       ∃ w, newestPD snap.write_cf k ts = some w ∧ w.write_type = WriteType.Put ∧
         specValue snap.default_cf k w = some v) := by
  unfold ClaimYield
  rw [LockClear_filter_iff cl lb ub snap.lock_cf k ts hrangek,
    newestPD_filter lb ub snap.write_cf k ts hrangek]

/-- C1: for every snapshot satisfying the data model invariants (sorted write
CF, sorted lock CF, complete default CF), every read timestamp ts and every
user key k inside the configured half open range, with an external lock
visibility check that answers NotLocked or Locked on k's lock record:
repeated read_next calls on a freshly built scanner eventually yield a pair
(k, v) if and only if no blocking lock applies to k and the write CF holds a
deciding record for k at ts that is a Put — newestPD finds the first Put or
Delete of k with commit_ts ≤ ts in physical order, so it is a Put exactly
when some committed Put with commit_ts ≤ ts is not superseded by a Delete at
a greater (but still ≤ ts) commit timestamp, and Lock and Rollback records
never take part in it; moreover every yielded value v is the value of that
newest Put (its short value, or the default CF content stored under its start
timestamp), so Lock and Rollback records never influence v. -/
theorem c1_reverse_scan_point_read (snap : Snapshot) (lb ub : Option UserKey)
    (ts : Ts) (k : UserKey) (cl : LockRecord → Ts → CheckLockResult)
    (rsb sb calls : Nat) (hrsb : 1 ≤ rsb)
    (hsw : WriteSorted snap.write_cf) (hsl : LockSorted snap.lock_cf)
    (hdcp : DefaultComplete snap)
    (hrangek : inRangeUser lb ub k = true)
    (hcl : ∀ l, (k, l) ∈ snap.lock_cf →
      cl l ts = .NotLocked ∨ ∃ e, cl l ts = .Locked e)
    (hcalls : snap.lock_cf.length + snap.write_cf.length < calls) :
    ((∃ v, (k, v) ∈ scanCollect rsb sb cl calls
        (BackwardScannerBuilder.build
          { snapshot := snap, ts := ts, lower_bound := lb, upper_bound := ub }))
      ↔ (LockClear cl snap.lock_cf k ts ∧
          ∃ w, newestPD snap.write_cf k ts = some w ∧
            w.write_type = WriteType.Put)) ∧
    (∀ v, (k, v) ∈ scanCollect rsb sb cl calls
        (BackwardScannerBuilder.build
          { snapshot := snap, ts := ts, lower_bound := lb, upper_bound := ub }) →
      ∃ w, newestPD snap.write_cf k ts = some w ∧ w.write_type = WriteType.Put ∧
        specValue snap.default_cf k w = some v) := by
  obtain ⟨n, rfl⟩ : ∃ n, calls = n + 1 := ⟨calls - 1, by omega⟩
  have hswf : WriteSorted (snap.write_cf.filter (fun e => inRangeUser lb ub e.1.1)) :=
    List.Pairwise.filter _ hsw
  have hslf : LockSorted (snap.lock_cf.filter (fun e => inRangeUser lb ub e.1)) :=
    List.Pairwise.filter _ hsl
  have hallW : ∀ e ∈ snap.write_cf.filter (fun e => inRangeUser lb ub e.1.1),
      inRangeUser lb ub e.1.1 = true := fun e he => (List.mem_filter.1 he).2
  have hallL : ∀ e ∈ snap.lock_cf.filter (fun e => inRangeUser lb ub e.1),
      inRangeUser lb ub e.1 = true := fun e he => (List.mem_filter.1 he).2
  have hclf : ∀ l, (k, l) ∈ snap.lock_cf.filter (fun e => inRangeUser lb ub e.1) →
      cl l ts = .NotLocked ∨ ∃ e, cl l ts = .Locked e :=
    fun l hm => hcl l (List.mem_filter.1 hm).1
  have hready := BackwardScanner.ScanReady_establish snap.default_cf lb ub
    (snap.write_cf.filter (fun e => inRangeUser lb ub e.1.1))
    (snap.lock_cf.filter (fun e => inRangeUser lb ub e.1)) k ts
    (BackwardScannerBuilder.build
      { snapshot := snap, ts := ts, lower_bound := lb, upper_bound := ub })
    rfl rfl rfl rfl rfl ⟨rfl, Or.inl ⟨rfl, rfl, rfl⟩⟩ rfl rfl rfl rfl
    hswf hslf hrangek
  have hmeas : scanMeasure (BackwardScannerBuilder.build
      { snapshot := snap, ts := ts, lower_bound := lb,
        upper_bound := ub }).initOnce < n + 1 := by
    have h1 := scanMeasure_le _ hready.wfW hready.wfL
    have h2 : (BackwardScannerBuilder.build
        { snapshot := snap, ts := ts, lower_bound := lb,
          upper_bound := ub }).initOnce.lock_cursor.entries.length
        ≤ snap.lock_cf.length := by
      rw [hready.lents]
      exact List.length_filter_le _ _
    have h3 : (BackwardScannerBuilder.build
        { snapshot := snap, ts := ts, lower_bound := lb,
          upper_bound := ub }).initOnce.write_cursor.entries.length
        ≤ snap.write_cf.length := by
      rw [hready.wents]
      exact List.length_filter_le _ _
    omega
  have hiff := scanCollect_c1 snap.default_cf lb ub
    (snap.write_cf.filter (fun e => inRangeUser lb ub e.1.1))
    (snap.lock_cf.filter (fun e => inRangeUser lb ub e.1)) k ts cl rsb sb hrsb
    hswf hslf hallW hallL hrangek hclf (n + 1)
    (BackwardScannerBuilder.build
      { snapshot := snap, ts := ts, lower_bound := lb, upper_bound := ub }).initOnce
    (BackwardScanner.initOnce_is_started _) hready hmeas
  rw [scanCollect_initOnce]
  constructor
  · constructor
    · rintro ⟨v, hv⟩
      have hy := (hiff v).1 hv
      rw [ClaimYield_iff_spec snap lb ub cl k ts v hrangek] at hy
      obtain ⟨hlc, w, hw, hput, _⟩ := hy
      exact ⟨hlc, w, hw, hput⟩
    · rintro ⟨hlc, w, hw, hput⟩
      obtain ⟨v, hv⟩ := specValue_some_of_complete snap k ts w hdcp hw hput
      refine ⟨v, (hiff v).2 ?_⟩
      rw [ClaimYield_iff_spec snap lb ub cl k ts v hrangek]
      exact ⟨hlc, w, hw, hput, hv⟩
  · intro v hv
    have hy := (hiff v).1 hv
    rw [ClaimYield_iff_spec snap lb ub cl k ts v hrangek] at hy
    exact hy.2

theorem c1_reverse_scan_point_read_witness :
    ((∃ v, ([3], v) ∈ scanCollect 16 16 (fun _ _ => CheckLockResult.NotLocked) 2
        (BackwardScannerBuilder.build
          { snapshot := ⟨[(([3], 2), ⟨WriteType.Put, 2, some [9]⟩)], [], []⟩,
            ts := 5, lower_bound := none, upper_bound := none }))
      ↔ (LockClear (fun _ _ => CheckLockResult.NotLocked) [] [3] 5 ∧
          ∃ w, newestPD [(([3], 2), ⟨WriteType.Put, 2, some [9]⟩)] [3] 5 = some w ∧
            w.write_type = WriteType.Put)) ∧
    (∀ v, ([3], v) ∈ scanCollect 16 16 (fun _ _ => CheckLockResult.NotLocked) 2
        (BackwardScannerBuilder.build
          { snapshot := ⟨[(([3], 2), ⟨WriteType.Put, 2, some [9]⟩)], [], []⟩,
            ts := 5, lower_bound := none, upper_bound := none }) →
      ∃ w, newestPD [(([3], 2), ⟨WriteType.Put, 2, some [9]⟩)] [3] 5 = some w ∧
        w.write_type = WriteType.Put ∧
        specValue [] [3] w = some v) :=
  c1_reverse_scan_point_read
    ⟨[(([3], 2), ⟨WriteType.Put, 2, some [9]⟩)], [], []⟩ none none 5 [3]
    (fun _ _ => CheckLockResult.NotLocked) 16 16 2 (by decide)
    (by unfold WriteSorted; simp) (by unfold LockSorted; exact List.Pairwise.nil)
    (by
      intro e he hput hsv
      rw [List.mem_singleton] at he
      subst he
      cases hsv)
    (by decide)
    (by
      intro l hm
      cases hm)
    (by decide)

end Lemmas

end BackwardScannerModel

